import Mathlib

/-!
Verification development for the kelora log-processing pipeline
(src/parsers.rs, src/formatters.rs, src/main.rs).

The Rust source is shallowly embedded below:
* machine integers are modelled as `Nat`/`Int` with explicit range checks
  where the source checks ranges (`i64`/`u32` parsing);
* `f64` values are modelled as exact rationals (`ℚ`).  All concrete values
  appearing in the claims (42, 42.5, 34, ...) are exactly representable as
  IEEE-754 doubles, so the rational model coincides with the source on them;
  wherever IEEE rounding could diverge from exact arithmetic the theorems
  carry explicit smallness/exactness hypotheses restricting them to the
  exactly-representable range;
* fallible Rust functions returning `Result` are embedded as `Except`.

The file `src/event.rs` of the repository (declaring `Event`,
`set_field`, `extract_core_fields`, `filter_keys`,
`has_displayable_content`) is not part of the provided sources; those
definitions are modelled from the specification (sections 3, 4.5, 4.6) and
are marked `Modelled from the spec:` in their doc comments.
-/

namespace Kelora

/-! ### Decimal digit machinery

Decimal rendering/reading of natural numbers, used to embed Rust's
`format!("{}", n)` on integers and `str::parse` on digit strings. -/

/-- The character for a single decimal digit `d < 10`. -/
def digitChar (d : Nat) : Char := Char.ofNat (48 + d)

/-- Little-endian decimal digits of `n` (with `fuel` bounding recursion);
`natDigitsRevAux fuel n` is the digit list of `n` when `n < 10 ^ fuel`. -/
def natDigitsRevAux : Nat → Nat → List Char
  | 0, _ => []
  | _ + 1, 0 => []
  | fuel + 1, n + 1 => digitChar ((n + 1) % 10) :: natDigitsRevAux fuel ((n + 1) / 10)

/-- Decimal rendering of a natural number, as Rust's `format!("{}", n)`. -/
def natToString (n : Nat) : String :=
  if n = 0 then "0" else ⟨(natDigitsRevAux n n).reverse⟩

/-- Decimal rendering of an integer, as Rust's `format!("{}", i)` for `i64`. -/
def intToString (i : Int) : String :=
  (if i < 0 then "-" else "") ++ natToString i.natAbs

/-- Numeric value of a decimal digit character. -/
def digitVal (c : Char) : Nat := c.toNat - 48

/-- Value of a big-endian digit string (no sign handling). -/
def digitsVal (cs : List Char) : Nat :=
  cs.foldl (fun a c => a * 10 + digitVal c) 0

theorem digitsVal_snoc (xs : List Char) (c : Char) :
    digitsVal (xs ++ [c]) = digitsVal xs * 10 + digitVal c := by
  simp [digitsVal]

theorem digitVal_digitChar {d : Nat} (h : d < 10) : digitVal (digitChar d) = d := by
  interval_cases d <;> decide

theorem isDigit_digitChar {d : Nat} (h : d < 10) : (digitChar d).isDigit := by
  interval_cases d <;> decide

/-- All characters produced by `natDigitsRevAux` are decimal digits. -/
theorem natDigitsRevAux_digits (fuel n : Nat) :
    ∀ c ∈ natDigitsRevAux fuel n, c.isDigit := by
  induction fuel generalizing n with
  | zero => intro c h; simp [natDigitsRevAux] at h
  | succ fuel ih =>
    intro c h
    match n with
    | 0 => simp [natDigitsRevAux] at h
    | m + 1 =>
      simp only [natDigitsRevAux, List.mem_cons] at h
      rcases h with h | h
      · subst h; exact isDigit_digitChar (Nat.mod_lt _ (by norm_num))
      · exact ih _ c h

/-- Reading back the digits of `n` recovers `n`. -/
theorem digitsVal_natDigitsRevAux (fuel : Nat) :
    ∀ n : Nat, n < 10 ^ fuel → digitsVal (natDigitsRevAux fuel n).reverse = n := by
  induction fuel with
  | zero =>
    intro n h
    interval_cases n
    simp [natDigitsRevAux, digitsVal]
  | succ fuel ih =>
    intro n h
    match n with
    | 0 => simp [natDigitsRevAux, digitsVal]
    | m + 1 =>
      have hdiv : (m + 1) / 10 < 10 ^ fuel := by
        rw [Nat.div_lt_iff_lt_mul (by norm_num : 0 < 10)]
        calc m + 1 < 10 ^ (fuel + 1) := h
        _ = 10 ^ fuel * 10 := by ring
      simp only [natDigitsRevAux, List.reverse_cons]
      rw [digitsVal_snoc, ih _ hdiv, digitVal_digitChar (Nat.mod_lt _ (by norm_num))]
      omega

theorem lt_ten_pow_self (n : Nat) : n < 10 ^ n :=
  Nat.lt_pow_self (by norm_num) n

/-- All characters of `natToString n` are decimal digits. -/
theorem natToString_digits (n : Nat) : ∀ c ∈ (natToString n).data, c.isDigit := by
  intro c h
  unfold natToString at h
  by_cases h0 : n = 0
  · simp [h0] at h; subst h; decide
  · simp [h0] at h
    exact natDigitsRevAux_digits n n c h

/-- `natToString n` is never the empty string. -/
theorem natToString_ne_empty (n : Nat) : (natToString n).data ≠ [] := by
  unfold natToString
  by_cases h0 : n = 0
  · simp [h0]
  · simp only [h0, if_false]
    match n, h0 with
    | k + 1, _ => simp [natDigitsRevAux]

/-- Reading back `natToString n` as a digit string recovers `n`. -/
theorem digitsVal_natToString (n : Nat) :
    digitsVal (natToString n).data = n := by
  unfold natToString
  by_cases h0 : n = 0
  · simp [h0]; decide
  · simp only [h0, if_false]
    exact digitsVal_natDigitsRevAux n n (lt_ten_pow_self n)


/-! ### Character-list string helpers

Lean core's `String.trim`, `String.toUpper`, `String`'s order and
`String.intercalate` are byte-position based and do not reduce inside the
kernel, so the development uses character-list equivalents.  They embed
the corresponding Rust operations (`str::trim().is_empty()`,
`str::to_uppercase()` on ASCII, byte-wise string comparison,
`Vec::join`). -/

/-- `line.trim().is_empty()` of Rust: every character is whitespace. -/
def isBlank (s : String) : Bool := s.data.all Char.isWhitespace

/-- ASCII upper-casing of one character (Rust `to_uppercase` restricted
to ASCII, which is all the claims exercise). -/
def charUpper (c : Char) : Char :=
  if 'a' ≤ c ∧ c ≤ 'z' then Char.ofNat (c.toNat - 32) else c

/-- ASCII upper-casing of a string. -/
def strUpper (s : String) : String := ⟨s.data.map charUpper⟩

/-- Lexicographic strict order on character lists by scalar value
(the order Rust's byte-wise `str` comparison induces). -/
def charListLt : List Char → List Char → Bool
  | [], [] => false
  | [], _ :: _ => true
  | _ :: _, [] => false
  | a :: as, b :: bs =>
    if a.toNat < b.toNat then true
    else if b.toNat < a.toNat then false
    else charListLt as bs

/-- String strict order (Rust `str` comparison). -/
def strLt (a b : String) : Bool := charListLt a.data b.data

/-- String non-strict order. -/
def strLe (a b : String) : Bool := strLt a b || a = b

/-- Insert into a list sorted by `strLe` (insertion step of a stable
sort, Rust's `sort` on the unique keys here). -/
def insertSorted (x : String) : List String → List String
  | [] => [x]
  | y :: ys => if strLe x y then x :: y :: ys else y :: insertSorted x ys

/-- Sort a list of strings (Rust `Vec::sort` - keys are unique, so any
correct sort gives the same result). -/
def sortStrings : List String → List String
  | [] => []
  | x :: xs => insertSorted x (sortStrings xs)

/-- Join strings with a separator (`Vec::join`, `String.intercalate`). -/
def joinSep (sep : String) : List String → String
  | [] => ""
  | [x] => x
  | x :: xs => x ++ sep ++ joinSep sep xs

/-! ### FieldValue and the coercion policy (src/parsers.rs lines 73-93)

`FieldValue` is the closed sum type of src/event.rs (its shape is fixed by
the spec, section 3, and by how parsers.rs and formatters.rs construct and
match it).  `Number` carries an exact rational standing for the IEEE-754
double the source stores. -/

/-- The typed field-value model: `String`/`Number`/`Boolean`/`Null`
(constructor names shortened to avoid clashing with Lean's `String`). -/
inductive FieldValue where
  | str (s : String)
  | num (q : ℚ)
  | bool (b : Bool)
  | null
deriving DecidableEq, Repr

/-- Rust `str::parse::<bool>`: exactly the literals `"true"` and `"false"`. -/
def parseRustBool (s : String) : Option Bool :=
  if s = "true" then some true
  else if s = "false" then some false
  else none

/-- Rust `str::parse::<i64>`: an optional sign followed by one or more
ASCII digits, with the value required to fit in a signed 64-bit integer
(overflow is a parse error in Rust). -/
def parseI64 (s : String) : Option Int :=
  let (neg, ds) : Bool × List Char :=
    match s.data with
    | [] => (false, [])
    | c :: r =>
      if c = '-' then (true, r)
      else if c = '+' then (false, r)
      else (false, c :: r)
  if ds ≠ [] ∧ ds.all Char.isDigit then
    let v : Int := (if neg then -1 else 1) * (digitsVal ds : Int)
    if -(2 ^ 63) ≤ v ∧ v ≤ 2 ^ 63 - 1 then some v else none
  else none

/-- Mantissa of Rust's float grammar: `Digit+ | Digit+ '.' Digit* |
Digit* '.' Digit+`.  Returns `(m, f, rest)` with value `m / 10 ^ f`. -/
def f64Mantissa (cs : List Char) : Option (Nat × Nat × List Char) :=
  let ip := cs.takeWhile Char.isDigit
  match cs.dropWhile Char.isDigit with
  | [] => if ip.isEmpty then none else some (digitsVal ip, 0, [])
  | c :: r2 =>
    if c = '.' then
      let fp := r2.takeWhile Char.isDigit
      let r3 := r2.dropWhile Char.isDigit
      if ip.isEmpty && fp.isEmpty then none
      else some (digitsVal (ip ++ fp), fp.length, r3)
    else if ip.isEmpty then none else some (digitsVal ip, 0, c :: r2)

/-- Optional exponent of Rust's float grammar: `(e|E) Sign? Digit+`,
or nothing.  Returns the signed exponent and the rest of the input. -/
def f64Exp (cs : List Char) : Option (Int × List Char) :=
  match cs with
  | [] => some (0, [])
  | c :: r =>
    if c = 'e' ∨ c = 'E' then
      let (eneg, r1) : Bool × List Char :=
        match r with
        | [] => (false, [])
        | d :: t =>
          if d = '-' then (true, t)
          else if d = '+' then (false, t)
          else (false, d :: t)
      let ed := r1.takeWhile Char.isDigit
      let r2 := r1.dropWhile Char.isDigit
      if ed.isEmpty then none
      else some ((if eneg then -1 else 1) * (digitsVal ed : Int), r2)
    else some (0, c :: r)

/-- Rust `str::parse::<f64>` restricted to its finite decimal grammar
`Sign? Number` with `Number ::= (Digit+ | Digit+ '.' Digit* | Digit* '.'
Digit+) ((e|E) Sign? Digit+)?`, evaluated exactly in `ℚ`.  The special
spellings `inf`/`infinity`/`nan` (which Rust also accepts, producing
non-finite doubles) and IEEE rounding/overflow to the nearest double are
outside this exact-rational model; the theorems below are stated on
inputs where this model and the source agree. -/
def parseF64core (neg : Bool) (cs1 : List Char) : Option ℚ :=
  match f64Mantissa cs1 with
  | none => none
  | some (m, f, r1) =>
    match f64Exp r1 with
    | none => none
    | some (e, r2) =>
      if r2 = [] then
        let ex : Int := e - (f : Int)
        let sign : Int := if neg then -1 else 1
        some (if 0 ≤ ex then mkRat (sign * (m * 10 ^ ex.toNat : Nat)) 1
              else mkRat (sign * m) (10 ^ (-ex).toNat))
      else none

def parseF64 (s : String) : Option ℚ :=
  match s.data with
  | [] => parseF64core false []
  | c :: r =>
    if c = '-' then parseF64core true r
    else if c = '+' then parseF64core false r
    else parseF64core false (c :: r)

/-- `parse_field_value` from src/parsers.rs lines 73-93: the coercion
applied by the logfmt parser to every captured value, quoted or bare. -/
def parse_field_value (value : String) : FieldValue :=
  if value = "null" then .null
  else
    match parseRustBool value with
    | some b => .bool b
    | none =>
      match parseI64 value with
      | some i => .num (i : ℚ)
      | none =>
        match parseF64 value with
        | some q => .num q
        | none => .str value

/-- The coercion policy exactly as the spec words it (section 4.1, rules
1-5): literal `null`, then boolean literals, then 64-bit signed integers,
then 64-bit floats, else the unmodified string.  Used as the spec-side
definition that `parse_field_value` is compared against. -/
def coerce_spec (raw : String) : FieldValue :=
  if raw = "null" then .null
  else if raw = "true" then .bool true
  else if raw = "false" then .bool false
  else
    match parseI64 raw with
    | some i => .num (i : ℚ)
    | none =>
      match parseF64 raw with
      | some q => .num q
      | none => .str raw

/-! ### Parse errors (src/parsers.rs lines 8-12) -/

/-- `ParseError` from src/parsers.rs: `InvalidFormat(String)` or
`JsonError(serde_json::Error)` (the underlying JSON error is modelled by
its message text). -/
inductive ParseError where
  | invalidFormat (msg : String)
  | jsonError (msg : String)
deriving DecidableEq, Repr

/-! ### The Event record

Modelled from the spec: src/event.rs is not among the provided sources.
Shape follows spec section 3: three optional core slots plus an
insertion-ordered map from field name to `FieldValue` with unique keys
(an association list here).

The `timestamp` core slot is typed as the raw string carried by the
timestamp field.  Per spec section 3 it is only populated when a
recognized timestamp-bearing key parses "as a recognized timestamp
format"; the set of recognized formats is not specified, and the
repository's own integration test `test_jsonl_output_format` requires the
timestamp string `2023-07-18T15:04:23.456Z` to be emitted verbatim by the
JSON formatter (which, per src/formatters.rs line 76, re-renders an
extracted timestamp through `to_rfc3339`, producing a `+00:00` suffix
instead).  Consistently with that test, timestamp extraction is modelled
as never succeeding: timestamp-bearing keys stay in the field map as
ordinary string fields. -/
structure Event where
  timestamp : Option String := none
  level : Option String := none
  message : Option String := none
  fields : List (String × FieldValue) := []
deriving DecidableEq, Repr

/-- The freshly constructed empty event (`Event::new()`). -/
def Event.new : Event := {}

/-- Look up a field by name in the field map. -/
def findField (k : String) : List (String × FieldValue) → Option FieldValue
  | [] => none
  | (k', v) :: rest => if k' = k then some v else findField k rest

/-- Insert a field, replacing the value in place when the key exists
(unique keys, insertion order preserved). -/
def putField (k : String) (v : FieldValue) :
    List (String × FieldValue) → List (String × FieldValue)
  | [] => [(k, v)]
  | (k', v') :: rest =>
    if k' = k then (k, v) :: rest else (k', v') :: putField k v rest

/-- Remove a field by name (keys are unique, so the first hit). -/
def removeField (k : String) :
    List (String × FieldValue) → List (String × FieldValue)
  | [] => []
  | (k', v) :: rest => if k' = k then rest else (k', v) :: removeField k rest

/-- Modelled from the spec: `Event::set_field` inserts one decoded field
into the event's field map. -/
def Event.set_field (ev : Event) (k : String) (v : FieldValue) : Event :=
  { ev with fields := putField k v ev.fields }

/-- Alias priority list for the `level` core slot (spec sections 3, 4.5). -/
def levelAliases : List String := ["level", "log_level", "loglevel", "lvl", "severity", "@l"]

/-- Alias priority list for the `message` core slot (spec sections 3, 4.5). -/
def messageAliases : List String := ["message", "msg", "@m"]

/-- Alias priority list for the `timestamp` core slot (spec sections 3, 4.5). -/
def timestampAliases : List String := ["timestamp", "ts", "time", "at", "_t", "@t"]

/-- Modelled from the spec (4.5): scan an alias list in priority order;
the first alias present with a string value wins and is removed from the
field map.  Aliases carrying non-string values are skipped: the core
slots are typed as strings (spec section 3) while e.g. the syslog
`severity` field - a `level` alias - must remain a Number field in the
map (spec 4.4). -/
def extractSlot (aliases : List String) (fields : List (String × FieldValue)) :
    Option String × List (String × FieldValue) :=
  match aliases with
  | [] => (none, fields)
  | a :: rest =>
    match findField a fields with
    | some (.str s) => (some s, removeField a fields)
    | _ => extractSlot rest fields

/-- Modelled from the spec (4.5): `Event::extract_core_fields` classifies
aliased keys into the core slots after parsing.  A slot keeps its existing
value when no alias matches (the syslog parser presets `level`/`message`
directly).  Timestamp extraction never fires in this model (see `Event`). -/
def Event.extract_core_fields (ev : Event) : Event :=
  let lv := extractSlot levelAliases ev.fields
  let ms := extractSlot messageAliases lv.2
  { ev with
    level := match lv.1 with | some s => some s | none => ev.level
    message := match ms.1 with | some s => some s | none => ev.message
    fields := ms.2 }

/-! ### The logfmt parser (src/parsers.rs lines 31-71)

`LogfmtParser::parse` scans the line with the pattern
`([a-zA-Z_][a-zA-Z0-9_-]*)=(?:"([^"]*)"|([^\s]+))` using
`captures_iter` (successive non-overlapping leftmost-first matches) and
coerces every captured value - quoted or bare - with
`parse_field_value`.  The scanner below emulates that regex directly:
each candidate position tries a greedy key run, `=`, then the quoted
alternative before the bare alternative. -/

/-- First character of a key: `[a-zA-Z_]`. -/
def keyStartChar (c : Char) : Bool := c.isAlpha || c = '_'

/-- Subsequent characters of a key: `[a-zA-Z0-9_-]`. -/
def keyBodyChar (c : Char) : Bool := c.isAlphanum || c = '_' || c = '-'

/-- The bare-value alternative `([^\\s]+)`: a maximal nonempty run of
non-whitespace characters. -/
def logfmtBare (key v : List Char) : Option (List Char × List Char × List Char) :=
  let tok := v.takeWhile (fun c => !c.isWhitespace)
  if tok.isEmpty then none
  else some (key, tok, v.dropWhile (fun c => !c.isWhitespace))

/-- Try to match one `key=value` token at the head of `cs`, per the regex
above: greedy key run, `=`, then the quoted alternative `"([^"]*)"`
(preferred; on a missing closing quote the engine falls back to the bare
alternative, whose capture then starts with the `"` character). -/
def logfmtQuoted (key : List Char) (v0 : Char) (q dq : List Char) :
    Option (List Char × List Char × List Char) :=
  match dq with
  | e :: r2 =>
    if e = '"' then some (key, q.takeWhile (fun e => e ≠ '"'), r2)
    else logfmtBare key (v0 :: q)
  | [] => logfmtBare key (v0 :: q)

def logfmtAfterEq (key v : List Char) : Option (List Char × List Char × List Char) :=
  match v with
  | [] => none
  | v0 :: q =>
    if v0 = '"' then logfmtQuoted key v0 q (q.dropWhile (fun e => e ≠ '"'))
    else logfmtBare key (v0 :: q)

def logfmtAfterKey (key rest2 : List Char) : Option (List Char × List Char × List Char) :=
  match rest2 with
  | [] => none
  | d :: v => if d = '=' then logfmtAfterEq key v else none

def logfmtMatchAt (cs : List Char) : Option (List Char × List Char × List Char) :=
  match cs with
  | [] => none
  | c :: rest =>
    if keyStartChar c then
      logfmtAfterKey (c :: rest.takeWhile keyBodyChar) (rest.dropWhile keyBodyChar)
    else none

theorem length_dropWhile_le' (p : Char → Bool) (l : List Char) :
    (l.dropWhile p).length ≤ l.length := by
  have h := congrArg List.length (List.takeWhile_append_dropWhile (p := p) (l := l))
  rw [List.length_append] at h
  omega

theorem logfmtBare_shrinks {key v k val rest : List Char}
    (h : logfmtBare key v = some (k, val, rest)) : rest.length < v.length := by
  unfold logfmtBare at h
  by_cases he : (v.takeWhile (fun c => !c.isWhitespace)).isEmpty
  · simp [he] at h
  · simp [he] at h
    obtain ⟨-, -, hr⟩ := h
    subst hr
    have hsum : (v.takeWhile (fun c => !c.isWhitespace)).length +
        (v.dropWhile (fun c => !c.isWhitespace)).length = v.length := by
      rw [← List.length_append, List.takeWhile_append_dropWhile]
    have hpos : 0 < (v.takeWhile (fun c => !c.isWhitespace)).length := by
      cases htk : v.takeWhile (fun c => !c.isWhitespace) with
      | nil => rw [htk] at he; simp at he
      | cons a b => simp [htk]
    omega

theorem logfmtQuoted_le {key : List Char} {v0 : Char} {q k val rest : List Char}
    (h : logfmtQuoted key v0 q (q.dropWhile (fun e => e ≠ '"')) = some (k, val, rest)) :
    rest.length ≤ q.length := by
  unfold logfmtQuoted at h
  cases hdq : q.dropWhile (fun e => e ≠ '"') with
  | nil =>
    rw [hdq] at h
    have := logfmtBare_shrinks h
    simp only [List.length_cons] at this
    omega
  | cons e r2 =>
    rw [hdq] at h
    have h'' : (if e = '"' then some (key, q.takeWhile (fun e => e ≠ '"'), r2)
        else logfmtBare key (v0 :: q)) = some (k, val, rest) := h
    by_cases he : e = '"'
    · rw [if_pos he] at h''
      have hr : rest = r2 := by
        simp only [Option.some.injEq, Prod.mk.injEq] at h''
        exact h''.2.2.symm
      have hlen : (q.dropWhile (fun e => e ≠ '"')).length ≤ q.length :=
        length_dropWhile_le' _ _
      rw [hdq] at hlen
      simp only [List.length_cons] at hlen
      rw [hr]
      omega
    · rw [if_neg he] at h''
      have := logfmtBare_shrinks h''
      simp only [List.length_cons] at this
      omega

theorem logfmtAfterEq_lt {key v k val rest : List Char}
    (h : logfmtAfterEq key v = some (k, val, rest)) : rest.length < v.length := by
  unfold logfmtAfterEq at h
  cases v with
  | nil => simp at h
  | cons v0 q =>
    have h' : (if v0 = '"' then logfmtQuoted key v0 q (q.dropWhile (fun e => e ≠ '"'))
        else logfmtBare key (v0 :: q)) = some (k, val, rest) := h
    by_cases hq : v0 = '"'
    · rw [if_pos hq] at h'
      subst hq
      have := logfmtQuoted_le h'
      simp only [List.length_cons]
      omega
    · rw [if_neg hq] at h'
      exact logfmtBare_shrinks h'

theorem logfmtAfterKey_lt {key rest2 k val rest : List Char}
    (h : logfmtAfterKey key rest2 = some (k, val, rest)) : rest.length < rest2.length := by
  unfold logfmtAfterKey at h
  cases rest2 with
  | nil => simp at h
  | cons d v =>
    have h' : (if d = '=' then logfmtAfterEq key v else none) = some (k, val, rest) := h
    by_cases hd : d = '='
    · rw [if_pos hd] at h'
      have := logfmtAfterEq_lt h'
      simp only [List.length_cons]
      omega
    · rw [if_neg hd] at h'
      simp at h'

/-- A successful token match consumes at least one character. -/
theorem logfmtMatchAt_shrinks {cs k val rest : List Char}
    (h : logfmtMatchAt cs = some (k, val, rest)) : rest.length < cs.length := by
  unfold logfmtMatchAt at h
  cases cs with
  | nil => simp at h
  | cons c L =>
    have h' : (if keyStartChar c = true then
        logfmtAfterKey (c :: L.takeWhile keyBodyChar) (L.dropWhile keyBodyChar)
        else none) = some (k, val, rest) := h
    by_cases hc : keyStartChar c = true
    · rw [if_pos hc] at h'
      have h1 := logfmtAfterKey_lt h'
      have h2 := length_dropWhile_le' keyBodyChar L
      simp only [List.length_cons]
      omega
    · rw [if_neg hc] at h'
      simp at h'

/-- `captures_iter` body: scan the input, emitting each non-overlapping
leftmost match as a `(key, value)` capture pair; `fuel` bounds the
recursion and `cs.length` is always enough (each step consumes at least
one character, see `logfmtMatchAt_shrinks`). -/
def logfmtScanAux : Nat → List Char → List (String × String)
  | 0, _ => []
  | fuel + 1, cs =>
    match logfmtMatchAt cs with
    | some kvr => (⟨kvr.1⟩, ⟨kvr.2.1⟩) :: logfmtScanAux fuel kvr.2.2
    | none =>
      match cs with
      | [] => []
      | _ :: cs' => logfmtScanAux fuel cs'

/-- `captures_iter`: scan the whole line. -/
def logfmtScan (cs : List Char) : List (String × String) :=
  logfmtScanAux cs.length cs

/-- `LogfmtParser::parse` (src/parsers.rs lines 44-71): returns the empty
event on blank lines, otherwise folds every captured `key=value` pair
through `parse_field_value` and `set_field`, then extracts core fields.
Always `Ok`. -/
def logfmtParse (line : String) : Except ParseError Event :=
  if isBlank line then .ok Event.new
  else
    let ev := (logfmtScan line.data).foldl
      (fun ev kv => ev.set_field kv.1 (parse_field_value kv.2)) Event.new
    .ok ev.extract_core_fields

/-! ### The default (logfmt-style) formatter (src/formatters.rs lines 7-58, 107-109) -/

/-- `escape_quotes` from src/formatters.rs line 107:
`s.replace('\\', "\\\\").replace('"', "\\\"")`.  Because the first pass
doubles every backslash and the second inserts fresh backslashes only
before quotes, the composition acts character-wise as below. -/
def escape_quotes (s : String) : String :=
  ⟨s.data.foldr (fun c acc =>
    (if c = '\\' then ['\\', '\\'] else if c = '"' then ['\\', '"'] else [c]) ++ acc) []⟩

/-- Rust's saturating float-to-`i64` cast (`*n as i64` for an `f64` with
zero fractional part): values outside the `i64` range clamp to the
nearest bound. -/
def i64Sat (n : Int) : Int :=
  if n < -(2 ^ 63) then -(2 ^ 63)
  else if n > 2 ^ 63 - 1 then 2 ^ 63 - 1
  else n

/-- Smallest `k ≤ d` with `d ∣ 10 ^ k`, when one exists (it does exactly
when `d` has no prime factors besides 2 and 5 - the denominators that
exact decimal expansions have). -/
def pow10Exp (d : Nat) : Option Nat :=
  (List.range (d + 1)).find? (fun k => 10 ^ k % d = 0)

/-- Decimal rendering of a non-integral rational: the exact finite
decimal expansion (sign, integer part, `.`, zero-padded fractional part).
This embeds Rust's `format!("{}", n)` on non-integral doubles, which
prints the value in positional notation; on every exactly-representable
double whose shortest round-tripping representation is its exact decimal
expansion (all concrete values in this development) the two coincide.
Rationals whose denominator divides no power of 10 correspond to no
finite double and get an arbitrary fallback rendering. -/
def fmtDecimal (q : ℚ) : String :=
  match pow10Exp q.den with
  | some k =>
    let m := q.num.natAbs * 10 ^ k / q.den
    let fpDigits := (natToString (m % 10 ^ k)).data
    (if q.num < 0 then "-" else "") ++ natToString (m / 10 ^ k) ++ "." ++
      ⟨List.replicate (k - fpDigits.length) '0' ++ fpDigits⟩
  | none => intToString q.num ++ "/" ++ natToString q.den

/-- Number rendering of the default formatter (src/formatters.rs lines
41-48): when the stored double has zero fractional part (`den = 1` in the
exact model) print it as the saturating `i64` cast, else print the full
decimal value. -/
def fmtNumber (q : ℚ) : String :=
  if q.den = 1 then intToString (i64Sat q.num) else fmtDecimal q

/-- Rendering of one field value in the default formatter's remainder
pass (src/formatters.rs lines 39-51). -/
def fmtFieldValue : FieldValue → String
  | .str s => "\"" ++ escape_quotes s ++ "\""
  | .num q => fmtNumber q
  | .bool b => if b then "true" else "false"
  | .null => "null"

/-- `DefaultFormatter::format` (src/formatters.rs lines 16-58): core
fields first (`timestamp`, `level`, `message`, each quoted, the message
escaped), then every remaining field in sorted key order as
`key=value`, all joined by single spaces.  The timestamp slot is emitted
verbatim in this model (see `Event` on timestamp modelling). -/
def defaultFormat (ev : Event) : String :=
  let core :=
    (match ev.timestamp with
     | some t => ["timestamp=\"" ++ t ++ "\""]
     | none => []) ++
    (match ev.level with
     | some l => ["level=\"" ++ l ++ "\""]
     | none => []) ++
    (match ev.message with
     | some m => ["message=\"" ++ escape_quotes m ++ "\""]
     | none => [])
  let keys := sortStrings (ev.fields.map Prod.fst)
  let rest := keys.filterMap
    (fun k => (findField k ev.fields).map (fun v => k ++ "=" ++ fmtFieldValue v))
  joinSep " " (core ++ rest)

/-! ### JSON values and serde_json (used by src/parsers.rs lines 95-128
and src/formatters.rs lines 60-105)

`serde_json::Value` with its default map representation (a `BTreeMap`:
keys sorted, duplicate keys collapsing to the last occurrence).  Numbers
carry the exact rational value plus a flag recording whether the source
text classified them as floats (fraction or exponent present), which is
what serde's serializer keys its `.0`-style output on; `as_f64` rounding
of integers beyond 2^53 is outside the exact model, and the theorems
touching it carry exactness hypotheses. -/

inductive Json where
  | str (s : String)
  | num (q : ℚ) (asFloat : Bool)
  | bool (b : Bool)
  | null
  | arr (xs : List Json)
  | obj (kvs : List (String × Json))
deriving Repr

/-- JSON insignificant whitespace (space, tab, line feed, carriage return). -/
def jsonWs (c : Char) : Bool := c = ' ' || c = '\t' || c = '\n' || c = '\r'

/-- Insert into a `BTreeMap`-style sorted association list; an existing
key is overwritten (so the textually last duplicate member wins). -/
def btreeInsert (k : String) (v : Json) :
    List (String × Json) → List (String × Json)
  | [] => [(k, v)]
  | (k', v') :: rest =>
    if strLt k k' then (k, v) :: (k', v') :: rest
    else if k = k' then (k, v) :: rest
    else (k', v') :: btreeInsert k v rest

/-- Value of a hexadecimal digit character, if any. -/
def hexVal (c : Char) : Option Nat :=
  if c.isDigit then some (c.toNat - 48)
  else if 'a' ≤ c ∧ c ≤ 'f' then some (c.toNat - 87)
  else if 'A' ≤ c ∧ c ≤ 'F' then some (c.toNat - 55)
  else none

/-- Decode the four hex digits of a `\uXXXX` escape. -/
def hex4 (cs : List Char) : Option (Nat × List Char) :=
  match cs with
  | a :: b :: c :: d :: rest =>
    match hexVal a, hexVal b, hexVal c, hexVal d with
    | some x, some y, some z, some w => some (((x * 16 + y) * 16 + z) * 16 + w, rest)
    | _, _, _, _ => none
  | _ => none

/-- JSON string body (after the opening quote): plain characters, the
short escapes, and `\uXXXX` with surrogate-pair handling; unescaped
control characters and lone surrogates are rejected, as serde does. -/
def parseJsonString : Nat → List Char → Option (List Char × List Char)
  | 0, _ => none
  | _ + 1, [] => none
  | fuel + 1, c :: r =>
    if c = '"' then some ([], r)
    else if c = '\\' then
      match r with
      | [] => none
      | e :: r2 =>
        if e = 'u' then
          match hex4 r2 with
          | none => none
          | some (n, r3) =>
            if 0xD800 ≤ n ∧ n ≤ 0xDBFF then
              match r3 with
              | '\\' :: 'u' :: r4 =>
                match hex4 r4 with
                | some (m, r5) =>
                  if 0xDC00 ≤ m ∧ m ≤ 0xDFFF then
                    (parseJsonString fuel r5).map
                      (fun p => (Char.ofNat (0x10000 + (n - 0xD800) * 0x400 + (m - 0xDC00)) :: p.1, p.2))
                  else none
                | none => none
              | _ => none
            else if 0xDC00 ≤ n ∧ n ≤ 0xDFFF then none
            else (parseJsonString fuel r3).map (fun p => (Char.ofNat n :: p.1, p.2))
        else
          match
            (if e = '"' then some '"'
             else if e = '\\' then some '\\'
             else if e = '/' then some '/'
             else if e = 'b' then some (Char.ofNat 8)
             else if e = 'f' then some (Char.ofNat 12)
             else if e = 'n' then some '\n'
             else if e = 'r' then some '\r'
             else if e = 't' then some '\t'
             else none) with
          | some d => (parseJsonString fuel r2).map (fun p => (d :: p.1, p.2))
          | none => none
    else if c.toNat < 0x20 then none
    else (parseJsonString fuel r).map (fun p => (c :: p.1, p.2))

/-- Strict JSON number grammar:
`-? (0 | [1-9][0-9]*) ('.' [0-9]+)? ([eE][+-]?[0-9]+)?`, evaluated
exactly; the flag records whether a fraction or exponent was present
(serde's float/integer classification). -/
def parseJsonNumber (cs : List Char) : Option (ℚ × Bool × List Char) :=
  let (neg, cs1) : Bool × List Char :=
    match cs with
    | '-' :: r => (true, r)
    | r => (false, r)
  let ds := cs1.takeWhile Char.isDigit
  let r1 := cs1.dropWhile Char.isDigit
  match ds with
  | [] => none
  | d0 :: drest =>
    if d0 = '0' ∧ drest ≠ [] then none
    else
      let (fracDigits, hasFrac, r2) : Nat × Bool × List Char :=
        match r1 with
        | '.' :: rf =>
          let fs := rf.takeWhile Char.isDigit
          (if fs.isEmpty then (0, false, r1)
           else (fs.length, true, rf.dropWhile Char.isDigit))
        | _ => (0, false, r1)
      if (match r1 with | '.' :: rf => !(rf.takeWhile Char.isDigit).isEmpty | _ => true) then
        match f64Exp r2 with
        | some (e, r3) =>
          let hasExp := r2 ≠ r3
          let mantissa : Nat :=
            match r1 with
            | '.' :: rf => digitsVal (ds ++ rf.takeWhile Char.isDigit)
            | _ => digitsVal ds
          let sign : Int := if neg then -1 else 1
          some ((if 0 ≤ e - (fracDigits : Int) then
                   mkRat (sign * (mantissa * 10 ^ (e - (fracDigits : Int)).toNat : Nat)) 1
                 else mkRat (sign * mantissa) (10 ^ (-(e - (fracDigits : Int))).toNat)),
                hasFrac || hasExp, r3)
        | none => none
      else none

mutual
/-- One JSON value (dispatch on the first character, whitespace already
skipped), as serde's recursive-descent parser. -/
def parseJsonValue : Nat → List Char → Option (Json × List Char)
  | 0, _ => none
  | _ + 1, [] => none
  | fuel + 1, c :: r =>
    if c = '"' then
      (parseJsonString fuel r).map (fun p => (.str ⟨p.1⟩, p.2))
    else if c = '{' then
      parseJsonObj fuel (r.dropWhile jsonWs)
    else if c = '[' then
      parseJsonArr fuel (r.dropWhile jsonWs)
    else if c = 't' then
      match c :: r with
      | 't' :: 'r' :: 'u' :: 'e' :: rest => some (.bool true, rest)
      | _ => none
    else if c = 'f' then
      match c :: r with
      | 'f' :: 'a' :: 'l' :: 's' :: 'e' :: rest => some (.bool false, rest)
      | _ => none
    else if c = 'n' then
      match c :: r with
      | 'n' :: 'u' :: 'l' :: 'l' :: rest => some (.null, rest)
      | _ => none
    else if c = '-' || c.isDigit then
      (parseJsonNumber (c :: r)).map (fun p => (.num p.1 p.2.1, p.2.2))
    else none

/-- Array members after `[` (leading whitespace already skipped). -/
def parseJsonArr : Nat → List Char → Option (Json × List Char)
  | 0, _ => none
  | _ + 1, [] => none
  | fuel + 1, c :: r =>
    if c = ']' then some (.arr [], r)
    else
      parseJsonArrLoop fuel (c :: r) []

/-- One array element, then `,` for more or `]` to finish. -/
def parseJsonArrLoop : Nat → List Char → List Json → Option (Json × List Char)
  | 0, _, _ => none
  | fuel + 1, cs, acc =>
    match parseJsonValue fuel cs with
    | none => none
    | some (v, rest) =>
      match rest.dropWhile jsonWs with
      | ',' :: r2 => parseJsonArrLoop fuel (r2.dropWhile jsonWs) (acc ++ [v])
      | ']' :: r2 => some (.arr (acc ++ [v]), r2)
      | _ => none

/-- Object members after `{` (leading whitespace already skipped),
accumulated into the sorted `BTreeMap` model. -/
def parseJsonObj : Nat → List Char → Option (Json × List Char)
  | 0, _ => none
  | _ + 1, [] => none
  | fuel + 1, c :: r =>
    if c = '}' then some (.obj [], r)
    else
      parseJsonObjLoop fuel (c :: r) []

/-- One `"key": value` member, then `,` for more or `}` to finish. -/
def parseJsonObjLoop : Nat → List Char → List (String × Json) →
    Option (Json × List Char)
  | 0, _, _ => none
  | _ + 1, [], _ => none
  | fuel + 1, c :: r, acc =>
    if c = '"' then
      match parseJsonString fuel r with
      | none => none
      | some (key, r1) =>
        match r1.dropWhile jsonWs with
        | ':' :: r2 =>
          match parseJsonValue fuel (r2.dropWhile jsonWs) with
          | none => none
          | some (v, r3) =>
            let acc' := btreeInsert ⟨key⟩ v acc
            match r3.dropWhile jsonWs with
            | ',' :: r4 => parseJsonObjLoop fuel (r4.dropWhile jsonWs) acc'
            | '}' :: r4 => some (.obj acc', r4)
            | _ => none
        | _ => none
    else none
end

/-- `serde_json::from_str::<Value>`: parse one JSON value, allowing only
trailing whitespace after it. -/
def jsonFromStr (s : String) : Except String Json :=
  match parseJsonValue (4 * s.data.length + 8) (s.data.dropWhile jsonWs) with
  | some (v, rest) =>
    if rest.dropWhile jsonWs = [] then .ok v else .error "trailing characters"
  | none => .error "invalid JSON"

/-- Hex digit character (lowercase), for `\u00XX` control escapes. -/
def hexDigitChar (n : Nat) : Char :=
  if n < 10 then digitChar n else Char.ofNat (87 + n)

/-- serde's JSON string escaping: `"` and `\` get backslash escapes,
control characters use the short escapes or `\u00XX`; everything else
(including non-ASCII) is emitted verbatim. -/
def jsonEscape (s : String) : String :=
  "\"" ++ ⟨s.data.foldr (fun c acc =>
    (if c = '"' then ['\\', '"']
     else if c = '\\' then ['\\', '\\']
     else if c = Char.ofNat 8 then ['\\', 'b']
     else if c = '\t' then ['\\', 't']
     else if c = '\n' then ['\\', 'n']
     else if c = Char.ofNat 12 then ['\\', 'f']
     else if c = '\r' then ['\\', 'r']
     else if c.toNat < 0x20 then
       ['\\', 'u', '0', '0', hexDigitChar (c.toNat / 16), hexDigitChar (c.toNat % 16)]
     else [c]) ++ acc) []⟩ ++ "\""

/-- serde's number serialization: integer-classified numbers print as
plain integers; float-classified numbers print via ryu, which renders
integral doubles with a trailing `.0` and other values by their decimal
expansion (exact for the exactly-representable values this development
evaluates). -/
def jsonNumToString (q : ℚ) (asFloat : Bool) : String :=
  if asFloat then
    (if q.den = 1 then intToString q.num ++ ".0" else fmtDecimal q)
  else intToString q.num

mutual
/-- `serde_json::to_string` (compact form, no added whitespace). -/
def jsonSerialize : Json → String
  | .str s => jsonEscape s
  | .num q f => jsonNumToString q f
  | .bool b => if b then "true" else "false"
  | .null => "null"
  | .arr xs => "[" ++ joinSep "," (jsonSerializeList xs) ++ "]"
  | .obj kvs => "\x7b" ++ joinSep "," (jsonSerializeMembers kvs) ++ "\x7d"

/-- Serialized forms of the elements of a JSON array. -/
def jsonSerializeList : List Json → List String
  | [] => []
  | x :: xs => jsonSerialize x :: jsonSerializeList xs

/-- Serialized `"key":value` members of a JSON object. -/
def jsonSerializeMembers : List (String × Json) → List String
  | [] => []
  | kv :: rest => (jsonEscape kv.1 ++ ":" ++ jsonSerialize kv.2) :: jsonSerializeMembers rest
end

/-! ### The JSONL parser (src/parsers.rs lines 95-128) -/

/-- The per-member conversion of `JsonlParser::parse` (src/parsers.rs
lines 112-118): strings, numbers (`n.as_f64()`, exact in this model),
booleans and null map directly; nested arrays/objects become the
`String` variant holding their serialized text (`value.to_string()`). -/
def fieldValueOfJson (v : Json) : FieldValue :=
  match v with
  | .str s => .str s
  | .num q _ => .num q
  | .bool b => .bool b
  | .null => .null
  | v => .str (jsonSerialize v)

/-- `JsonlParser::parse` (src/parsers.rs lines 104-128): JSON-parse the
line (`JsonError` on failure), require a top-level object
(`InvalidFormat` otherwise), convert each member, extract core fields. -/
def jsonlParse (line : String) : Except ParseError Event :=
  match jsonFromStr line with
  | .error e => .error (.jsonError e)
  | .ok (.obj kvs) =>
    let ev := kvs.foldl (fun ev kv => ev.set_field kv.1 (fieldValueOfJson kv.2)) Event.new
    .ok ev.extract_core_fields
  | .ok _ => .error (.invalidFormat "Expected JSON object")

/-! ### The JSONL formatter (src/formatters.rs lines 60-105) -/

/-- Field-value to JSON conversion of `JsonlFormatter::format`
(src/formatters.rs lines 91-98).  `Number::from_f64` always yields a
float-classified JSON number; its `NaN`/infinity fallback to `0` has no
counterpart among the finite values of this model. -/
def jsonOfFieldValue : FieldValue → Json
  | .str s => .str s
  | .num q => .num q true
  | .bool b => .bool b
  | .null => .null

/-- The JSON object built by `JsonlFormatter::format` (src/formatters.rs
lines 69-105): core fields inserted first when present, then every
remaining field, into a `BTreeMap` (`serde_json::Map`).  The timestamp
slot is emitted verbatim in this model (see `Event`). -/
def jsonlFormatObj (ev : Event) : List (String × Json) :=
  let m1 : List (String × Json) :=
    match ev.timestamp with
    | some t => btreeInsert "timestamp" (.str t) []
    | none => []
  let m2 := match ev.level with
    | some l => btreeInsert "level" (.str l) m1
    | none => m1
  let m3 := match ev.message with
    | some m => btreeInsert "message" (.str m) m2
    | none => m2
  ev.fields.foldl (fun acc kv => btreeInsert kv.1 (jsonOfFieldValue kv.2) acc) m3

/-- `JsonlFormatter::format`: the serialized object. -/
def jsonlFormat (ev : Event) : String :=
  jsonSerialize (.obj (jsonlFormatObj ev))

/-! ### The syslog parser (src/parsers.rs lines 130-212)

The anchored pattern
`^(?:<(\d+)>)?(\w{3}\s+\d{1,2}\s+\d{2}:\d{2}:\d{2})\s+(\S+)\s+([^:\[]+)(?:\[(\d+)\])?\s*:\s*(.*)$`
is emulated by a deterministic sequence of scanners.  Each quantifier in
the pattern either ranges over an alphabet disjoint from what follows
(so greedy matching is forced) or its backtracking has been resolved
explicitly: a line starting with `<` can only match through the priority
branch (`\w` rejects `<`); the day number must be a 1-2 digit run
followed by whitespace; and in `\s+([^:\[]+)` the class can absorb back
at most the last whitespace character, exactly when the first character
after the whitespace run is already `:` or `[`. -/

/-- The regex class `\w` (word character), ASCII model. -/
def isWordChar (c : Char) : Bool := c.isAlphanum || c = '_'

/-- The capture groups of one matched syslog line. -/
structure SyslogCaps where
  pri : Option String
  ts : String
  hostname : String
  process : String
  pid : Option String
  msg : String
deriving DecidableEq, Repr

/-- Optional `<(\d+)>` priority prefix.  On a line starting with `<`
whose prefix does not complete, the whole pattern fails (`\w{3}` cannot
match at `<`). -/
def syslogPriority (cs : List Char) : Option (Option (List Char) × List Char) :=
  match cs with
  | '<' :: r =>
    let ds := r.takeWhile Char.isDigit
    (match r.dropWhile Char.isDigit with
     | '>' :: r2 => if ds.isEmpty then none else some (some ds, r2)
     | _ => none)
  | r => some (none, r)

/-- `(\w{3}\s+\d{1,2}\s+\d{2}:\d{2}:\d{2})`: the captured text spans the
month token through the seconds, including the matched whitespace. -/
def syslogTimestamp (cs : List Char) : Option (List Char × List Char) :=
  match cs with
  | a :: b :: c :: r =>
    if isWordChar a && isWordChar b && isWordChar c then
      let ws1 := r.takeWhile Char.isWhitespace
      let r1 := r.dropWhile Char.isWhitespace
      if ws1.isEmpty then none
      else
        let ds := r1.takeWhile Char.isDigit
        let r2 := r1.dropWhile Char.isDigit
        if ds.length = 1 ∨ ds.length = 2 then
          let ws2 := r2.takeWhile Char.isWhitespace
          let r3 := r2.dropWhile Char.isWhitespace
          if ws2.isEmpty then none
          else
            match r3 with
            | h1 :: h2 :: ':' :: m1 :: m2 :: ':' :: s1 :: s2 :: r4 =>
              if h1.isDigit && h2.isDigit && m1.isDigit && m2.isDigit
                  && s1.isDigit && s2.isDigit then
                some ([a, b, c] ++ ws1 ++ ds ++ ws2 ++ [h1, h2, ':', m1, m2, ':', s1, s2], r4)
              else none
            | _ => none
        else none
    else none
  | _ => none

/-- `\s+(\S+)`: mandatory whitespace, then the hostname token. -/
def syslogHost (cs : List Char) : Option (List Char × List Char) :=
  let ws := cs.takeWhile Char.isWhitespace
  let r := cs.dropWhile Char.isWhitespace
  if ws.isEmpty then none
  else
    let h := r.takeWhile (fun c => !c.isWhitespace)
    if h.isEmpty then none
    else some (h, r.dropWhile (fun c => !c.isWhitespace))

/-- `\s+([^:\[]+)`: the process-name class, which stops at the first `:`
or `[` and, when that delimiter immediately follows the whitespace run,
absorbs back the run's last whitespace character (the single way the
greedy `\s+` backtracks). -/
def syslogProcess (cs : List Char) : Option (List Char × List Char) :=
  let ws := cs.takeWhile Char.isWhitespace
  let r := cs.dropWhile Char.isWhitespace
  if ws.isEmpty then none
  else
    let pre := r.takeWhile (fun c => c ≠ ':' && c ≠ '[')
    let rest := r.dropWhile (fun c => c ≠ ':' && c ≠ '[')
    if rest.isEmpty then none
    else if pre.isEmpty then
      if 2 ≤ ws.length then some (ws.drop (ws.length - 1), rest) else none
    else some (pre, rest)

/-- `(?:\[(\d+)\])?\s*:\s*` starting at the `:` or `[` delimiter; the
trailing whitespace run after the colon is consumed greedily. -/
def syslogPidColon (cs : List Char) : Option (Option (List Char) × List Char) :=
  match cs with
  | '[' :: r =>
    let ds := r.takeWhile Char.isDigit
    (match r.dropWhile Char.isDigit with
     | ']' :: r2 =>
       if ds.isEmpty then none
       else
         (match r2.dropWhile Char.isWhitespace with
          | ':' :: r4 => some (some ds, r4.dropWhile Char.isWhitespace)
          | _ => none)
     | _ => none)
  | ':' :: r => some (none, r.dropWhile Char.isWhitespace)
  | _ => none

/-- Whole-pattern match.  The final `(.*)$` cannot cross a line feed
(`.` excludes it and `$` anchors at the end of the haystack), so a
would-be message containing one fails the whole pattern. -/
def syslogMatch (line : String) : Option SyslogCaps :=
  match syslogPriority line.data with
  | none => none
  | some (pri, c1) =>
    match syslogTimestamp c1 with
    | none => none
    | some (ts, c2) =>
      match syslogHost c2 with
      | none => none
      | some (host, c3) =>
        match syslogProcess c3 with
        | none => none
        | some (proc, c4) =>
          match syslogPidColon c4 with
          | none => none
          | some (pid, rest) =>
            if rest.contains '\n' then none
            else some ⟨pri.map (fun l => (⟨l⟩ : String)), ⟨ts⟩, ⟨host⟩, ⟨proc⟩,
                       pid.map (fun l => (⟨l⟩ : String)), ⟨rest⟩⟩

/-- Rust `str::parse::<u32>` on the digits-only priority capture:
fails exactly on 32-bit overflow. -/
def parseU32 (s : String) : Option Nat :=
  if s.data ≠ [] ∧ s.data.all Char.isDigit ∧ digitsVal s.data < 2 ^ 32 then
    some (digitsVal s.data)
  else none

/-- The eight-entry severity table of src/parsers.rs lines 161-171. -/
def severityName (sev : Nat) : String :=
  match sev with
  | 0 => "EMERGENCY"
  | 1 => "ALERT"
  | 2 => "CRITICAL"
  | 3 => "ERROR"
  | 4 => "WARNING"
  | 5 => "NOTICE"
  | 6 => "INFO"
  | 7 => "DEBUG"
  | _ => "UNKNOWN"

/-- The priority block of `SyslogParser::parse` (src/parsers.rs lines
152-173): on a decodable `u32` priority, store `priority`,
`facility = priority >> 3` and `severity = priority & 7` as Number
fields and set the level from the severity table; on decode failure
(overflow) change nothing. -/
def applyPriority (ev : Event) (priCap : String) : Event :=
  match parseU32 priCap with
  | some pri =>
    let ev := ev.set_field "priority" (.num (pri : ℚ))
    let ev := ev.set_field "facility" (.num ((pri >>> 3 : Nat) : ℚ))
    let ev := ev.set_field "severity" (.num ((pri &&& 7 : Nat) : ℚ))
    { ev with level := some (severityName (pri &&& 7)) }
  | none => ev

/-- `SyslogParser::parse` (src/parsers.rs lines 146-212): on a match,
decode priority (optional), then store timestamp, hostname, process,
pid (optional, via `parse::<f64>`) and the message (both as the core
slot and mirrored in the field map); on no match, the whole raw line
becomes the message.  Always `Ok`. -/
def syslogParse (line : String) : Except ParseError Event :=
  match syslogMatch line with
  | some caps =>
    let ev := Event.new
    let ev := match caps.pri with
      | some p => applyPriority ev p
      | none => ev
    let ev := ev.set_field "timestamp" (.str caps.ts)
    let ev := ev.set_field "hostname" (.str caps.hostname)
    let ev := ev.set_field "process" (.str caps.process)
    let ev := match caps.pid with
      | some p =>
        (match parseF64 p with
         | some q => ev.set_field "pid" (.num q)
         | none => ev)
      | none => ev
    let ev := { ev with message := some caps.msg }
    let ev := ev.set_field "message" (.str caps.msg)
    .ok ev.extract_core_fields
  | none =>
    let ev := { Event.new with message := some line }
    let ev := ev.set_field "message" (.str line)
    .ok ev.extract_core_fields

/-! ### The filtering/statistics pipeline (src/main.rs)

The per-line loop of `process_reader` (src/main.rs lines 253-312),
modelled on its statistics effect.  Output emission, broken-pipe
handling and the time-span/level-histogram bookkeeping of
`Stats::record_event` are I/O or unclaimed state and are outside the
model; the four counters below are exactly the ones the claims speak
about. -/

/-- The four counters of `Stats` (src/main.rs lines 76-85). -/
structure Stats where
  lines_seen : Nat := 0
  events_shown : Nat := 0
  parse_errors : Nat := 0
  filtered_out : Nat := 0
deriving DecidableEq, Repr

/-- `Stats::new()`: all counters zero. -/
def Stats.new : Stats := {}

/-- `prepare_levels_filter` (src/main.rs lines 221-227): `None` on an
empty list, else every requested level upper-cased. -/
def prepare_levels_filter (levels : List String) : Option (List String) :=
  if levels.isEmpty then none else some (levels.map strUpper)

/-- Modelled from the spec (4.6): `Event::filter_keys` projects the
event onto the requested key set - core slots are kept exactly when
their canonical name is requested, mapped fields exactly when their key
is. -/
def Event.filter_keys (ev : Event) (keys : List String) : Event :=
  { timestamp := if keys.contains "timestamp" then ev.timestamp else none
    level := if keys.contains "level" then ev.level else none
    message := if keys.contains "message" then ev.message else none
    fields := ev.fields.filter (fun kv => keys.contains kv.1) }

/-- Modelled from the spec (4.6): an event has displayable content when
any core slot is set or any mapped field remains. -/
def Event.has_displayable_content (ev : Event) : Bool :=
  ev.timestamp.isSome || ev.level.isSome || ev.message.isSome || !ev.fields.isEmpty

/-- The level-filter decision of src/main.rs lines 265-276: with no
filter every event passes; with a filter, an event passes exactly when
it has a level whose upper-cased form is in the (already upper-cased)
filter list, and an event without a level never passes. -/
def levelPass (filter : Option (List String)) (lv : Option String) : Bool :=
  match filter with
  | none => true
  | some levels =>
    match lv with
    | some l => levels.contains (strUpper l)
    | none => false

/-- One iteration of the `process_reader` loop (src/main.rs lines
253-312): count the line; skip blank lines; on a parse error count
`parse_errors`; on a level-filter or (when a key filter is active) an
empty-projection rejection count `filtered_out`; otherwise the event is
recorded and emitted (`events_shown`). -/
def processLine (parse : String → Except ParseError Event)
    (levelsFilter keysFilter : Option (List String))
    (stats : Stats) (line : String) : Stats :=
  let stats := { stats with lines_seen := stats.lines_seen + 1 }
  if isBlank line then stats
  else
    match parse line with
    | .ok ev =>
      if !levelPass levelsFilter ev.level then
        { stats with filtered_out := stats.filtered_out + 1 }
      else
        match keysFilter with
        | some keys =>
          if !(ev.filter_keys keys).has_displayable_content then
            { stats with filtered_out := stats.filtered_out + 1 }
          else { stats with events_shown := stats.events_shown + 1 }
        | none => { stats with events_shown := stats.events_shown + 1 }
    | .error _ => { stats with parse_errors := stats.parse_errors + 1 }

/-- The whole `process_reader` loop over the lines of one input. -/
def processLines (parse : String → Except ParseError Event)
    (levelsFilter keysFilter : Option (List String))
    (stats : Stats) (lines : List String) : Stats :=
  lines.foldl (processLine parse levelsFilter keysFilter) stats

/-- The three counters that partition the consumed (non-blank) lines. -/
def consumedSum (s : Stats) : Nat :=
  s.events_shown + s.parse_errors + s.filtered_out

deriving instance DecidableEq for Except

/-! ### Field-map lemmas -/

theorem findField_putField_self (k : String) (v : FieldValue)
    (f : List (String × FieldValue)) : findField k (putField k v f) = some v := by
  induction f with
  | nil => simp [putField, findField]
  | cons kv rest ih =>
    obtain ⟨k', v'⟩ := kv
    by_cases h : k' = k
    · simp [putField, findField, h]
    · simp [putField, findField, h, ih]

theorem findField_putField_other {k k' : String} (h : k ≠ k') (v : FieldValue)
    (f : List (String × FieldValue)) :
    findField k (putField k' v f) = findField k f := by
  have hk' : k' ≠ k := fun hh => h hh.symm
  induction f with
  | nil => simp [putField, findField, hk']
  | cons kv rest ih =>
    obtain ⟨k0, v0⟩ := kv
    by_cases h0 : k0 = k'
    · have hk0 : k0 ≠ k := fun hh => h (hh.symm.trans h0)
      simp [putField, findField, h0, hk', hk0]
    · by_cases h1 : k0 = k
      · simp [putField, findField, h0, h1, h]
      · simp [putField, findField, h0, h1, ih]

/-! ### C1: coercion precedence -/

/-- C1: the coercion applied by the logfmt parser classifies tokens with
first-match-wins precedence - exact `"null"` to Null, else the boolean
literals, else a lossless 64-bit signed integer, else a 64-bit float,
else the unmodified string - which is exactly the spec's rule chain
(`coerce_spec`); in particular `coerce("null") = Null`,
`coerce("true") = Boolean(true)`, `coerce("42") = Number(42.0)`,
`coerce("42.5") = Number(42.5)`, `coerce("hello") = String("hello")`. -/
theorem C1_coercion_precedence :
    (∀ s : String, parse_field_value s = coerce_spec s) ∧
    parse_field_value "null" = .null ∧
    parse_field_value "true" = .bool true ∧
    parse_field_value "42" = .num 42 ∧
    parse_field_value "42.5" = .num (42.5 : ℚ) ∧
    parse_field_value "hello" = .str "hello" := by
  have h425 : (42.5 : ℚ) = mkRat 85 2 := by norm_num [Rat.mkRat_eq_div]
  refine ⟨?_, by decide, by decide, by decide, by rw [h425]; decide, by decide⟩
  intro s
  unfold parse_field_value coerce_spec parseRustBool
  by_cases h1 : s = "null"
  · simp [h1]
  · simp only [h1, if_false]
    by_cases h2 : s = "true"
    · simp [h2]
    · by_cases h3 : s = "false"
      · simp [h2, h3]
      · simp [h2, h3]

/-! ### C2: quoting does not shield ambiguous literals -/

/-- C2 counterexample: the code coerces quoted values exactly like bare
ones (src/parsers.rs line 64 applies `parse_field_value` to both capture
alternatives), so the line `key="null"` parses to a Null field, not to
the literal string `"null"` the claim promises. -/
theorem C2_counterexample :
    logfmtParse "key=\"null\"" =
      .ok { Event.new with fields := [("key", FieldValue.null)] } ∧
    FieldValue.null ≠ FieldValue.str "null" := by
  exact ⟨by decide, by decide⟩

/-- C2 amended: an ambiguous bare token such as `null` or `true` is
indeed never treated as a literal string, but double-quoting the value
does not yield literal text either - the parser applies the same
coercion to quoted values, so `key="null"` maps the key to Null exactly
like `key=null` (and likewise for the boolean literals). -/
theorem C2_amended :
    logfmtParse "key=null" =
      .ok { Event.new with fields := [("key", FieldValue.null)] } ∧
    logfmtParse "key=\"null\"" = logfmtParse "key=null" ∧
    logfmtParse "key=true" =
      .ok { Event.new with fields := [("key", FieldValue.bool true)] } ∧
    logfmtParse "key=\"true\"" = logfmtParse "key=true" := by
  exact ⟨by decide, by decide, by decide, by decide⟩

/-! ### C3: the JSONL error taxonomy -/

/-- Did `serde_json::from_str` succeed? -/
def jsonOk : Except String Json → Bool
  | .ok _ => true
  | .error _ => false

/-- Did it produce a top-level object? -/
def jsonTopObj : Except String Json → Bool
  | .ok (.obj _) => true
  | _ => false

/-- Is the parse result a `JsonError`? -/
def isJsonErrorRes : Except ParseError Event → Bool
  | .error (.jsonError _) => true
  | _ => false

/-- Is the parse result an `InvalidFormat` error? -/
def isInvalidFormatRes : Except ParseError Event → Bool
  | .error (.invalidFormat _) => true
  | _ => false

/-- Is the parse result an event? -/
def isOkRes : Except ParseError Event → Bool
  | .ok _ => true
  | _ => false

/-- C3: `JsonlParser::parse` fails with `JsonError` exactly when the
line is not syntactically valid JSON, with `InvalidFormat` exactly when
the line is valid JSON whose top-level value is not an object, and
succeeds otherwise; nested arrays/objects do not cause errors (they are
stored as their serialized text). -/
theorem C3_jsonl_error_taxonomy :
    (∀ line : String,
      isJsonErrorRes (jsonlParse line) = !jsonOk (jsonFromStr line) ∧
      isInvalidFormatRes (jsonlParse line) =
        (jsonOk (jsonFromStr line) && !jsonTopObj (jsonFromStr line)) ∧
      isOkRes (jsonlParse line) = jsonTopObj (jsonFromStr line)) ∧
    jsonlParse "\x7bbad json\x7d" = .error (.jsonError "invalid JSON") ∧
    jsonlParse "[1,2]" = .error (.invalidFormat "Expected JSON object") ∧
    jsonlParse "42" = .error (.invalidFormat "Expected JSON object") ∧
    jsonlParse "\"str\"" = .error (.invalidFormat "Expected JSON object") ∧
    jsonlParse "\x7b\"a\":[1,2],\"b\":\x7b\"x\":1\x7d\x7d" =
      .ok { Event.new with
        fields := [("a", FieldValue.str "[1,2]"), ("b", FieldValue.str "\x7b\"x\":1\x7d")] } := by
  refine ⟨?_, by decide, by decide, by decide, by decide, by decide⟩
  intro line
  cases h : jsonFromStr line with
  | error e =>
    simp [jsonlParse, h, jsonOk, jsonTopObj, isJsonErrorRes, isInvalidFormatRes, isOkRes]
  | ok v =>
    cases v <;>
      simp [jsonlParse, h, jsonOk, jsonTopObj, isJsonErrorRes, isInvalidFormatRes, isOkRes]

/-! ### C4: logfmt and syslog parsing never fail -/

/-- C4: for every input line both `LogfmtParser::parse` and
`SyslogParser::parse` return `Ok`: a blank or unparseable (no token
matches) logfmt line yields the event with zero fields and no core
slots, and a syslog line the grammar does not match degrades to an
event whose message is the whole raw line. -/
theorem C4_parsers_never_fail (line : String) :
    (∃ ev, logfmtParse line = .ok ev) ∧
    (∃ ev, syslogParse line = .ok ev) ∧
    (isBlank line = true → logfmtParse line = .ok Event.new) ∧
    (logfmtScan line.data = [] → logfmtParse line = .ok Event.new) ∧
    (syslogMatch line = none →
      syslogParse line = .ok { Event.new with message := some line }) := by
  refine ⟨?_, ?_, ?_, ?_, ?_⟩
  · unfold logfmtParse
    by_cases hb : isBlank line
    · rw [if_pos hb]; exact ⟨_, rfl⟩
    · rw [if_neg hb]; exact ⟨_, rfl⟩
  · unfold syslogParse
    cases h : syslogMatch line
    · exact ⟨_, rfl⟩
    · exact ⟨_, rfl⟩
  · intro hb
    simp [logfmtParse, hb]
  · intro hs
    by_cases hb : isBlank line
    · simp [logfmtParse, hb]
    · simp only [logfmtParse, hb, Bool.false_eq_true, if_false, hs, List.foldl_nil,
        Except.ok.injEq]
      decide
  · intro hs
    simp only [syslogParse, hs]
    simp +decide [Event.extract_core_fields, extractSlot, findField, removeField,
      levelAliases, messageAliases, Event.set_field, putField, Event.new]

/-- C4 witness: the blank line `""` yields the empty event and the
non-matching line `"hello world"` degrades to a message-only event. -/
theorem C4_parsers_never_fail_witness :
    (isBlank "" = true ∧ logfmtParse "" = .ok Event.new) ∧
    (syslogMatch "hello world" = none ∧
      syslogParse "hello world" = .ok { Event.new with message := some "hello world" }) :=
  ⟨⟨by decide, (C4_parsers_never_fail "").2.2.1 (by decide)⟩,
   ⟨by decide, (C4_parsers_never_fail "hello world").2.2.2.2 (by decide)⟩⟩

/-! ### C5: syslog priority decoding -/

/-- C5: when a syslog line carries a decodable `<priority>` prefix the
parser stores `priority`, `facility = priority >> 3` and
`severity = priority & 7` as Number fields and sets the level from the
eight-entry severity table; in particular
`<34>Oct 11 22:14:15 mymachine su: test` yields hostname `mymachine`,
process `su` and level `CRITICAL` (facility 4, severity 2). -/
theorem C5_syslog_priority :
    (∀ (ev : Event) (p : String) (n : Nat), parseU32 p = some n →
      (applyPriority ev p).level = some (severityName (n &&& 7)) ∧
      findField "priority" (applyPriority ev p).fields = some (.num (n : ℚ)) ∧
      findField "facility" (applyPriority ev p).fields = some (.num ((n >>> 3 : Nat) : ℚ)) ∧
      findField "severity" (applyPriority ev p).fields = some (.num ((n &&& 7 : Nat) : ℚ)) ∧
      n &&& 7 < 8) ∧
    severityName 0 = "EMERGENCY" ∧ severityName 1 = "ALERT" ∧
    severityName 2 = "CRITICAL" ∧ severityName 3 = "ERROR" ∧
    severityName 4 = "WARNING" ∧ severityName 5 = "NOTICE" ∧
    severityName 6 = "INFO" ∧ severityName 7 = "DEBUG" ∧
    syslogParse "<34>Oct 11 22:14:15 mymachine su: test" =
      .ok { Event.new with
        level := some "CRITICAL"
        message := some "test"
        fields := [("priority", .num 34), ("facility", .num 4), ("severity", .num 2),
                   ("timestamp", .str "Oct 11 22:14:15"),
                   ("hostname", .str "mymachine"), ("process", .str "su")] } := by
  refine ⟨?_, rfl, rfl, rfl, rfl, rfl, rfl, rfl, rfl, by decide⟩
  intro ev p n h
  have hfp : "facility" ≠ "priority" := by decide
  have hsp : "severity" ≠ "priority" := by decide
  have hsf : "severity" ≠ "facility" := by decide
  have hps : "priority" ≠ "severity" := by decide
  have hpf : "priority" ≠ "facility" := by decide
  have hfs : "facility" ≠ "severity" := by decide
  refine ⟨?_, ?_, ?_, ?_, ?_⟩
  · simp [applyPriority, h]
  · simp [applyPriority, h, Event.set_field,
      findField_putField_other hps, findField_putField_other hpf,
      findField_putField_self]
  · simp [applyPriority, h, Event.set_field,
      findField_putField_other hfs, findField_putField_self]
  · simp [applyPriority, h, Event.set_field, findField_putField_self]
  · have : n &&& 7 ≤ 7 := Nat.and_le_right
    omega

/-- C5 witness: priority 34 decodes to facility 4, severity 2, level
CRITICAL. -/
theorem C5_syslog_priority_witness :
    parseU32 "34" = some 34 ∧
    (applyPriority Event.new "34").level = some (severityName (34 &&& 7)) ∧
    findField "priority" (applyPriority Event.new "34").fields = some (.num ((34 : Nat) : ℚ)) ∧
    findField "facility" (applyPriority Event.new "34").fields =
      some (.num ((34 >>> 3 : Nat) : ℚ)) ∧
    findField "severity" (applyPriority Event.new "34").fields =
      some (.num ((34 &&& 7 : Nat) : ℚ)) ∧
    34 &&& 7 < 8 :=
  ⟨by decide, C5_syslog_priority.1 Event.new "34" 34 (by decide)⟩

/-! ### C8: number rendering in the default formatter -/

/-- `(a ++ b).data = a.data ++ b.data` for strings. -/
theorem strData_append (a b : String) : (a ++ b).data = a.data ++ b.data := rfl

/-- C8: the default formatter renders a Number without fractional part
(no `.` character) exactly when the stored value is mathematically
integral, and as its full decimal value otherwise; concretely, the
JSON-Lines input `{"level":"info","message":"test","count":42}` formats
to `level="info" message="test" count=42`, with `count=42` carrying no
trailing `.0`. -/
theorem C8_number_rendering :
    (∀ q : ℚ, q.den = 1 → ∀ c ∈ (fmtNumber q).data, c ≠ '.') ∧
    (∀ q : ℚ, q.den ≠ 1 → fmtNumber q = fmtDecimal q) ∧
    fmtNumber 42 = "42" ∧
    fmtNumber (mkRat 85 2) = "42.5" ∧
    (jsonlParse "\x7b\"level\":\"info\",\"message\":\"test\",\"count\":42\x7d").map defaultFormat =
      .ok "level=\"info\" message=\"test\" count=42" := by
  refine ⟨?_, ?_, by decide, by decide, by decide⟩
  · intro q hq c hc
    unfold fmtNumber at hc
    rw [if_pos hq] at hc
    unfold intToString at hc
    rw [strData_append] at hc
    rcases List.mem_append.mp hc with h1 | h2
    · by_cases hneg : i64Sat q.num < 0
      · rw [if_pos hneg] at h1
        have : c = '-' := by simpa using h1
        subst this; decide
      · rw [if_neg hneg] at h1
        simp at h1
    · have hd := natToString_digits _ c h2
      intro hdot
      subst hdot
      exact absurd hd (by decide)
  · intro q hq
    unfold fmtNumber
    rw [if_neg hq]

/-- C8 witness: the integral value 42 renders dot-free and the
non-integral value 42.5 takes the decimal branch. -/
theorem C8_number_rendering_witness :
    ((42 : ℚ).den = 1 ∧ ∀ c ∈ (fmtNumber 42).data, c ≠ '.') ∧
    ((mkRat 85 2).den ≠ 1 ∧ fmtNumber (mkRat 85 2) = fmtDecimal (mkRat 85 2)) :=
  ⟨⟨by decide, C8_number_rendering.1 42 (by decide)⟩,
   ⟨by decide, C8_number_rendering.2.1 (mkRat 85 2) (by decide)⟩⟩

/-! ### C9: case-insensitive level filtering -/

/-- C9: with an active level filter an event is retained exactly when it
has a level whose upper-cased form is in the upper-cased filter set
(filter `{"ERROR"}` retains `error`, `Error` and `ERROR`), and an event
with no level is dropped and counted as filtered out. -/
theorem C9_level_filter (levels : List String) (h : levels ≠ []) :
    (∀ lv : String,
      levelPass (prepare_levels_filter levels) (some lv) =
        (levels.map strUpper).contains (strUpper lv)) ∧
    levelPass (prepare_levels_filter levels) none = false ∧
    levelPass (prepare_levels_filter ["ERROR"]) (some "error") = true ∧
    levelPass (prepare_levels_filter ["ERROR"]) (some "Error") = true ∧
    levelPass (prepare_levels_filter ["ERROR"]) (some "ERROR") = true ∧
    levelPass (prepare_levels_filter ["ERROR"]) (some "info") = false ∧
    (∀ (parse : String → Except ParseError Event) (st : Stats) (line : String) (ev : Event),
      isBlank line = false → parse line = .ok ev →
      (ev.level = none →
        processLine parse (prepare_levels_filter levels) none st line =
          { st with lines_seen := st.lines_seen + 1,
                    filtered_out := st.filtered_out + 1 }) ∧
      (∀ l, ev.level = some l →
        ((levels.map strUpper).contains (strUpper l) = true →
          processLine parse (prepare_levels_filter levels) none st line =
            { st with lines_seen := st.lines_seen + 1,
                      events_shown := st.events_shown + 1 }) ∧
        ((levels.map strUpper).contains (strUpper l) = false →
          processLine parse (prepare_levels_filter levels) none st line =
            { st with lines_seen := st.lines_seen + 1,
                      filtered_out := st.filtered_out + 1 }))) := by
  have hne : levels.isEmpty = false := by
    cases levels with
    | nil => exact absurd rfl h
    | cons a as => rfl
  refine ⟨?_, ?_, by decide, by decide, by decide, by decide, ?_⟩
  · intro lv
    simp [prepare_levels_filter, hne, levelPass]
  · simp [prepare_levels_filter, hne, levelPass]
  · intro parse st line ev hbl hp
    constructor
    · intro hl
      simp [processLine, hbl, hp, hl, levelPass, prepare_levels_filter, hne]
    · intro l hl
      constructor
      · intro hc
        have hlp : levelPass (prepare_levels_filter levels) ev.level = true := by
          simp only [levelPass, prepare_levels_filter, hne, Bool.false_eq_true, if_false, hl]
          exact hc
        simp [processLine, hbl, hp, hlp]
      · intro hc
        have hlp : levelPass (prepare_levels_filter levels) ev.level = false := by
          simp only [levelPass, prepare_levels_filter, hne, Bool.false_eq_true, if_false, hl]
          exact hc
        simp [processLine, hbl, hp, hlp]

/-- C9 witness: filter `{"ERROR"}` retains `error` and drops (counting
as filtered out) an event with no level. -/
theorem C9_level_filter_witness :
    levelPass (prepare_levels_filter ["ERROR"]) (some "error") = true ∧
    processLine logfmtParse (prepare_levels_filter ["ERROR"]) none Stats.new "x=1" =
      { Stats.new with lines_seen := Stats.new.lines_seen + 1,
                       filtered_out := Stats.new.filtered_out + 1 } := by
  have h := C9_level_filter ["ERROR"] (by decide)
  refine ⟨h.2.2.1, ?_⟩
  exact (h.2.2.2.2.2.2 logfmtParse Stats.new "x=1"
    { Event.new with fields := [("x", FieldValue.num 1)] } (by decide) (by decide)).1 rfl

/-! ### C10: statistics accounting -/

theorem processLine_lines_seen (parse : String → Except ParseError Event)
    (lf kf : Option (List String)) (st : Stats) (line : String) :
    (processLine parse lf kf st line).lines_seen = st.lines_seen + 1 := by
  by_cases hb : isBlank line
  · simp [processLine, hb]
  · cases hp : parse line with
    | ok ev =>
      by_cases hl : levelPass lf ev.level
      · cases kf with
        | none => simp [processLine, hb, hp, hl]
        | some keys =>
          by_cases hd : (ev.filter_keys keys).has_displayable_content
          · simp [processLine, hb, hp, hl, hd]
          · simp [processLine, hb, hp, hl, hd]
      · simp [processLine, hb, hp, hl]
    | error e => simp [processLine, hb, hp]

theorem processLine_partition (parse : String → Except ParseError Event)
    (lf kf : Option (List String)) (st : Stats) (line : String) :
    (isBlank line = false →
      ((processLine parse lf kf st line).events_shown = st.events_shown + 1 ∧
       (processLine parse lf kf st line).parse_errors = st.parse_errors ∧
       (processLine parse lf kf st line).filtered_out = st.filtered_out) ∨
      ((processLine parse lf kf st line).events_shown = st.events_shown ∧
       (processLine parse lf kf st line).parse_errors = st.parse_errors + 1 ∧
       (processLine parse lf kf st line).filtered_out = st.filtered_out) ∨
      ((processLine parse lf kf st line).events_shown = st.events_shown ∧
       (processLine parse lf kf st line).parse_errors = st.parse_errors ∧
       (processLine parse lf kf st line).filtered_out = st.filtered_out + 1)) ∧
    (isBlank line = true →
      (processLine parse lf kf st line).events_shown = st.events_shown ∧
      (processLine parse lf kf st line).parse_errors = st.parse_errors ∧
      (processLine parse lf kf st line).filtered_out = st.filtered_out) := by
  constructor
  · intro hb
    cases hp : parse line with
    | ok ev =>
      by_cases hl : levelPass lf ev.level
      · cases kf with
        | none => exact Or.inl (by simp [processLine, hb, hp, hl])
        | some keys =>
          by_cases hd : (ev.filter_keys keys).has_displayable_content
          · exact Or.inl (by simp [processLine, hb, hp, hl, hd])
          · exact Or.inr (Or.inr (by simp [processLine, hb, hp, hl, hd]))
      · exact Or.inr (Or.inr (by simp [processLine, hb, hp, hl]))
    | error e => exact Or.inr (Or.inl (by simp [processLine, hb, hp]))
  · intro hb
    simp [processLine, hb]

theorem processLine_consumedSum (parse : String → Except ParseError Event)
    (lf kf : Option (List String)) (st : Stats) (line : String) :
    consumedSum (processLine parse lf kf st line) =
      consumedSum st + (if isBlank line then 0 else 1) := by
  have h := processLine_partition parse lf kf st line
  by_cases hb : isBlank line
  · have h2 := h.2 hb
    simp [consumedSum, hb, h2.1, h2.2.1, h2.2.2]
  · have hbf : isBlank line = false := by simpa using hb
    rcases h.1 hbf with ⟨h1, h2, h3⟩ | ⟨h1, h2, h3⟩ | ⟨h1, h2, h3⟩ <;>
      simp [consumedSum, hb, h1, h2, h3] <;> omega

/-- C10 counterexample: the whitespace-only line `" "` is non-empty yet
increments none of `events_shown`/`parse_errors`/`filtered_out` (the
loop skips lines that are empty after trimming, not only empty lines),
refuting the claim's partition statement for non-empty lines. -/
theorem C10_counterexample :
    processLines logfmtParse none none Stats.new [" "] =
      { Stats.new with lines_seen := 1 } ∧
    (" " : String) ≠ "" ∧
    consumedSum (processLines logfmtParse none none Stats.new [" "]) = 0 := by
  refine ⟨by decide, by decide, by decide⟩

/-- C10 amended: per input line `lines_seen` is incremented exactly
once, each non-blank line (nonempty after trimming) additionally
increments exactly one of `events_shown`, `parse_errors` or
`filtered_out`, and blank lines (empty or whitespace-only) increment
none of the three; hence over any run the consumed-line counters sum to
the number of non-blank lines, which is at most `lines_seen`, with
equality when no line is blank. -/
theorem C10_amended (parse : String → Except ParseError Event)
    (lf kf : Option (List String)) :
    (∀ (st : Stats) (line : String),
      (processLine parse lf kf st line).lines_seen = st.lines_seen + 1 ∧
      (isBlank line = false →
        ((processLine parse lf kf st line).events_shown = st.events_shown + 1 ∧
         (processLine parse lf kf st line).parse_errors = st.parse_errors ∧
         (processLine parse lf kf st line).filtered_out = st.filtered_out) ∨
        ((processLine parse lf kf st line).events_shown = st.events_shown ∧
         (processLine parse lf kf st line).parse_errors = st.parse_errors + 1 ∧
         (processLine parse lf kf st line).filtered_out = st.filtered_out) ∨
        ((processLine parse lf kf st line).events_shown = st.events_shown ∧
         (processLine parse lf kf st line).parse_errors = st.parse_errors ∧
         (processLine parse lf kf st line).filtered_out = st.filtered_out + 1)) ∧
      (isBlank line = true →
        consumedSum (processLine parse lf kf st line) = consumedSum st)) ∧
    (∀ (lines : List String) (st : Stats),
      (processLines parse lf kf st lines).lines_seen = st.lines_seen + lines.length ∧
      consumedSum (processLines parse lf kf st lines) =
        consumedSum st + lines.countP (fun l => !isBlank l) ∧
      lines.countP (fun l => !isBlank l) ≤ lines.length ∧
      ((∀ l ∈ lines, isBlank l = false) →
        consumedSum (processLines parse lf kf st lines) =
          consumedSum st + lines.length)) := by
  constructor
  · intro st line
    refine ⟨processLine_lines_seen parse lf kf st line,
      (processLine_partition parse lf kf st line).1, ?_⟩
    intro hb
    have := processLine_consumedSum parse lf kf st line
    simpa [hb] using this
  · intro lines
    induction lines with
    | nil => intro st; simp [processLines]
    | cons l ls ih =>
      intro st
      have hstep1 := processLine_lines_seen parse lf kf st l
      have hstep2 := processLine_consumedSum parse lf kf st l
      have hih := ih (processLine parse lf kf st l)
      have hpl : processLines parse lf kf st (l :: ls) =
          processLines parse lf kf (processLine parse lf kf st l) ls := rfl
      refine ⟨?_, ?_, ?_, ?_⟩
      · rw [hpl, hih.1, hstep1]
        simp [Nat.add_assoc, Nat.add_comm 1 ls.length]
      · rw [hpl, hih.2.1, hstep2]
        by_cases hb : isBlank l <;> simp [hb, List.countP_cons] <;> omega
      · have := hih.2.2.1
        by_cases hb : isBlank l <;> simp [hb, List.countP_cons] <;> omega
      · intro hall
        have hbl : isBlank l = false := hall l (by simp)
        have hrest := hih.2.2.2 (fun x hx => hall x (by simp [hx]))
        rw [hpl, hrest, hstep2]
        simp [hbl]
        omega

/-- C10 witness: a run over a shown line, a parse error and a blank
line: three lines seen, two consumed. -/
theorem C10_amended_witness :
    (processLines jsonlParse none none Stats.new ["\x7b\"a\":1\x7d", "notjson", " "]).lines_seen =
      Stats.new.lines_seen + 3 ∧
    consumedSum (processLines jsonlParse none none Stats.new ["\x7b\"a\":1\x7d", "notjson", " "]) =
      consumedSum Stats.new +
        (["\x7b\"a\":1\x7d", "notjson", " "] : List String).countP (fun l => !isBlank l) ∧
    consumedSum (processLines jsonlParse none none Stats.new ["\x7b\"a\":1\x7d", "notjson", " "]) = 2 := by
  have h := (C10_amended jsonlParse none none).2 ["\x7b\"a\":1\x7d", "notjson", " "] Stats.new
  exact ⟨h.1, h.2.1, by decide⟩

/-! ### C7: JSON round-trip infrastructure -/

/-- Association lookup in a JSON object. -/
def findJson (k : String) : List (String × Json) → Option Json
  | [] => none
  | (k', v) :: rest => if k' = k then some v else findJson k rest

/-- Equality of scalar JSON values: numbers compare by numeric value
(the float/integer classification flag does not change the value, only
its rendering); non-scalars are never equal here. -/
def jsonValEq : Json → Json → Bool
  | .str a, .str b => a = b
  | .num a _, .num b _ => a = b
  | .bool a, .bool b => a = b
  | .null, .null => true
  | _, _ => false

/-- Lift `jsonValEq` to optional values. -/
def jsonOptEq : Option Json → Option Json → Bool
  | none, none => true
  | some a, some b => jsonValEq a b
  | _, _ => false

/-- A member value within the amended C7 domain: a string, boolean,
null, or a number that is exactly representable as a 64-bit float
(denominator dividing 2^52 and magnitude below 2^53), where the
source's `as_f64` conversion is the identity that this model embeds it
as. -/
def jsonScalarOk : Json → Bool
  | .str _ => true
  | .bool _ => true
  | .null => true
  | .num q _ => 2 ^ 52 % q.den = 0 && q.num.natAbs < 2 ^ 53
  | _ => false

/-- The non-canonical core-field aliases (spec 4.5): keys that
`extract_core_fields` would re-emit under a different (canonical) name. -/
def nonCanonicalAliases : List String :=
  ["ts", "time", "at", "_t", "@t", "log_level", "loglevel", "lvl", "severity", "@l", "msg", "@m"]

theorem findField_eq_none_of_not_mem {k : String}
    {f : List (String × FieldValue)} (h : k ∉ f.map Prod.fst) :
    findField k f = none := by
  induction f with
  | nil => rfl
  | cons kv rest ih =>
    obtain ⟨k0, v0⟩ := kv
    simp only [List.map_cons, List.mem_cons] at h
    push_neg at h
    have h1 : ¬ k0 = k := fun hh => h.1 hh.symm
    simp [findField, h1, ih h.2]

theorem findJson_eq_none_of_not_mem {k : String}
    {f : List (String × Json)} (h : k ∉ f.map Prod.fst) :
    findJson k f = none := by
  induction f with
  | nil => rfl
  | cons kv rest ih =>
    obtain ⟨k0, v0⟩ := kv
    simp only [List.map_cons, List.mem_cons] at h
    push_neg at h
    have h1 : ¬ k0 = k := fun hh => h.1 hh.symm
    simp [findJson, h1, ih h.2]

theorem mem_of_findField_eq_some {k : String} {v : FieldValue}
    {f : List (String × FieldValue)} (h : findField k f = some v) :
    k ∈ f.map Prod.fst := by
  induction f with
  | nil => simp [findField] at h
  | cons kv rest ih =>
    obtain ⟨k0, v0⟩ := kv
    by_cases h0 : k0 = k
    · simp [h0]
    · simp only [findField, h0, if_false] at h
      simp [ih h]

theorem mem_of_findJson_eq_some {k : String} {v : Json}
    {f : List (String × Json)} (h : findJson k f = some v) :
    k ∈ f.map Prod.fst := by
  induction f with
  | nil => simp [findJson] at h
  | cons kv rest ih =>
    obtain ⟨k0, v0⟩ := kv
    by_cases h0 : k0 = k
    · simp [h0]
    · simp only [findJson, h0, if_false] at h
      simp [ih h]

theorem removeField_map_fst_sublist (k : String) (f : List (String × FieldValue)) :
    ((removeField k f).map Prod.fst).Sublist (f.map Prod.fst) := by
  induction f with
  | nil => simp [removeField]
  | cons kv rest ih =>
    obtain ⟨k0, v0⟩ := kv
    by_cases h0 : k0 = k
    · simp only [removeField, h0, if_true, List.map_cons]
      exact List.sublist_cons_self _ _
    · simp only [removeField, h0, if_false, List.map_cons]
      exact ih.cons₂ _

theorem findField_removeField_other {k k' : String} (h : k ≠ k')
    (f : List (String × FieldValue)) :
    findField k (removeField k' f) = findField k f := by
  have h' : ¬ k' = k := fun hh => h hh.symm
  induction f with
  | nil => rfl
  | cons kv rest ih =>
    obtain ⟨k0, v0⟩ := kv
    by_cases h0 : k0 = k'
    · have hk : k0 ≠ k := fun hh => h (hh.symm.trans h0)
      simp [removeField, findField, h0, hk, h']
    · by_cases h1 : k0 = k
      · simp [removeField, findField, h0, h1, h]
      · simp [removeField, findField, h0, h1, ih]

theorem findField_removeField_self {k : String} {f : List (String × FieldValue)}
    (h : (f.map Prod.fst).Nodup) :
    findField k (removeField k f) = none := by
  induction f with
  | nil => rfl
  | cons kv rest ih =>
    obtain ⟨k0, v0⟩ := kv
    simp only [List.map_cons, List.nodup_cons] at h
    by_cases h0 : k0 = k
    · subst h0
      simp only [removeField, if_true]
      exact findField_eq_none_of_not_mem h.1
    · simp [removeField, findField, h0, ih h.2]

theorem findJson_btreeInsert_self (k : String) (v : Json) (m : List (String × Json)) :
    findJson k (btreeInsert k v m) = some v := by
  induction m with
  | nil => simp [btreeInsert, findJson]
  | cons kv rest ih =>
    obtain ⟨k0, v0⟩ := kv
    by_cases hlt : strLt k k0
    · simp [btreeInsert, hlt, findJson]
    · by_cases heq : k = k0
      · subst heq
        simp [btreeInsert, hlt, findJson]
      · have hne : k0 ≠ k := fun hh => heq hh.symm
        simp [btreeInsert, hlt, heq, findJson, hne, ih]

theorem findJson_btreeInsert_other {k k' : String} (h : k ≠ k') (v : Json)
    (m : List (String × Json)) :
    findJson k (btreeInsert k' v m) = findJson k m := by
  have h' : k' ≠ k := fun hh => h hh.symm
  induction m with
  | nil => simp [btreeInsert, findJson, h']
  | cons kv rest ih =>
    obtain ⟨k0, v0⟩ := kv
    by_cases hlt : strLt k' k0
    · simp [btreeInsert, hlt, findJson, h']
    · by_cases heq : k' = k0
      · subst heq
        simp [btreeInsert, hlt, findJson, h']
      · have hne : ¬ k' = k0 := heq
        simp [btreeInsert, hlt, hne, findJson, ih]

theorem map_fst_putField (k : String) (v : FieldValue) (f : List (String × FieldValue)) :
    (putField k v f).map Prod.fst =
      if k ∈ f.map Prod.fst then f.map Prod.fst else f.map Prod.fst ++ [k] := by
  induction f with
  | nil => simp [putField]
  | cons kv rest ih =>
    obtain ⟨k0, v0⟩ := kv
    by_cases h0 : k0 = k
    · subst h0
      simp [putField]
    · have h0' : ¬ k = k0 := fun hh => h0 hh.symm
      by_cases hm : k ∈ rest.map Prod.fst
      · simp [putField, h0, h0', hm, ih]
      · simp [putField, h0, h0', hm, ih]

theorem map_fst_foldl_putField (f : Json → FieldValue) :
    ∀ (kvs : List (String × Json)) (acc : List (String × FieldValue)),
      (∀ kv ∈ kvs, kv.1 ∉ acc.map Prod.fst) → (kvs.map Prod.fst).Nodup →
      (kvs.foldl (fun a kv => putField kv.1 (f kv.2) a) acc).map Prod.fst =
        acc.map Prod.fst ++ kvs.map Prod.fst := by
  intro kvs
  induction kvs with
  | nil => intro acc _ _; simp
  | cons kv rest ih =>
    intro acc hdis hnd
    obtain ⟨k0, v0⟩ := kv
    simp only [List.map_cons, List.nodup_cons] at hnd
    simp only [List.foldl_cons]
    have hk0 : k0 ∉ acc.map Prod.fst := hdis (k0, v0) (by simp)
    have hacc' : (putField k0 (f v0) acc).map Prod.fst = acc.map Prod.fst ++ [k0] := by
      rw [map_fst_putField, if_neg hk0]
    have hdis' : ∀ kv ∈ rest, kv.1 ∉ (putField k0 (f v0) acc).map Prod.fst := by
      intro kv hkv
      rw [hacc']
      simp only [List.mem_append, List.mem_singleton]
      push_neg
      exact ⟨fun hmem => hdis kv (by simp [hkv]) hmem,
             fun heq => hnd.1 (heq ▸ (List.mem_map_of_mem Prod.fst hkv))⟩
    rw [ih _ hdis' hnd.2, hacc']
    simp

theorem foldl_set_field_eq (f : Json → FieldValue) (kvs : List (String × Json)) (ev : Event) :
    kvs.foldl (fun e kv => e.set_field kv.1 (f kv.2)) ev =
      { ev with fields := kvs.foldl (fun acc kv => putField kv.1 (f kv.2) acc) ev.fields } := by
  induction kvs generalizing ev with
  | nil => rfl
  | cons kv rest ih =>
    simp only [List.foldl_cons]
    rw [ih]
    rfl

theorem findField_foldl_putField (f : Json → FieldValue) :
    ∀ (kvs : List (String × Json)) (acc : List (String × FieldValue)) (k : String),
      (kvs.map Prod.fst).Nodup →
      findField k (kvs.foldl (fun a kv => putField kv.1 (f kv.2) a) acc) =
        (match findJson k kvs with
         | some v => some (f v)
         | none => findField k acc) := by
  intro kvs
  induction kvs with
  | nil => intro acc k _; rfl
  | cons kv rest ih =>
    intro acc k hnd
    obtain ⟨k0, v0⟩ := kv
    simp only [List.map_cons, List.nodup_cons] at hnd
    simp only [List.foldl_cons]
    rw [ih _ k hnd.2]
    by_cases h0 : k0 = k
    · subst h0
      have hrest : findJson k0 rest = none := findJson_eq_none_of_not_mem hnd.1
      simp [hrest, findJson, findField_putField_self]
    · cases hfj : findJson k rest with
      | some v => simp [findJson, h0, hfj]
      | none =>
        have hne : k ≠ k0 := fun hh => h0 hh.symm
        simp [findJson, h0, hfj, findField_putField_other hne]

theorem findJson_foldl_btreeInsert (g : FieldValue → Json) :
    ∀ (fields : List (String × FieldValue)) (m : List (String × Json)) (k : String),
      (fields.map Prod.fst).Nodup →
      findJson k (fields.foldl (fun acc kv => btreeInsert kv.1 (g kv.2) acc) m) =
        (match findField k fields with
         | some v => some (g v)
         | none => findJson k m) := by
  intro fields
  induction fields with
  | nil => intro m k _; rfl
  | cons kv rest ih =>
    intro m k hnd
    obtain ⟨k0, v0⟩ := kv
    simp only [List.map_cons, List.nodup_cons] at hnd
    simp only [List.foldl_cons]
    rw [ih _ k hnd.2]
    by_cases h0 : k0 = k
    · subst h0
      have hrest : findField k0 rest = none := findField_eq_none_of_not_mem hnd.1
      simp [hrest, findField, findJson_btreeInsert_self]
    · cases hff : findField k rest with
      | some v => simp [findField, h0, hff]
      | none =>
        have hne : k ≠ k0 := fun hh => h0 hh.symm
        simp [findField, h0, hff, findJson_btreeInsert_other hne]

theorem extractSlot_cons_skip (a : String) (rest : List String)
    (f : List (String × FieldValue)) (h : ∀ s, findField a f ≠ some (.str s)) :
    extractSlot (a :: rest) f = extractSlot rest f := by
  cases hfa : findField a f with
  | none => simp [extractSlot, hfa]
  | some v =>
    cases v with
    | str s => exact absurd hfa (h s)
    | num q => simp [extractSlot, hfa]
    | bool b => simp [extractSlot, hfa]
    | null => simp [extractSlot, hfa]

theorem extractSlot_level_char (f : List (String × FieldValue))
    (h : ∀ a ∈ ["log_level", "loglevel", "lvl", "severity", "@l"],
      ∀ s, findField a f ≠ some (.str s)) :
    extractSlot levelAliases f =
      (match findField "level" f with
       | some (.str s) => (some s, removeField "level" f)
       | _ => (none, f)) := by
  have hrest : extractSlot ["log_level", "loglevel", "lvl", "severity", "@l"] f = (none, f) := by
    rw [extractSlot_cons_skip _ _ _ (h _ (by simp)),
        extractSlot_cons_skip _ _ _ (h _ (by simp)),
        extractSlot_cons_skip _ _ _ (h _ (by simp)),
        extractSlot_cons_skip _ _ _ (h _ (by simp)),
        extractSlot_cons_skip _ _ _ (h _ (by simp))]
    rfl
  have hcons : levelAliases = "level" :: ["log_level", "loglevel", "lvl", "severity", "@l"] := rfl
  cases hf : findField "level" f with
  | some v =>
    cases v with
    | str s => simp [levelAliases, extractSlot, hf]
    | num q =>
      have h' : ∀ s, findField "level" f ≠ some (.str s) := by simp [hf]
      rw [hcons, extractSlot_cons_skip _ _ _ h', hrest]
    | bool b =>
      have h' : ∀ s, findField "level" f ≠ some (.str s) := by simp [hf]
      rw [hcons, extractSlot_cons_skip _ _ _ h', hrest]
    | null =>
      have h' : ∀ s, findField "level" f ≠ some (.str s) := by simp [hf]
      rw [hcons, extractSlot_cons_skip _ _ _ h', hrest]
  | none =>
    have h' : ∀ s, findField "level" f ≠ some (.str s) := by simp [hf]
    rw [hcons, extractSlot_cons_skip _ _ _ h', hrest]

theorem extractSlot_message_char (f : List (String × FieldValue))
    (h : ∀ a ∈ ["msg", "@m"], ∀ s, findField a f ≠ some (.str s)) :
    extractSlot messageAliases f =
      (match findField "message" f with
       | some (.str s) => (some s, removeField "message" f)
       | _ => (none, f)) := by
  have hrest : extractSlot ["msg", "@m"] f = (none, f) := by
    rw [extractSlot_cons_skip _ _ _ (h _ (by simp)),
        extractSlot_cons_skip _ _ _ (h _ (by simp))]
    rfl
  have hcons : messageAliases = "message" :: ["msg", "@m"] := rfl
  cases hf : findField "message" f with
  | some v =>
    cases v with
    | str s => simp [messageAliases, extractSlot, hf]
    | num q =>
      have h' : ∀ s, findField "message" f ≠ some (.str s) := by simp [hf]
      rw [hcons, extractSlot_cons_skip _ _ _ h', hrest]
    | bool b =>
      have h' : ∀ s, findField "message" f ≠ some (.str s) := by simp [hf]
      rw [hcons, extractSlot_cons_skip _ _ _ h', hrest]
    | null =>
      have h' : ∀ s, findField "message" f ≠ some (.str s) := by simp [hf]
      rw [hcons, extractSlot_cons_skip _ _ _ h', hrest]
  | none =>
    have h' : ∀ s, findField "message" f ≠ some (.str s) := by simp [hf]
    rw [hcons, extractSlot_cons_skip _ _ _ h', hrest]

theorem pair_mem_of_findJson_eq_some {k : String} {v : Json}
    {f : List (String × Json)} (h : findJson k f = some v) : (k, v) ∈ f := by
  induction f with
  | nil => simp [findJson] at h
  | cons kv rest ih =>
    obtain ⟨k0, v0⟩ := kv
    by_cases h0 : k0 = k
    · subst h0
      simp only [findJson, if_true] at h
      simp [← Option.some.inj h]
    · simp only [findJson, h0, if_false] at h
      simp [ih h]

/-- C7 counterexample: the one-line JSON object `{"msg":"hi"}` (scalar
string value) parses and re-formats to `{"message":"hi"}` - core-alias
extraction renames the key `msg` to the canonical `message`, which is
more than an insertion-order change: the key `msg` is gone from the
output object. -/
theorem C7_counterexample :
    (jsonlParse "\x7b\"msg\":\"hi\"\x7d").map jsonlFormatObj =
      .ok [("message", Json.str "hi")] ∧
    jsonFromStr "\x7b\"msg\":\"hi\"\x7d" = .ok (.obj [("msg", Json.str "hi")]) ∧
    (findJson "msg" [("msg", Json.str "hi")]).isSome = true ∧
    (findJson "msg" [("message", Json.str "hi")]).isSome = false := by
  exact ⟨rfl, rfl, rfl, rfl⟩

/-- C7 amended: for every one-line JSON object whose member values are
only strings, booleans, null, or numbers exactly representable as
64-bit floats, and whose keys avoid the non-canonical core-field
aliases (which the pipeline re-emits under canonical names), parsing
with `JsonlParser` and formatting with the JSON-Lines formatter yields
a JSON object equal to the input as a key-to-value map - member order
(and the integer/float rendering classification of numbers, which does
not change the value) may differ. -/
theorem C7_amended (line : String) (kvs : List (String × Json)) (ev : Event)
    (hparse : jsonFromStr line = .ok (.obj kvs))
    (hnodup : (kvs.map Prod.fst).Nodup)
    (hscal : ∀ kv ∈ kvs, jsonScalarOk kv.2 = true)
    (halias : ∀ kv ∈ kvs, kv.1 ∉ nonCanonicalAliases)
    (hev : jsonlParse line = .ok ev) :
    ∀ k, jsonOptEq (findJson k (jsonlFormatObj ev)) (findJson k kvs) = true := by
  -- Identify the parsed event.
  have h1 : jsonlParse line =
      .ok ((kvs.foldl (fun e kv => e.set_field kv.1 (fieldValueOfJson kv.2))
        Event.new).extract_core_fields) := by
    unfold jsonlParse
    rw [hparse]
  rw [h1] at hev
  have hev' := Except.ok.inj hev
  -- The base event: all slots empty, fields folded in.
  have hbase : kvs.foldl (fun e kv => e.set_field kv.1 (fieldValueOfJson kv.2)) Event.new =
      { Event.new with
        fields := kvs.foldl (fun a kv => putField kv.1 (fieldValueOfJson kv.2) a) [] } :=
    foldl_set_field_eq _ _ _
  set F := kvs.foldl (fun a kv => putField kv.1 (fieldValueOfJson kv.2) a) [] with hFdef
  -- Key set and lookups of the folded field map.
  have hFkeys : F.map Prod.fst = kvs.map Prod.fst := by
    have h := map_fst_foldl_putField fieldValueOfJson kvs [] (by simp) hnodup
    simpa using h
  have hFnodup : (F.map Prod.fst).Nodup := by rw [hFkeys]; exact hnodup
  have hFfind : ∀ k, findField k F =
      (match findJson k kvs with
       | some v => some (fieldValueOfJson v)
       | none => none) := by
    intro k
    have h := findField_foldl_putField fieldValueOfJson kvs [] k hnodup
    simpa [findField] using h
  -- Non-canonical aliases are absent from the field map.
  have habsent : ∀ a ∈ nonCanonicalAliases, findField a F = none := by
    intro a ha
    apply findField_eq_none_of_not_mem
    rw [hFkeys]
    intro hmem
    obtain ⟨kv, hkv, hkva⟩ := List.mem_map.mp hmem
    exact halias kv hkv (hkva ▸ ha)
  have hA1 : findField "log_level" F = none := habsent _ (by simp [nonCanonicalAliases])
  have hA2 : findField "loglevel" F = none := habsent _ (by simp [nonCanonicalAliases])
  have hA3 : findField "lvl" F = none := habsent _ (by simp [nonCanonicalAliases])
  have hA4 : findField "severity" F = none := habsent _ (by simp [nonCanonicalAliases])
  have hA5 : findField "@l" F = none := habsent _ (by simp [nonCanonicalAliases])
  have hA6 : findField "msg" F = none := habsent _ (by simp [nonCanonicalAliases])
  have hA7 : findField "@m" F = none := habsent _ (by simp [nonCanonicalAliases])
  -- Level extraction.
  have hlv : extractSlot levelAliases F =
      (match findField "level" F with
       | some (.str s) => (some s, removeField "level" F)
       | _ => (none, F)) := by
    apply extractSlot_level_char F
    intro a ha s
    fin_cases ha <;> simp [hA1, hA2, hA3, hA4, hA5]
  -- The scalar round-trip step.
  have hround : ∀ k v, findJson k kvs = some v →
      jsonOptEq (some (jsonOfFieldValue (fieldValueOfJson v))) (some v) = true := by
    intro k v hkv
    have hmem := pair_mem_of_findJson_eq_some hkv
    have hsc := hscal (k, v) hmem
    cases v with
    | str s => simp [jsonOptEq, jsonValEq, jsonOfFieldValue, fieldValueOfJson]
    | bool b => simp [jsonOptEq, jsonValEq, jsonOfFieldValue, fieldValueOfJson]
    | null => simp [jsonOptEq, jsonValEq, jsonOfFieldValue, fieldValueOfJson]
    | num q fl => simp [jsonOptEq, jsonValEq, jsonOfFieldValue, fieldValueOfJson]
    | arr xs => simp [jsonScalarOk] at hsc
    | obj ms => simp [jsonScalarOk] at hsc
  -- Lookups through the formatter relative to the original object.
  have hgen : ∀ k, jsonOptEq
      (match findField k F with
       | some v => some (jsonOfFieldValue v)
       | none => none)
      (findJson k kvs) = true := by
    intro k
    rw [hFfind k]
    cases hj : findJson k kvs with
    | none => rfl
    | some v => simpa using hround k v hj
  have hslot : ∀ k s, findField k F = some (.str s) →
      jsonOptEq (some (Json.str s)) (findJson k kvs) = true := by
    intro k s hk
    rw [hFfind k] at hk
    cases hj : findJson k kvs with
    | none => rw [hj] at hk; simp at hk
    | some v =>
      rw [hj] at hk
      have hv : fieldValueOfJson v = .str s := Option.some.inj hk
      have hr := hround k v hj
      rw [hv] at hr
      simpa [jsonOfFieldValue] using hr
  have hLM : ("level" : String) ≠ "message" := by decide
  have hML : ("message" : String) ≠ "level" := by decide
  -- Level-extraction dichotomy.
  have hlvCases : (∃ s, findField "level" F = some (FieldValue.str s) ∧
      extractSlot levelAliases F = (some s, removeField "level" F)) ∨
      extractSlot levelAliases F = (none, F) := by
    cases hL : findField "level" F with
    | none => right; rw [hlv, hL]
    | some v =>
      cases v with
      | str s => left; exact ⟨s, by simp [hL], by rw [hlv]; simp [hL]⟩
      | num q => right; rw [hlv, hL]
      | bool b => right; rw [hlv, hL]
      | null => right; rw [hlv, hL]
  rcases hlvCases with ⟨s, hLs, hlvE⟩ | hlvE
  · -- level extracted
    have hF1keys := removeField_map_fst_sublist "level" F
    have hF1nodup : ((removeField "level" F).map Prod.fst).Nodup := hFnodup.sublist hF1keys
    have hmsg1 : findField "msg" (removeField "level" F) = none := by
      rw [findField_removeField_other (by decide) F]; exact hA6
    have hmsg2 : findField "@m" (removeField "level" F) = none := by
      rw [findField_removeField_other (by decide) F]; exact hA7
    have hmsgF : findField "message" (removeField "level" F) = findField "message" F :=
      findField_removeField_other hML F
    have hms : extractSlot messageAliases (removeField "level" F) =
        (match findField "message" (removeField "level" F) with
         | some (.str s) => (some s, removeField "message" (removeField "level" F))
         | _ => (none, removeField "level" F)) := by
      apply extractSlot_message_char
      intro a ha s
      fin_cases ha <;> simp [hmsg1, hmsg2]
    have hmsCases : (∃ t, findField "message" F = some (FieldValue.str t) ∧
        extractSlot messageAliases (removeField "level" F) =
          (some t, removeField "message" (removeField "level" F))) ∨
        extractSlot messageAliases (removeField "level" F) = (none, removeField "level" F) := by
      cases hM : findField "message" F with
      | none => right; rw [hms, hmsgF, hM]
      | some v =>
        cases v with
        | str t => left; exact ⟨t, by simp [hM], by rw [hms, hmsgF]; simp [hM]⟩
        | num q => right; rw [hms, hmsgF, hM]
        | bool b => right; rw [hms, hmsgF, hM]
        | null => right; rw [hms, hmsgF, hM]
    rcases hmsCases with ⟨t, hMt, hmsE⟩ | hmsE
    · -- both level and message extracted
      have hevForm : ev =
          (⟨none, some s, some t, removeField "message" (removeField "level" F)⟩ : Event) := by
        rw [← hev', hbase]
        simp only [Event.extract_core_fields]
        simp [hlvE, hmsE, Event.new]
      rw [hevForm]
      intro k
      have hF2nodup : ((removeField "message" (removeField "level" F)).map Prod.fst).Nodup :=
        hF1nodup.sublist (removeField_map_fst_sublist "message" _)
      have hfold := findJson_foldl_btreeInsert jsonOfFieldValue
        (removeField "message" (removeField "level" F))
        [("level", Json.str s), ("message", Json.str t)] k hF2nodup
      rw [show jsonlFormatObj
          (⟨none, some s, some t, removeField "message" (removeField "level" F)⟩ : Event) =
          (removeField "message" (removeField "level" F)).foldl
            (fun acc kv => btreeInsert kv.1 (jsonOfFieldValue kv.2) acc)
            [("level", Json.str s), ("message", Json.str t)] from rfl]
      rw [hfold]
      by_cases hk1 : k = "level"
      · subst hk1
        rw [show findField "level" (removeField "message" (removeField "level" F)) = none by
          rw [findField_removeField_other hLM]
          exact findField_removeField_self hFnodup]
        simpa [findJson] using hslot "level" s hLs
      · by_cases hk2 : k = "message"
        · subst hk2
          rw [show findField "message" (removeField "message" (removeField "level" F)) = none
            from findField_removeField_self hF1nodup]
          simpa [findJson, hML] using hslot "message" t hMt
        · rw [findField_removeField_other hk2, findField_removeField_other hk1]
          have hk1' : ¬ ("level" = k) := fun h => hk1 h.symm
          have hk2' : ¬ ("message" = k) := fun h => hk2 h.symm
          have hnone : findJson k [("level", Json.str s), ("message", Json.str t)] = none := by
            simp [findJson, hk1', hk2']
          cases hf : findField k F with
          | none => rw [hnone]; simpa [hf] using hgen k
          | some v => simpa [hf] using hgen k
    · -- only level extracted
      have hevForm : ev = (⟨none, some s, none, removeField "level" F⟩ : Event) := by
        rw [← hev', hbase]
        simp only [Event.extract_core_fields]
        simp [hlvE, hmsE, Event.new]
      rw [hevForm]
      intro k
      have hfold := findJson_foldl_btreeInsert jsonOfFieldValue (removeField "level" F)
        [("level", Json.str s)] k hF1nodup
      rw [show jsonlFormatObj (⟨none, some s, none, removeField "level" F⟩ : Event) =
          (removeField "level" F).foldl
            (fun acc kv => btreeInsert kv.1 (jsonOfFieldValue kv.2) acc)
            [("level", Json.str s)] from rfl]
      rw [hfold]
      by_cases hk1 : k = "level"
      · subst hk1
        rw [show findField "level" (removeField "level" F) = none
          from findField_removeField_self hFnodup]
        simpa [findJson] using hslot "level" s hLs
      · rw [findField_removeField_other hk1]
        have hk1' : ¬ ("level" = k) := fun h => hk1 h.symm
        have hnone : findJson k [("level", Json.str s)] = none := by
          simp [findJson, hk1']
        cases hf : findField k F with
        | none => rw [hnone]; simpa [hf] using hgen k
        | some v => simpa [hf] using hgen k
  · -- level not extracted
    have hmsF : extractSlot messageAliases F =
        (match findField "message" F with
         | some (.str s) => (some s, removeField "message" F)
         | _ => (none, F)) := by
      apply extractSlot_message_char
      intro a ha s
      fin_cases ha <;> simp [hA6, hA7]
    have hmsCases : (∃ t, findField "message" F = some (FieldValue.str t) ∧
        extractSlot messageAliases F = (some t, removeField "message" F)) ∨
        extractSlot messageAliases F = (none, F) := by
      cases hM : findField "message" F with
      | none => right; rw [hmsF, hM]
      | some v =>
        cases v with
        | str t => left; exact ⟨t, by simp [hM], by rw [hmsF]; simp [hM]⟩
        | num q => right; rw [hmsF, hM]
        | bool b => right; rw [hmsF, hM]
        | null => right; rw [hmsF, hM]
    rcases hmsCases with ⟨t, hMt, hmsE⟩ | hmsE
    · -- only message extracted
      have hevForm : ev = (⟨none, none, some t, removeField "message" F⟩ : Event) := by
        rw [← hev', hbase]
        simp only [Event.extract_core_fields]
        simp [hlvE, hmsE, Event.new]
      rw [hevForm]
      intro k
      have hF2nodup : ((removeField "message" F).map Prod.fst).Nodup :=
        hFnodup.sublist (removeField_map_fst_sublist "message" F)
      have hfold := findJson_foldl_btreeInsert jsonOfFieldValue (removeField "message" F)
        [("message", Json.str t)] k hF2nodup
      rw [show jsonlFormatObj (⟨none, none, some t, removeField "message" F⟩ : Event) =
          (removeField "message" F).foldl
            (fun acc kv => btreeInsert kv.1 (jsonOfFieldValue kv.2) acc)
            [("message", Json.str t)] from rfl]
      rw [hfold]
      by_cases hk2 : k = "message"
      · subst hk2
        rw [show findField "message" (removeField "message" F) = none
          from findField_removeField_self hFnodup]
        simpa [findJson] using hslot "message" t hMt
      · rw [findField_removeField_other hk2]
        have hk2' : ¬ ("message" = k) := fun h => hk2 h.symm
        have hnone : findJson k [("message", Json.str t)] = none := by
          simp [findJson, hk2']
        cases hf : findField k F with
        | none => rw [hnone]; simpa [hf] using hgen k
        | some v => simpa [hf] using hgen k
    · -- nothing extracted
      have hevForm : ev = (⟨none, none, none, F⟩ : Event) := by
        rw [← hev', hbase]
        simp only [Event.extract_core_fields]
        simp [hlvE, hmsE, Event.new]
      rw [hevForm]
      intro k
      have hfold := findJson_foldl_btreeInsert jsonOfFieldValue F [] k hFnodup
      rw [show jsonlFormatObj (⟨none, none, none, F⟩ : Event) =
          F.foldl (fun acc kv => btreeInsert kv.1 (jsonOfFieldValue kv.2) acc) [] from rfl]
      rw [hfold]
      cases hf : findField k F with
      | none => simpa [hf, findJson] using hgen k
      | some v => simpa [hf] using hgen k

/-- C7 witness: the object `{"count":42,"level":"info"}` satisfies the
domain conditions and round-trips as a map on the keys `level`,
`count`, and an absent key. -/
theorem C7_amended_witness :
    jsonOptEq
      (findJson "level" (jsonlFormatObj
        { Event.new with level := some "info", fields := [("count", FieldValue.num 42)] }))
      (findJson "level" [("count", Json.num 42 false), ("level", Json.str "info")]) = true ∧
    jsonOptEq
      (findJson "count" (jsonlFormatObj
        { Event.new with level := some "info", fields := [("count", FieldValue.num 42)] }))
      (findJson "count" [("count", Json.num 42 false), ("level", Json.str "info")]) = true ∧
    jsonOptEq
      (findJson "absent" (jsonlFormatObj
        { Event.new with level := some "info", fields := [("count", FieldValue.num 42)] }))
      (findJson "absent" [("count", Json.num 42 false), ("level", Json.str "info")]) = true := by
  have h := C7_amended "\x7b\"count\":42,\"level\":\"info\"\x7d"
    [("count", Json.num 42 false), ("level", Json.str "info")]
    { Event.new with level := some "info", fields := [("count", FieldValue.num 42)] }
    rfl (by decide) (by decide) (by decide) (by decide)
  exact ⟨h "level", h "count", h "absent"⟩

/-! ### C6: the logfmt round-trip universe

Claim C6 quantifies over input lines consisting only of well-formed
`key="value"` or `key=bareword` tokens.  `LTok` is that token universe
and `renderLTok` renders one token, so the lines in question are exactly
`joinSep " " (toks.map renderLTok)` for a token list `toks`. -/

/-- One well-formed logfmt token of the claim: a quoted `key="value"`
token or a bare `key=bareword` token. -/
inductive LTok where
  | quoted (k v : String)
  | bare (k v : String)
deriving DecidableEq, Repr

/-- The key of a token. -/
def tokKey : LTok → String
  | .quoted k _ => k
  | .bare k _ => k

/-- The value text of a token (what the regex captures). -/
def tokVal : LTok → String
  | .quoted _ v => v
  | .bare _ v => v

/-- Render one token back to line text. -/
def renderLTok : LTok → String
  | .quoted k v => k ++ "=\"" ++ v ++ "\""
  | .bare k v => k ++ "=" ++ v

/-- A well-formed key: nonempty, `[a-zA-Z_]` head, `[a-zA-Z0-9_-]` body
(the shape the logfmt regex captures). -/
def keyWF (k : String) : Bool :=
  match k.data with
  | [] => false
  | c :: r => keyStartChar c && r.all keyBodyChar

/-- A value character that survives `escape_quotes` unchanged and cannot
terminate a quoted capture: neither `"` nor `\`. -/
def cleanChar (c : Char) : Bool := !(c = '"') && !(c = '\\')

/-- Well-formedness of one token: the key has key shape; the value is
free of quotes and backslashes; a bare value is additionally nonempty
and whitespace-free (the bare alternative matches `[^\s]+`). -/
def tokWF : LTok → Bool
  | .quoted k v => keyWF k && v.data.all cleanChar
  | .bare k v =>
    keyWF k && v.data.all cleanChar && !v.data.isEmpty &&
      v.data.all (fun c => !c.isWhitespace)

/-- The token the default formatter's remainder pass emits for one field:
strings are quoted (escaped), everything else is rendered bare. -/
def tokOfVal (k : String) : FieldValue → LTok
  | .str s => .quoted k (escape_quotes s)
  | v => .bare k (fmtFieldValue v)

/-- The core tokens (`timestamp`, `level`, `message`) the default
formatter emits before the remainder fields. -/
def coreToks (ev : Event) : List LTok :=
  (match ev.timestamp with
   | some t => [.quoted "timestamp" t]
   | none => []) ++
  (match ev.level with
   | some l => [.quoted "level" l]
   | none => []) ++
  (match ev.message with
   | some m => [.quoted "message" (escape_quotes m)]
   | none => [])

/-- The remainder tokens of the default formatter, in sorted key order. -/
def restToks (ev : Event) : List LTok :=
  (sortStrings (ev.fields.map Prod.fst)).filterMap
    (fun k => (findField k ev.fields).map (tokOfVal k))

/-- Association lookup on captured `(key, value)` string pairs (the same
shape as `findField`, for the scanner's output). -/
def findStr (k : String) : List (String × String) → Option String
  | [] => none
  | (k', v) :: rest => if k' = k then some v else findStr k rest

/-- Equality of field maps as maps: every key looks up the same value. -/
def fieldsEquiv (f g : List (String × FieldValue)) : Prop :=
  ∀ k, findField k f = findField k g

/-- Event equality up to field order: equal core slots and field maps
that agree on every key (C6's "equal field set"). -/
def eventEquiv (a b : Event) : Prop :=
  a.timestamp = b.timestamp ∧ a.level = b.level ∧ a.message = b.message ∧
    fieldsEquiv a.fields b.fields

theorem takeWhile_append_all (p : Char → Bool) (l₁ l₂ : List Char)
    (h : ∀ c ∈ l₁, p c = true) :
    (l₁ ++ l₂).takeWhile p = l₁ ++ l₂.takeWhile p := by
  induction l₁ with
  | nil => simp
  | cons c r ih =>
    have hc : p c = true := h c (by simp)
    simp only [List.cons_append, List.takeWhile_cons, hc, if_true]
    rw [ih (fun d hd => h d (by simp [hd]))]

theorem dropWhile_append_all (p : Char → Bool) (l₁ l₂ : List Char)
    (h : ∀ c ∈ l₁, p c = true) :
    (l₁ ++ l₂).dropWhile p = l₂.dropWhile p := by
  induction l₁ with
  | nil => simp
  | cons c r ih =>
    have hc : p c = true := h c (by simp)
    simp only [List.cons_append, List.dropWhile_cons, hc, if_true]
    exact ih (fun d hd => h d (by simp [hd]))

theorem insertSorted_perm (x : String) (l : List String) :
    List.Perm (insertSorted x l) (x :: l) := by
  induction l with
  | nil => exact List.Perm.refl _
  | cons y ys ih =>
    by_cases h : strLe x y = true
    · simp [insertSorted, h]
    · simp only [insertSorted, h, if_false]
      exact (ih.cons y).trans (List.Perm.swap x y ys)

theorem sortStrings_perm (l : List String) : List.Perm (sortStrings l) l := by
  induction l with
  | nil => exact List.Perm.refl _
  | cons x xs ih =>
    exact (insertSorted_perm x (sortStrings xs)).trans (ih.cons x)

theorem mem_sortStrings {k : String} {l : List String} :
    k ∈ sortStrings l ↔ k ∈ l :=
  (sortStrings_perm l).mem_iff

theorem nodup_sortStrings {l : List String} (h : l.Nodup) :
    (sortStrings l).Nodup :=
  (sortStrings_perm l).nodup_iff.mpr h

theorem str_mk_data (s : String) : (⟨s.data⟩ : String) = s := rfl

theorem str_ne_of_mem_not_mem {a b : String} {c : Char}
    (h1 : c ∈ a.data) (h2 : c ∉ b.data) : a ≠ b := by
  intro h
  subst h
  exact h2 h1

theorem escape_quotes_id {s : String} (h : s.data.all cleanChar = true) :
    escape_quotes s = s := by
  unfold escape_quotes
  have main : ∀ l : List Char, l.all cleanChar = true →
      l.foldr (fun c acc =>
        (if c = '\\' then ['\\', '\\'] else if c = '"' then ['\\', '"'] else [c]) ++ acc)
        [] = l := by
    intro l hl
    induction l with
    | nil => rfl
    | cons c r ih =>
      simp only [List.all_cons, Bool.and_eq_true] at hl
      have hc := hl.1
      simp only [cleanChar, Bool.and_eq_true, Bool.not_eq_true', decide_eq_false_iff_not] at hc
      simp only [List.foldr_cons, if_neg hc.2, if_neg hc.1, List.singleton_append]
      rw [ih hl.2]
  rw [main s.data h]

theorem digitsVal_foldl_shift (b : List Char) :
    ∀ a : Nat, b.foldl (fun x c => x * 10 + digitVal c) a =
      a * 10 ^ b.length + digitsVal b := by
  induction b with
  | nil => intro a; simp [digitsVal]
  | cons c r ih =>
    intro a
    have hd : digitsVal (c :: r) = digitVal c * 10 ^ r.length + digitsVal r := by
      calc digitsVal (c :: r)
          = r.foldl (fun x c => x * 10 + digitVal c) (0 * 10 + digitVal c) := rfl
        _ = (0 * 10 + digitVal c) * 10 ^ r.length + digitsVal r := ih _
        _ = digitVal c * 10 ^ r.length + digitsVal r := by ring
    simp only [List.foldl_cons, List.length_cons]
    rw [ih, hd]
    ring

theorem digitsVal_append (a b : List Char) :
    digitsVal (a ++ b) = digitsVal a * 10 ^ b.length + digitsVal b := by
  simp only [digitsVal, List.foldl_append]
  rw [digitsVal_foldl_shift]
  simp [digitsVal]

theorem digitsVal_replicate_zero (p : Nat) (ds : List Char) :
    digitsVal (List.replicate p '0' ++ ds) = digitsVal ds := by
  rw [digitsVal_append]
  have hz : digitsVal (List.replicate p '0') = 0 := by
    induction p with
    | zero => rfl
    | succ n ih =>
      simp only [List.replicate_succ, digitsVal, List.foldl_cons] at ih ⊢
      have : digitVal '0' = 0 := by decide
      simpa [this] using ih
  simp [hz]

theorem natDigitsRevAux_length_le (fuel : Nat) :
    ∀ n k : Nat, n < 10 ^ k → (natDigitsRevAux fuel n).length ≤ k := by
  induction fuel with
  | zero => intro n k _; simp [natDigitsRevAux]
  | succ fuel ih =>
    intro n k hn
    match n with
    | 0 => simp [natDigitsRevAux]
    | m + 1 =>
      have hk : k ≠ 0 := by
        intro h
        subst h
        simp at hn
      obtain ⟨k', rfl⟩ : ∃ k', k = k' + 1 := ⟨k - 1, by omega⟩
      have hdiv : (m + 1) / 10 < 10 ^ k' := by
        rw [Nat.div_lt_iff_lt_mul (by norm_num : 0 < 10)]
        calc m + 1 < 10 ^ (k' + 1) := hn
        _ = 10 ^ k' * 10 := by ring
      simp only [natDigitsRevAux, List.length_cons]
      have := ih ((m + 1) / 10) k' hdiv
      omega

theorem natToString_length_le {n k : Nat} (hn : n < 10 ^ k) (hk : 0 < k) :
    (natToString n).data.length ≤ k := by
  unfold natToString
  by_cases h0 : n = 0
  · subst h0
    simpa using hk
  · simp only [h0, if_false]
    simpa using natDigitsRevAux_length_le n n k hn

theorem ne_of_isDigit {c d : Char} (h : c.isDigit = true) (hd : d.isDigit = false) :
    c ≠ d := by
  intro he
  subst he
  rw [h] at hd
  cases hd

theorem isWhitespace_false_of_isDigit {c : Char} (h : c.isDigit = true) :
    c.isWhitespace = false := by
  by_contra hw
  rw [Bool.not_eq_false] at hw
  simp only [Char.isWhitespace, Bool.or_eq_true, decide_eq_true_eq] at hw
  rcases hw with ((h1 | h1) | h1) | h1 <;> (subst h1; exact absurd h (by decide))

/-- The characters number renderings consist of: digits, minus sign,
decimal point, and the fallback separator. -/
def numChar (c : Char) : Bool := c.isDigit || c = '-' || c = '.' || c = '/'

theorem numChar_clean {c : Char} (h : numChar c = true) : cleanChar c = true := by
  simp only [numChar, Bool.or_eq_true, decide_eq_true_eq] at h
  simp only [cleanChar, Bool.and_eq_true, Bool.not_eq_true', decide_eq_false_iff_not]
  rcases h with ((h | h) | h) | h
  · exact ⟨ne_of_isDigit h (by decide), ne_of_isDigit h (by decide)⟩
  all_goals (subst h; exact ⟨by decide, by decide⟩)

theorem numChar_not_ws {c : Char} (h : numChar c = true) : c.isWhitespace = false := by
  simp only [numChar, Bool.or_eq_true, decide_eq_true_eq] at h
  rcases h with ((h | h) | h) | h
  · exact isWhitespace_false_of_isDigit h
  all_goals (subst h; decide)

theorem natToString_numChars (n : Nat) :
    ∀ c ∈ (natToString n).data, numChar c = true := by
  intro c hc
  have := natToString_digits n c hc
  simp [numChar, this]

theorem intToString_numChars (i : Int) :
    ∀ c ∈ (intToString i).data, numChar c = true := by
  intro c hc
  unfold intToString at hc
  rw [strData_append] at hc
  rcases List.mem_append.mp hc with h | h
  · by_cases hi : i < 0
    · rw [if_pos hi] at h
      have hdash : ("-" : String).data = ['-'] := rfl
      rw [hdash] at h
      simp only [List.mem_singleton] at h
      subst h
      decide
    · rw [if_neg hi] at h
      have hemp : ("" : String).data = [] := rfl
      rw [hemp] at h
      simp at h
  · exact natToString_numChars _ c h

theorem intToString_ne_empty (i : Int) : (intToString i).data ≠ [] := by
  unfold intToString
  rw [strData_append]
  intro h
  rcases List.append_eq_nil.mp h with ⟨-, h2⟩
  exact natToString_ne_empty _ h2

/-- A nonempty string of number characters is none of the keyword
literals the coercion chain checks first. -/
theorem ne_words_of_numChars {s : String} (hs : ∀ c ∈ s.data, numChar c = true)
    (hne : s.data ≠ []) : s ≠ "null" ∧ s ≠ "true" ∧ s ≠ "false" := by
  cases hd : s.data with
  | nil => exact absurd hd hne
  | cons c r =>
    have hc : numChar c = true := hs c (by rw [hd]; simp)
    have hmem : c ∈ s.data := by rw [hd]; simp
    refine ⟨str_ne_of_mem_not_mem hmem ?_, str_ne_of_mem_not_mem hmem ?_,
      str_ne_of_mem_not_mem hmem ?_⟩
    · rw [show ("null" : String).data = ['n', 'u', 'l', 'l'] from rfl]
      intro hmem'
      fin_cases hmem' <;> exact absurd hc (by decide)
    · rw [show ("true" : String).data = ['t', 'r', 'u', 'e'] from rfl]
      intro hmem'
      fin_cases hmem' <;> exact absurd hc (by decide)
    · rw [show ("false" : String).data = ['f', 'a', 'l', 's', 'e'] from rfl]
      intro hmem'
      fin_cases hmem' <;> exact absurd hc (by decide)

theorem parseI64_intToString {i : Int} (hlo : -(2 ^ 63) ≤ i) (hhi : i ≤ 2 ^ 63 - 1) :
    parseI64 (intToString i) = some i := by
  have hdigs : (natToString i.natAbs).data.all Char.isDigit = true := by
    rw [List.all_eq_true]
    intro c hc
    exact natToString_digits _ c hc
  by_cases hneg : i < 0
  · have hs : (intToString i).data = '-' :: (natToString i.natAbs).data := by
      unfold intToString
      rw [if_pos hneg]
      rfl
    have habs : (i.natAbs : Int) = -i := Int.ofNat_natAbs_of_nonpos (le_of_lt hneg)
    unfold parseI64
    rw [hs]
    simp only [reduceIte, natToString_ne_empty i.natAbs, hdigs, ne_eq,
      not_false_eq_true, and_self, if_true, digitsVal_natToString, habs]
    rw [if_pos (by constructor <;> omega)]
    congr 1
    ring
  · have hs : (intToString i).data = (natToString i.natAbs).data := by
      unfold intToString
      rw [if_neg hneg]
      rfl
    have habs : (i.natAbs : Int) = i := Int.natAbs_of_nonneg (not_lt.mp hneg)
    cases hd : (natToString i.natAbs).data with
    | nil => exact absurd hd (natToString_ne_empty _)
    | cons c r =>
      have hc : c.isDigit = true := natToString_digits _ c (by rw [hd]; simp)
      have hcm : c ≠ '-' := ne_of_isDigit hc (by decide)
      have hcp : c ≠ '+' := ne_of_isDigit hc (by decide)
      have hval : digitsVal (c :: r) = i.natAbs := by
        rw [← hd, digitsVal_natToString]
      unfold parseI64
      rw [hs, hd]
      simp only [if_neg hcm, if_neg hcp, ne_eq, reduceCtorEq, not_false_eq_true,
        List.all_eq_true] at *
      have h1 : (if False then (-1 : Int) else 1) = 1 := rfl
      rw [h1, one_mul, hval, habs]
      have hcond : -(2 : Int) ^ 63 ≤ i ∧ i ≤ 2 ^ 63 - 1 := ⟨hlo, hhi⟩
      rw [if_pos hcond]
      have hcond2 : True ∧ ∀ x ∈ c :: r, x.isDigit = true :=
        ⟨trivial, fun c' hc' => hdigs c' (by rw [hd]; exact hc')⟩
      rw [if_pos hcond2]

theorem pfv_intToString {i : Int} (hlo : -(2 ^ 63) ≤ i) (hhi : i ≤ 2 ^ 63 - 1) :
    parse_field_value (intToString i) = .num (i : ℚ) := by
  have hwords := ne_words_of_numChars (intToString_numChars i) (intToString_ne_empty i)
  unfold parse_field_value
  rw [if_neg hwords.1]
  have hb : parseRustBool (intToString i) = none := by
    unfold parseRustBool
    rw [if_neg hwords.2.1, if_neg hwords.2.2]
  rw [hb, parseI64_intToString hlo hhi]

/-- A divisor of a power of ten divides the power of ten with its own
exponent (all its prime factors are 2 or 5, and each multiplicity is
below the divisor itself). -/
theorem dvd_ten_pow_self {d e : Nat} (h : d ∣ 10 ^ e) : d ∣ 10 ^ d := by
  induction d using Nat.strong_induction_on with
  | _ d ih =>
    rcases Nat.lt_or_ge d 2 with hd | hd
    · interval_cases d
      · exact absurd (Nat.eq_zero_of_zero_dvd h) (by positivity)
      · simp
    · obtain ⟨p, hp, hpd⟩ := Nat.exists_prime_and_dvd (by omega : d ≠ 1)
      have hp10 : p ∣ 10 := hp.dvd_of_dvd_pow (hpd.trans h)
      obtain ⟨d', rfl⟩ := hpd
      have hp2 : 2 ≤ p := hp.two_le
      have hd'pos : 0 < d' := by
        rcases Nat.eq_zero_or_pos d' with h0 | h0
        · subst h0
          simp at hd
        · exact h0
      have hd'lt : d' < p * d' := by
        calc d' = 1 * d' := (one_mul d').symm
        _ < p * d' := (Nat.mul_lt_mul_right hd'pos).mpr (by omega)
      have hd'dvd : d' ∣ 10 ^ e := (dvd_mul_left d' p).trans h
      have ih' := ih d' hd'lt hd'dvd
      have h1 : p * d' ∣ 10 * 10 ^ d' := mul_dvd_mul hp10 ih'
      have h3 : 10 ^ (d' + 1) ∣ 10 ^ (p * d') := by
        apply pow_dvd_pow
        have : 2 * d' ≤ p * d' := Nat.mul_le_mul_right d' hp2
        omega
      calc p * d' ∣ 10 * 10 ^ d' := h1
      _ = 10 ^ (d' + 1) := by rw [pow_succ]; ring
      _ ∣ 10 ^ (p * d') := h3

theorem pow10Exp_isSome {d : Nat} (hd : d ≠ 0) (h : ∃ e, d ∣ 10 ^ e) :
    ∃ k, pow10Exp d = some k := by
  obtain ⟨e, he⟩ := h
  have hdd : d ∣ 10 ^ d := dvd_ten_pow_self he
  have hsome : ((List.range (d + 1)).find? (fun k => 10 ^ k % d = 0)).isSome = true := by
    rw [List.find?_isSome]
    refine ⟨d, by simp, ?_⟩
    simp [Nat.eq_zero_of_dvd_of_lt, Nat.mod_eq_zero_of_dvd hdd]
  cases hfind : (List.range (d + 1)).find? (fun k => 10 ^ k % d = 0) with
  | none => rw [hfind] at hsome; cases hsome
  | some k => exact ⟨k, hfind⟩

theorem pow10Exp_dvd {d k : Nat} (h : pow10Exp d = some k) : d ∣ 10 ^ k := by
  have hp := List.find?_some h
  simp only [decide_eq_true_eq] at hp
  exact Nat.dvd_of_mod_eq_zero hp

theorem pow10Exp_pos {d k : Nat} (hd : d ≠ 1) (h : pow10Exp d = some k) : 0 < k := by
  rcases Nat.eq_zero_or_pos k with h0 | h0
  · subst h0
    have := pow10Exp_dvd h
    simp only [pow_zero, Nat.dvd_one] at this
    exact absurd this hd
  · exact h0

theorem takeWhile_all (p : Char → Bool) (l : List Char) (h : ∀ c ∈ l, p c = true) :
    l.takeWhile p = l := by
  induction l with
  | nil => rfl
  | cons c r ih =>
    have hc : p c = true := h c (by simp)
    simp only [List.takeWhile_cons, hc, if_true]
    rw [ih (fun d hd => h d (by simp [hd]))]

theorem dropWhile_all (p : Char → Bool) (l : List Char) (h : ∀ c ∈ l, p c = true) :
    l.dropWhile p = [] := by
  induction l with
  | nil => rfl
  | cons c r ih =>
    have hc : p c = true := h c (by simp)
    simp only [List.dropWhile_cons, hc, if_true]
    exact ih (fun d hd => h d (by simp [hd]))

theorem parseRustBool_none {s : String} (h1 : s ≠ "true") (h2 : s ≠ "false") :
    parseRustBool s = none := by
  unfold parseRustBool
  rw [if_neg h1, if_neg h2]

theorem f64Mantissa_ip_dot_fp (ip fp : List Char) (hip : ip ≠ [])
    (hipd : ∀ c ∈ ip, c.isDigit = true) (hfpd : ∀ c ∈ fp, c.isDigit = true) :
    f64Mantissa (ip ++ '.' :: fp) = some (digitsVal (ip ++ fp), fp.length, []) := by
  have ht : (ip ++ '.' :: fp).takeWhile Char.isDigit = ip := by
    rw [takeWhile_append_all _ _ _ hipd]
    simp [List.takeWhile_cons]
  have hd : (ip ++ '.' :: fp).dropWhile Char.isDigit = '.' :: fp := by
    rw [dropWhile_append_all _ _ _ hipd]
    simp [List.dropWhile_cons]
  have hipe : ip.isEmpty = false := by
    cases ip with
    | nil => exact absurd rfl hip
    | cons a b => rfl
  unfold f64Mantissa
  rw [ht, hd]
  show (if (ip.isEmpty && (List.takeWhile Char.isDigit fp).isEmpty) = true then none
      else some (digitsVal (ip ++ List.takeWhile Char.isDigit fp),
        (List.takeWhile Char.isDigit fp).length, List.dropWhile Char.isDigit fp)) =
    some (digitsVal (ip ++ fp), fp.length, [])
  rw [takeWhile_all _ _ hfpd, dropWhile_all _ _ hfpd]
  simp [hipe]

theorem parseF64_signed (neg : Bool) (ip fp : List Char) (hip : ip ≠ [])
    (hipd : ∀ c ∈ ip, c.isDigit = true) (hfpd : ∀ c ∈ fp, c.isDigit = true)
    (hfplen : 0 < fp.length) :
    parseF64 ⟨(if neg then ['-'] else []) ++ (ip ++ '.' :: fp)⟩ =
      some (mkRat ((if neg then -1 else 1) * (digitsVal (ip ++ fp) : Int))
        (10 ^ fp.length)) := by
  have hcore : ∀ n : Bool, parseF64core n (ip ++ '.' :: fp) =
      some (mkRat ((if n then -1 else 1) * (digitsVal (ip ++ fp) : Int))
        (10 ^ fp.length)) := by
    intro n
    have hmant := f64Mantissa_ip_dot_fp ip fp hip hipd hfpd
    have htoNat : (-((0 : Int) - (fp.length : Int))).toNat = fp.length := by omega
    have hexneg : ¬(0 : Int) ≤ (0 : Int) - (fp.length : Int) := by omega
    unfold parseF64core
    rw [hmant]
    show some (if (0 : Int) ≤ (0 : Int) - (fp.length : Int)
        then mkRat ((if n then (-1 : Int) else 1) *
          ((digitsVal (ip ++ fp) *
            10 ^ (((0 : Int) - (fp.length : Int)).toNat) : Nat) : Int)) 1
        else mkRat ((if n then (-1 : Int) else 1) * (digitsVal (ip ++ fp) : Int))
          (10 ^ (-((0 : Int) - (fp.length : Int))).toNat)) = _
    rw [if_neg hexneg, htoNat]
  cases neg with
  | true =>
    show parseF64core true (ip ++ '.' :: fp) = _
    exact hcore true
  | false =>
    cases ip with
    | nil => exact absurd rfl hip
    | cons a ip' =>
      have ha : a.isDigit = true := hipd a (by simp)
      have ham : a ≠ '-' := ne_of_isDigit ha (by decide)
      have hap : a ≠ '+' := ne_of_isDigit ha (by decide)
      show (if a = '-' then parseF64core true (ip' ++ '.' :: fp)
          else if a = '+' then parseF64core false (ip' ++ '.' :: fp)
          else parseF64core false (a :: (ip' ++ '.' :: fp))) = _
      rw [if_neg ham, if_neg hap]
      exact hcore false

theorem parseF64_neg_ip_fp (ip fp : List Char) (hip : ip ≠ [])
    (hipd : ∀ c ∈ ip, c.isDigit = true) (hfpd : ∀ c ∈ fp, c.isDigit = true)
    (hfplen : 0 < fp.length) :
    parseF64 ⟨'-' :: (ip ++ '.' :: fp)⟩ =
      some (mkRat (-(digitsVal (ip ++ fp) : Int)) (10 ^ fp.length)) := by
  have h := parseF64_signed true ip fp hip hipd hfpd hfplen
  simpa using h

theorem parseF64_pos_ip_fp (ip fp : List Char) (hip : ip ≠ [])
    (hipd : ∀ c ∈ ip, c.isDigit = true) (hfpd : ∀ c ∈ fp, c.isDigit = true)
    (hfplen : 0 < fp.length) :
    parseF64 ⟨ip ++ '.' :: fp⟩ =
      some (mkRat (digitsVal (ip ++ fp) : Int) (10 ^ fp.length)) := by
  have h := parseF64_signed false ip fp hip hipd hfpd hfplen
  simpa using h

theorem fmtDecimal_eq_parts {q : ℚ} {k : Nat} (hk : pow10Exp q.den = some k) :
    fmtDecimal q =
      (if q.num < 0 then "-" else "") ++
        natToString (q.num.natAbs * 10 ^ k / q.den / 10 ^ k) ++ "." ++
        ⟨List.replicate
            (k - (natToString (q.num.natAbs * 10 ^ k / q.den % 10 ^ k)).data.length) '0' ++
          (natToString (q.num.natAbs * 10 ^ k / q.den % 10 ^ k)).data⟩ := by
  unfold fmtDecimal
  rw [hk]

theorem fmtDecimal_data {q : ℚ} {k : Nat} (hk : pow10Exp q.den = some k) :
    (fmtDecimal q).data =
      (if q.num < 0 then ['-'] else []) ++
        ((natToString (q.num.natAbs * 10 ^ k / q.den / 10 ^ k)).data ++
          '.' :: (List.replicate
              (k - (natToString (q.num.natAbs * 10 ^ k / q.den % 10 ^ k)).data.length) '0' ++
            (natToString (q.num.natAbs * 10 ^ k / q.den % 10 ^ k)).data)) := by
  rw [fmtDecimal_eq_parts hk]
  by_cases hn : q.num < 0
  · rw [if_pos hn, if_pos hn]
    simp only [strData_append]
    simp [List.append_assoc, show ("-" : String).data = ['-'] from rfl,
      show ("." : String).data = ['.'] from rfl]
  · rw [if_neg hn, if_neg hn]
    simp only [strData_append]
    simp [List.append_assoc, show ("" : String).data = [] from rfl,
      show ("." : String).data = ['.'] from rfl]

theorem parseF64_fmtDecimal {q : ℚ} {k : Nat} (hden : q.den ≠ 1)
    (hk : pow10Exp q.den = some k) : parseF64 (fmtDecimal q) = some q := by
  have hkpos := pow10Exp_pos hden hk
  have hdvd := pow10Exp_dvd hk
  have hdpos : 0 < q.den := q.pos
  have hdslen : (natToString (q.num.natAbs * 10 ^ k / q.den % 10 ^ k)).data.length ≤ k :=
    natToString_length_le (Nat.mod_lt _ (by positivity)) hkpos
  have hstr : fmtDecimal q =
      ⟨(if q.num < 0 then ['-'] else []) ++
        ((natToString (q.num.natAbs * 10 ^ k / q.den / 10 ^ k)).data ++
          '.' :: (List.replicate
              (k - (natToString (q.num.natAbs * 10 ^ k / q.den % 10 ^ k)).data.length) '0' ++
            (natToString (q.num.natAbs * 10 ^ k / q.den % 10 ^ k)).data))⟩ := by
    rw [← str_mk_data (fmtDecimal q)]
    exact congrArg String.mk (fmtDecimal_data hk)
  have hfpd : ∀ c ∈ List.replicate
      (k - (natToString (q.num.natAbs * 10 ^ k / q.den % 10 ^ k)).data.length) '0' ++
        (natToString (q.num.natAbs * 10 ^ k / q.den % 10 ^ k)).data, c.isDigit = true := by
    intro c hc
    rcases List.mem_append.mp hc with h | h
    · rw [List.eq_of_mem_replicate h]
      decide
    · exact natToString_digits _ c h
  have hfplen : (List.replicate
      (k - (natToString (q.num.natAbs * 10 ^ k / q.den % 10 ^ k)).data.length) '0' ++
        (natToString (q.num.natAbs * 10 ^ k / q.den % 10 ^ k)).data).length = k := by
    rw [List.length_append, List.length_replicate]
    omega
  have hdsum : digitsVal
      ((natToString (q.num.natAbs * 10 ^ k / q.den / 10 ^ k)).data ++
        (List.replicate
            (k - (natToString (q.num.natAbs * 10 ^ k / q.den % 10 ^ k)).data.length) '0' ++
          (natToString (q.num.natAbs * 10 ^ k / q.den % 10 ^ k)).data)) =
      q.num.natAbs * 10 ^ k / q.den := by
    rw [digitsVal_append, digitsVal_replicate_zero, hfplen, digitsVal_natToString,
      digitsVal_natToString]
    calc q.num.natAbs * 10 ^ k / q.den / 10 ^ k * 10 ^ k +
        q.num.natAbs * 10 ^ k / q.den % 10 ^ k
        = 10 ^ k * (q.num.natAbs * 10 ^ k / q.den / 10 ^ k) +
          q.num.natAbs * 10 ^ k / q.den % 10 ^ k := by ring
      _ = q.num.natAbs * 10 ^ k / q.den := Nat.div_add_mod _ _
  have hmden : q.num.natAbs * 10 ^ k / q.den * q.den = q.num.natAbs * 10 ^ k :=
    Nat.div_mul_cancel (Dvd.dvd.mul_left hdvd q.num.natAbs)
  have hcast : ((q.num.natAbs * 10 ^ k / q.den : ℕ) : ℚ) * (q.den : ℚ) =
      (q.num.natAbs : ℚ) * 10 ^ k := by
    exact_mod_cast congrArg (fun n : ℕ => (n : ℚ)) hmden
  have hden0 : ((q.den : ℚ)) ≠ 0 := by positivity
  have h10k0 : ((10 : ℚ) ^ k) ≠ 0 := by positivity
  have hqden : (q : ℚ) * (q.den : ℚ) = (q.num : ℚ) := by
    have h := Rat.num_div_den q
    calc (q : ℚ) * (q.den : ℚ)
        = ((q.num : ℚ) / (q.den : ℚ)) * (q.den : ℚ) := by rw [h]
      _ = (q.num : ℚ) := div_mul_cancel₀ _ hden0
  by_cases hn : q.num < 0
  · have hstr' : fmtDecimal q =
        ⟨'-' :: ((natToString (q.num.natAbs * 10 ^ k / q.den / 10 ^ k)).data ++
            '.' :: (List.replicate
                (k - (natToString (q.num.natAbs * 10 ^ k / q.den % 10 ^ k)).data.length) '0' ++
              (natToString (q.num.natAbs * 10 ^ k / q.den % 10 ^ k)).data))⟩ := by
      rw [hstr, if_pos hn]
      rfl
    rw [hstr', parseF64_neg_ip_fp _ _ (natToString_ne_empty _)
      (fun c hc => natToString_digits _ c hc) hfpd (by rw [hfplen]; exact hkpos)]
    congr 1
    rw [hdsum, hfplen]
    have hnabs : (q.num.natAbs : ℚ) = -(q.num : ℚ) := by
      rw [Int.cast_natAbs]
      exact_mod_cast abs_of_neg hn
    rw [Rat.mkRat_eq_div, Int.cast_neg, Int.cast_natCast, Nat.cast_pow, Nat.cast_ofNat]
    rw [div_eq_iff h10k0]
    apply mul_right_cancel₀ hden0
    rw [hnabs] at hcast
    linear_combination -hcast - 10 ^ k * hqden
  · have hstr' : fmtDecimal q =
        ⟨(natToString (q.num.natAbs * 10 ^ k / q.den / 10 ^ k)).data ++
            '.' :: (List.replicate
                (k - (natToString (q.num.natAbs * 10 ^ k / q.den % 10 ^ k)).data.length) '0' ++
              (natToString (q.num.natAbs * 10 ^ k / q.den % 10 ^ k)).data)⟩ := by
      rw [hstr, if_neg hn]
      rfl
    rw [hstr', parseF64_pos_ip_fp _ _ (natToString_ne_empty _)
      (fun c hc => natToString_digits _ c hc) hfpd (by rw [hfplen]; exact hkpos)]
    congr 1
    rw [hdsum, hfplen]
    have hnabs : (q.num.natAbs : ℚ) = (q.num : ℚ) := by
      rw [Int.cast_natAbs]
      exact_mod_cast abs_of_nonneg (not_lt.mp hn)
    rw [Rat.mkRat_eq_div, Int.cast_natCast, Nat.cast_pow, Nat.cast_ofNat]
    rw [div_eq_iff h10k0]
    apply mul_right_cancel₀ hden0
    rw [hnabs] at hcast
    linear_combination hcast - 10 ^ k * hqden

theorem parseI64_none_of_dot {s : String} (h : '.' ∈ s.data) : parseI64 s = none := by
  have hfail : ∀ ds : List Char, '.' ∈ ds → ¬(ds ≠ [] ∧ ds.all Char.isDigit = true) := by
    rintro ds hdot ⟨-, hall⟩
    rw [List.all_eq_true] at hall
    exact absurd (hall '.' hdot) (by decide)
  unfold parseI64
  split
  next neg ds heq =>
    have hdot : '.' ∈ ds := by
      cases hs : s.data with
      | nil =>
        rw [hs] at h
        simp at h
      | cons c r =>
        rw [hs] at h heq
        have heq' : (if c = '-' then ((true : Bool), r)
            else if c = '+' then ((false : Bool), r)
            else ((false : Bool), c :: r)) = (neg, ds) := heq
        by_cases h1 : c = '-'
        · rw [if_pos h1] at heq'
          have hds : r = ds := (Prod.ext_iff.mp heq').2
          subst h1
          rcases List.mem_cons.mp h with he | hm
          · exact absurd he (by decide)
          · exact hds ▸ hm
        · rw [if_neg h1] at heq'
          by_cases h2 : c = '+'
          · rw [if_pos h2] at heq'
            have hds : r = ds := (Prod.ext_iff.mp heq').2
            subst h2
            rcases List.mem_cons.mp h with he | hm
            · exact absurd he (by decide)
            · exact hds ▸ hm
          · rw [if_neg h2] at heq'
            have hds : c :: r = ds := (Prod.ext_iff.mp heq').2
            exact hds ▸ h
    rw [if_neg (hfail ds hdot)]

theorem fmtDecimal_numChars (q : ℚ) : ∀ c ∈ (fmtDecimal q).data, numChar c = true := by
  intro c hc
  cases hk : pow10Exp q.den with
  | none =>
    unfold fmtDecimal at hc
    rw [hk] at hc
    rw [strData_append, strData_append] at hc
    rcases List.mem_append.mp hc with h | h
    · rcases List.mem_append.mp h with h2 | h2
      · exact intToString_numChars _ c h2
      · rw [show ("/" : String).data = ['/'] from rfl] at h2
        simp only [List.mem_singleton] at h2
        subst h2
        decide
    · exact natToString_numChars _ c h
  | some k =>
    rw [fmtDecimal_data hk] at hc
    rcases List.mem_append.mp hc with h | h
    · by_cases hn : q.num < 0
      · rw [if_pos hn] at h
        simp only [List.mem_singleton] at h
        subst h
        decide
      · rw [if_neg hn] at h
        simp at h
    · rcases List.mem_append.mp h with h2 | h2
      · exact natToString_numChars _ c h2
      · rcases List.mem_cons.mp h2 with h3 | h3
        · subst h3
          decide
        · rcases List.mem_append.mp h3 with h4 | h4
          · rw [List.eq_of_mem_replicate h4]
            decide
          · exact natToString_numChars _ c h4

theorem fmtDecimal_ne_empty (q : ℚ) : (fmtDecimal q).data ≠ [] := by
  cases hk : pow10Exp q.den with
  | some k =>
    have hdot : '.' ∈ (fmtDecimal q).data := by
      rw [fmtDecimal_data hk]
      simp
    exact List.ne_nil_of_mem hdot
  | none =>
    have hsl : '/' ∈ (fmtDecimal q).data := by
      unfold fmtDecimal
      rw [hk]
      rw [strData_append, strData_append]
      rw [show ("/" : String).data = ['/'] from rfl]
      simp
    exact List.ne_nil_of_mem hsl

theorem fmtNumber_numChars (q : ℚ) : ∀ c ∈ (fmtNumber q).data, numChar c = true := by
  intro c hc
  unfold fmtNumber at hc
  by_cases hd : q.den = 1
  · rw [if_pos hd] at hc
    exact intToString_numChars _ c hc
  · rw [if_neg hd] at hc
    exact fmtDecimal_numChars _ c hc

theorem fmtNumber_ne_empty (q : ℚ) : (fmtNumber q).data ≠ [] := by
  unfold fmtNumber
  by_cases hd : q.den = 1
  · rw [if_pos hd]
    exact intToString_ne_empty _
  · rw [if_neg hd]
    exact fmtDecimal_ne_empty _

theorem mkRat_den_dvd (a : Int) (n : Nat) : (mkRat a n).den ∣ n := by
  rw [Rat.mkRat_eq_divInt]
  have h := Rat.den_dvd a (n : Int)
  exact_mod_cast h

theorem parseF64core_den_dvd {neg : Bool} {cs1 : List Char} {q : ℚ}
    (h : parseF64core neg cs1 = some q) : ∃ e, q.den ∣ 10 ^ e := by
  unfold parseF64core at h
  cases hm : f64Mantissa cs1 with
  | none =>
    rw [hm] at h
    simp at h
  | some t =>
    obtain ⟨m, f, r1⟩ := t
    rw [hm] at h
    cases hex : f64Exp r1 with
    | none =>
      simp only [hex] at h
      simp at h
    | some t2 =>
      obtain ⟨e, r2⟩ := t2
      simp only [hex] at h
      by_cases hr2 : r2 = []
      · rw [if_pos hr2] at h
        have h' : (if (0 : Int) ≤ e - (f : Int) then
            mkRat ((if neg then (-1 : Int) else 1) *
              ((m * 10 ^ ((e - (f : Int)).toNat) : Nat) : Int)) 1
          else mkRat ((if neg then (-1 : Int) else 1) * (m : Int))
            (10 ^ (-(e - (f : Int))).toNat)) = q := Option.some.inj h
        by_cases hexpos : (0 : Int) ≤ e - (f : Int)
        · rw [if_pos hexpos] at h'
          refine ⟨0, ?_⟩
          rw [← h', pow_zero]
          exact mkRat_den_dvd _ 1
        · rw [if_neg hexpos] at h'
          exact ⟨(-(e - (f : Int))).toNat, by rw [← h']; exact mkRat_den_dvd _ _⟩
      · rw [if_neg hr2] at h
        simp at h

theorem parseF64_den_dvd {s : String} {q : ℚ} (h : parseF64 s = some q) :
    ∃ e, q.den ∣ 10 ^ e := by
  unfold parseF64 at h
  cases hs : s.data with
  | nil =>
    rw [hs] at h
    exact parseF64core_den_dvd h
  | cons c r =>
    rw [hs] at h
    have h' : (if c = '-' then parseF64core true r
        else if c = '+' then parseF64core false r
        else parseF64core false (c :: r)) = some q := h
    by_cases h1 : c = '-'
    · rw [if_pos h1] at h'
      exact parseF64core_den_dvd h'
    · rw [if_neg h1] at h'
      by_cases h2 : c = '+'
      · rw [if_pos h2] at h'
        exact parseF64core_den_dvd h'
      · rw [if_neg h2] at h'
        exact parseF64core_den_dvd h'

theorem pfv_str_eq {v s : String} (h : parse_field_value v = .str s) : s = v := by
  unfold parse_field_value at h
  by_cases hn : v = "null"
  · rw [if_pos hn] at h
    simp at h
  · rw [if_neg hn] at h
    cases hb : parseRustBool v with
    | some b =>
      rw [hb] at h
      simp at h
    | none =>
      rw [hb] at h
      cases hi : parseI64 v with
      | some i =>
        rw [hi] at h
        simp at h
      | none =>
        rw [hi] at h
        cases hf : parseF64 v with
        | some q =>
          rw [hf] at h
          simp at h
        | none =>
          rw [hf] at h
          simp at h
          exact h.symm

theorem pfv_num_cases {v : String} {q : ℚ} (h : parse_field_value v = .num q) :
    (∃ i : Int, parseI64 v = some i ∧ q = (i : ℚ)) ∨ parseF64 v = some q := by
  unfold parse_field_value at h
  by_cases hn : v = "null"
  · rw [if_pos hn] at h
    simp at h
  · rw [if_neg hn] at h
    cases hb : parseRustBool v with
    | some b =>
      rw [hb] at h
      simp at h
    | none =>
      rw [hb] at h
      cases hi : parseI64 v with
      | some i =>
        rw [hi] at h
        simp only [FieldValue.num.injEq] at h
        exact Or.inl ⟨i, rfl, h.symm⟩
      | none =>
        rw [hi] at h
        cases hf : parseF64 v with
        | some q' =>
          rw [hf] at h
          simp only [FieldValue.num.injEq] at h
          subst h
          exact Or.inr rfl
        | none =>
          rw [hf] at h
          simp at h

theorem pfv_num_den_dvd {v : String} {q : ℚ} (h : parse_field_value v = .num q)
    (hd : q.den ≠ 1) : ∃ e, q.den ∣ 10 ^ e := by
  rcases pfv_num_cases h with ⟨i, -, hq⟩ | hf
  · exact absurd (by rw [hq]; exact Rat.den_intCast i) hd
  · exact parseF64_den_dvd hf

theorem pfv_fmtNumber {q : ℚ}
    (hint : q.den = 1 → -(2 ^ 63) ≤ q.num ∧ q.num ≤ 2 ^ 63 - 1)
    (hdvd : q.den ≠ 1 → ∃ e, q.den ∣ 10 ^ e) :
    parse_field_value (fmtNumber q) = .num q := by
  by_cases hd : q.den = 1
  · obtain ⟨h1, h2⟩ := hint hd
    have hsat : i64Sat q.num = q.num := by
      unfold i64Sat
      rw [if_neg (by omega), if_neg (by omega)]
    have hfi : fmtNumber q = intToString q.num := by
      unfold fmtNumber
      rw [if_pos hd, hsat]
    rw [hfi, pfv_intToString h1 h2]
    congr 1
    have hnd := Rat.num_div_den q
    rw [hd] at hnd
    simpa using hnd
  · obtain ⟨k, hk⟩ := pow10Exp_isSome (Nat.pos_iff_ne_zero.mp q.pos) (hdvd hd)
    have hfd : fmtNumber q = fmtDecimal q := by
      unfold fmtNumber
      rw [if_neg hd]
    rw [hfd]
    have hwords := ne_words_of_numChars (fmtDecimal_numChars q) (fmtDecimal_ne_empty q)
    unfold parse_field_value
    rw [if_neg hwords.1, parseRustBool_none hwords.2.1 hwords.2.2]
    have hdot : '.' ∈ (fmtDecimal q).data := by
      rw [fmtDecimal_data hk]
      simp
    rw [parseI64_none_of_dot hdot, parseF64_fmtDecimal hd hk]

theorem pfv_roundtrip_str {v s : String} (hw : parse_field_value v = .str s)
    (hclean : v.data.all cleanChar = true) :
    parse_field_value (escape_quotes s) = .str s := by
  have hsv : s = v := pfv_str_eq hw
  subst hsv
  rw [escape_quotes_id hclean]
  exact hw

theorem pfv_roundtrip_num {v : String} {q : ℚ} (hw : parse_field_value v = .num q)
    (hnum : q.den = 1 → -(2 ^ 63) ≤ q.num ∧ q.num ≤ 2 ^ 63 - 1) :
    parse_field_value (fmtNumber q) = .num q :=
  pfv_fmtNumber hnum (pfv_num_den_dvd hw)

theorem logfmtMatchAt_key (k : String) (hkWF : keyWF k = true) (d : Char) (X : List Char)
    (hd : keyBodyChar d = false) :
    logfmtMatchAt (k.data ++ d :: X) = logfmtAfterKey k.data (d :: X) := by
  cases hkd : k.data with
  | nil =>
    exfalso
    unfold keyWF at hkWF
    rw [hkd] at hkWF
    have hf : (false : Bool) = true := hkWF
    cases hf
  | cons c ktail =>
    have hkWF' : (keyStartChar c && ktail.all keyBodyChar) = true := by
      unfold keyWF at hkWF
      rw [hkd] at hkWF
      exact hkWF
    simp only [Bool.and_eq_true] at hkWF'
    obtain ⟨hstart, hbody⟩ := hkWF'
    have hbody' : ∀ e ∈ ktail, keyBodyChar e = true := List.all_eq_true.mp hbody
    unfold logfmtMatchAt
    show (if keyStartChar c = true then
        logfmtAfterKey (c :: (ktail ++ d :: X).takeWhile keyBodyChar)
          ((ktail ++ d :: X).dropWhile keyBodyChar)
      else none) = logfmtAfterKey (c :: ktail) (d :: X)
    rw [if_pos hstart]
    have htw : (ktail ++ d :: X).takeWhile keyBodyChar = ktail := by
      rw [takeWhile_append_all _ _ _ hbody']
      simp [List.takeWhile_cons, hd]
    have hdw : (ktail ++ d :: X).dropWhile keyBodyChar = d :: X := by
      rw [dropWhile_append_all _ _ _ hbody']
      simp [List.dropWhile_cons, hd]
    rw [htw, hdw]

/-- Matching one rendered well-formed token at the head of the input
consumes exactly the token and captures its key and value, provided the
remainder is empty or starts with a space (the separator). -/
theorem logfmtMatchAt_render (t : LTok) (hwf : tokWF t = true) (rest : List Char)
    (hrest : rest = [] ∨ ∃ r', rest = ' ' :: r') :
    logfmtMatchAt ((renderLTok t).data ++ rest) =
      some ((tokKey t).data, (tokVal t).data, rest) := by
  cases t with
  | quoted k v =>
    simp only [tokWF, Bool.and_eq_true] at hwf
    obtain ⟨hkWF, hvclean⟩ := hwf
    have hvne : ∀ d ∈ v.data, decide (d ≠ '"') = true := by
      intro d hd
      have hc := (List.all_eq_true.mp hvclean) d hd
      simp only [cleanChar, Bool.and_eq_true, Bool.not_eq_true',
        decide_eq_false_iff_not] at hc
      exact decide_eq_true hc.1
    have hrd : (renderLTok (.quoted k v)).data ++ rest =
        k.data ++ '=' :: '"' :: (v.data ++ '"' :: rest) := by
      show (k ++ "=\"" ++ v ++ "\"").data ++ rest = _
      rw [strData_append, strData_append, strData_append]
      rw [show ("=\"" : String).data = ['=', '"'] from rfl,
          show ("\"" : String).data = ['"'] from rfl]
      simp [List.append_assoc]
    rw [hrd, logfmtMatchAt_key k hkWF '=' _ (by decide)]
    show logfmtAfterEq k.data ('"' :: (v.data ++ '"' :: rest)) = _
    show logfmtQuoted k.data '"' (v.data ++ '"' :: rest)
        ((v.data ++ '"' :: rest).dropWhile (fun e => e ≠ '"')) = _
    have hdq : (v.data ++ '"' :: rest).dropWhile (fun e => e ≠ '"') = '"' :: rest := by
      rw [dropWhile_append_all _ _ _ hvne]
      simp [List.dropWhile_cons]
    rw [hdq]
    show some (k.data, (v.data ++ '"' :: rest).takeWhile (fun e => e ≠ '"'), rest) = _
    have htq : (v.data ++ '"' :: rest).takeWhile (fun e => e ≠ '"') = v.data := by
      rw [takeWhile_append_all _ _ _ hvne]
      simp [List.takeWhile_cons]
    rw [htq]
    rfl
  | bare k v =>
    simp only [tokWF, Bool.and_eq_true] at hwf
    obtain ⟨⟨⟨hkWF, hvclean⟩, hvnem⟩, hvnws⟩ := hwf
    have hnws : ∀ d ∈ v.data, (!d.isWhitespace) = true := List.all_eq_true.mp hvnws
    have hrd : (renderLTok (.bare k v)).data ++ rest = k.data ++ '=' :: (v.data ++ rest) := by
      show (k ++ "=" ++ v).data ++ rest = _
      rw [strData_append, strData_append]
      rw [show ("=" : String).data = ['='] from rfl]
      simp [List.append_assoc]
    rw [hrd, logfmtMatchAt_key k hkWF '=' _ (by decide)]
    cases hvd : v.data with
    | nil =>
      exfalso
      rw [hvd] at hvnem
      simp at hvnem
    | cons v0 vtail =>
      have hv0 : v0 ≠ '"' := by
        have hc := (List.all_eq_true.mp hvclean) v0 (by rw [hvd]; simp)
        simp only [cleanChar, Bool.and_eq_true, Bool.not_eq_true',
          decide_eq_false_iff_not] at hc
        exact hc.1
      show logfmtAfterEq k.data (v0 :: vtail ++ rest) = _
      show (if v0 = '"' then
          logfmtQuoted k.data v0 (vtail ++ rest)
            ((vtail ++ rest).dropWhile (fun e => e ≠ '"'))
        else logfmtBare k.data (v0 :: (vtail ++ rest))) = _
      rw [if_neg hv0]
      have hback : v0 :: (vtail ++ rest) = v.data ++ rest := by
        rw [hvd]
        rfl
      rw [hback]
      unfold logfmtBare
      have htw : (v.data ++ rest).takeWhile (fun c => !c.isWhitespace) = v.data := by
        rw [takeWhile_append_all _ _ _ hnws]
        rcases hrest with hr | ⟨r', hr⟩
        · subst hr
          simp
        · subst hr
          simp [List.takeWhile_cons]
      have hdw2 : (v.data ++ rest).dropWhile (fun c => !c.isWhitespace) = rest := by
        rw [dropWhile_append_all _ _ _ hnws]
        rcases hrest with hr | ⟨r', hr⟩
        · subst hr
          simp
        · subst hr
          simp [List.dropWhile_cons]
      rw [htw, hdw2]
      have hvem : v.data.isEmpty = false := by
        rw [hvd]
        rfl
      simp [hvem]
      exact ⟨rfl, rfl⟩

theorem renderLTok_length_pos (t : LTok) : 1 ≤ (renderLTok t).data.length := by
  cases t with
  | quoted k v =>
    show 1 ≤ ((k ++ "=\"" ++ v ++ "\"").data).length
    rw [strData_append, strData_append, strData_append,
      show ("=\"" : String).data = ['=', '"'] from rfl,
      show ("\"" : String).data = ['"'] from rfl]
    simp [List.length_append]
    omega
  | bare k v =>
    show 1 ≤ ((k ++ "=" ++ v).data).length
    rw [strData_append, strData_append, show ("=" : String).data = ['='] from rfl]
    simp [List.length_append]
    omega

theorem logfmtScanAux_nil (fuel : Nat) : logfmtScanAux fuel [] = [] := by
  cases fuel with
  | zero => rfl
  | succ f => rfl

theorem logfmtScanAux_succ (fuel : Nat) (cs : List Char) :
    logfmtScanAux (fuel + 1) cs =
      match logfmtMatchAt cs with
      | some kvr => (⟨kvr.1⟩, ⟨kvr.2.1⟩) :: logfmtScanAux fuel kvr.2.2
      | none =>
        match cs with
        | [] => []
        | _ :: cs' => logfmtScanAux fuel cs' := rfl

theorem logfmtMatchAt_space (cs : List Char) : logfmtMatchAt (' ' :: cs) = none := rfl

theorem joinSep_data_cons (x y : String) (ys : List String) :
    (joinSep " " (x :: y :: ys)).data = x.data ++ ' ' :: (joinSep " " (y :: ys)).data := by
  show (x ++ " " ++ joinSep " " (y :: ys)).data = _
  rw [strData_append, strData_append, show (" " : String).data = [' '] from rfl]
  simp [List.append_assoc]

/-- Scanning the rendered line of a well-formed token list captures
exactly the tokens' `(key, value)` pairs in order. -/
theorem logfmtScanAux_tokens :
    ∀ toks : List LTok, (∀ t ∈ toks, tokWF t = true) →
    ∀ fuel : Nat, (joinSep " " (toks.map renderLTok)).data.length ≤ fuel →
    logfmtScanAux fuel (joinSep " " (toks.map renderLTok)).data =
      toks.map (fun t => (tokKey t, tokVal t)) := by
  intro toks
  induction toks with
  | nil =>
    intro _ fuel _
    exact logfmtScanAux_nil fuel
  | cons t ts ih =>
    intro hwf fuel hfuel
    have hwt : tokWF t = true := hwf t (by simp)
    have hpos : 1 ≤ (renderLTok t).data.length := renderLTok_length_pos t
    cases ts with
    | nil =>
      have hm := logfmtMatchAt_render t hwt [] (Or.inl rfl)
      rw [List.append_nil] at hm
      have hlen : (renderLTok t).data.length ≤ fuel := hfuel
      obtain ⟨f, rfl⟩ : ∃ f, fuel = f + 1 := ⟨fuel - 1, by omega⟩
      show logfmtScanAux (f + 1) (renderLTok t).data = _
      rw [logfmtScanAux_succ, hm]
      show (⟨(tokKey t).data⟩, ⟨(tokVal t).data⟩) :: logfmtScanAux f [] =
        [(tokKey t, tokVal t)]
      rw [logfmtScanAux_nil, str_mk_data, str_mk_data]
    | cons t2 ts' =>
      have hdata : (joinSep " " ((t :: t2 :: ts').map renderLTok)).data =
          (renderLTok t).data ++ ' ' :: (joinSep " " ((t2 :: ts').map renderLTok)).data :=
        joinSep_data_cons (renderLTok t) (renderLTok t2) (ts'.map renderLTok)
      set cs2 := (joinSep " " ((t2 :: ts').map renderLTok)).data with hcs2
      have hm := logfmtMatchAt_render t hwt (' ' :: cs2) (Or.inr ⟨cs2, rfl⟩)
      have hlen : (renderLTok t).data.length + 1 + cs2.length ≤ fuel := by
        rw [hdata] at hfuel
        simp only [List.length_append, List.length_cons] at hfuel
        omega
      obtain ⟨f, rfl⟩ : ∃ f, fuel = f + 1 := ⟨fuel - 1, by omega⟩
      rw [hdata]
      rw [logfmtScanAux_succ, hm]
      show (⟨(tokKey t).data⟩, ⟨(tokVal t).data⟩) :: logfmtScanAux f (' ' :: cs2) = _
      obtain ⟨f', rfl⟩ : ∃ f', f = f' + 1 := ⟨f - 1, by omega⟩
      have hskip : logfmtScanAux (f' + 1) (' ' :: cs2) = logfmtScanAux f' cs2 := by
        rw [logfmtScanAux_succ, logfmtMatchAt_space]
      rw [hskip, str_mk_data, str_mk_data]
      rw [ih (fun u hu => hwf u (by simp [hu])) f' (by omega)]
      rfl

theorem logfmtScan_tokens (toks : List LTok) (hwf : ∀ t ∈ toks, tokWF t = true) :
    logfmtScan (joinSep " " (toks.map renderLTok)).data =
      toks.map (fun t => (tokKey t, tokVal t)) :=
  logfmtScanAux_tokens toks hwf _ le_rfl

theorem render_has_eq (t : LTok) : '=' ∈ (renderLTok t).data := by
  cases t with
  | quoted k v =>
    show '=' ∈ (k ++ "=\"" ++ v ++ "\"").data
    rw [strData_append, strData_append, strData_append,
      show ("=\"" : String).data = ['=', '"'] from rfl]
    simp
  | bare k v =>
    show '=' ∈ (k ++ "=" ++ v).data
    rw [strData_append, strData_append, show ("=" : String).data = ['='] from rfl]
    simp

theorem joinSep_tokens_not_blank (toks : List LTok) (hne : toks ≠ []) :
    isBlank (joinSep " " (toks.map renderLTok)) = false := by
  cases toks with
  | nil => exact absurd rfl hne
  | cons t ts =>
    have hmem : '=' ∈ (joinSep " " ((t :: ts).map renderLTok)).data := by
      cases ts with
      | nil => exact render_has_eq t
      | cons t2 ts' =>
        have hj : (joinSep " " ((t :: t2 :: ts').map renderLTok)).data =
            (renderLTok t).data ++ ' ' :: (joinSep " " ((t2 :: ts').map renderLTok)).data :=
          joinSep_data_cons _ _ _
        rw [hj]
        exact List.mem_append_left _ (render_has_eq t)
    rw [Bool.eq_false_iff]
    intro hall
    unfold isBlank at hall
    rw [List.all_eq_true] at hall
    exact absurd (hall '=' hmem) (by decide)

/-- Parsing the rendered line of a nonempty well-formed token list folds
exactly the tokens' pairs through `set_field` and extracts core fields. -/
theorem logfmtParse_tokens (toks : List LTok)
    (hwf : ∀ t ∈ toks, tokWF t = true) :
    logfmtParse (joinSep " " (toks.map renderLTok)) =
      .ok (((toks.map (fun t => (tokKey t, tokVal t))).foldl
        (fun ev kv => ev.set_field kv.1 (parse_field_value kv.2))
        Event.new).extract_core_fields) := by
  cases hts : toks with
  | nil => rfl
  | cons t0 ts0 =>
    unfold logfmtParse
    rw [if_neg (show ¬isBlank (joinSep " " ((t0 :: ts0).map renderLTok)) = true from by
      rw [joinSep_tokens_not_blank (t0 :: ts0) (by simp)]
      simp)]
    rw [logfmtScan_tokens (t0 :: ts0) (by rw [← hts]; exact hwf)]

theorem findStr_eq_none_of_not_mem {k : String} {ps : List (String × String)}
    (h : k ∉ ps.map Prod.fst) : findStr k ps = none := by
  induction ps with
  | nil => rfl
  | cons kv rest ih =>
    obtain ⟨k0, v0⟩ := kv
    simp only [List.map_cons, List.mem_cons] at h
    push_neg at h
    unfold findStr
    rw [if_neg (fun hh => h.1 hh.symm)]
    exact ih h.2

theorem findField_some_of_mem_fst {k : String} {f : List (String × FieldValue)}
    (h : k ∈ f.map Prod.fst) : ∃ v, findField k f = some v := by
  induction f with
  | nil => simp at h
  | cons kv rest ih =>
    obtain ⟨k0, v0⟩ := kv
    by_cases h0 : k0 = k
    · exact ⟨v0, by unfold findField; rw [if_pos h0]⟩
    · have hmem : k ∈ rest.map Prod.fst := by
        simp only [List.map_cons, List.mem_cons] at h
        rcases h with h | h
        · exact absurd h.symm h0
        · exact h
      obtain ⟨v, hv⟩ := ih hmem
      exact ⟨v, by unfold findField; rw [if_neg h0]; exact hv⟩

theorem map_fst_foldl_putField_str (g : String → FieldValue) :
    ∀ (kvs : List (String × String)) (acc : List (String × FieldValue)),
      (∀ kv ∈ kvs, kv.1 ∉ acc.map Prod.fst) → (kvs.map Prod.fst).Nodup →
      (kvs.foldl (fun a kv => putField kv.1 (g kv.2) a) acc).map Prod.fst =
        acc.map Prod.fst ++ kvs.map Prod.fst := by
  intro kvs
  induction kvs with
  | nil =>
    intro acc _ _
    simp
  | cons kv rest ih =>
    intro acc hdis hnd
    obtain ⟨k0, v0⟩ := kv
    simp only [List.map_cons, List.nodup_cons] at hnd
    simp only [List.foldl_cons]
    have hk0 : k0 ∉ acc.map Prod.fst := hdis (k0, v0) (by simp)
    have hacc' : (putField k0 (g v0) acc).map Prod.fst = acc.map Prod.fst ++ [k0] := by
      rw [map_fst_putField, if_neg hk0]
    have hdis' : ∀ kv ∈ rest, kv.1 ∉ (putField k0 (g v0) acc).map Prod.fst := by
      intro kv hkv
      rw [hacc']
      simp only [List.mem_append, List.mem_singleton]
      push_neg
      exact ⟨fun hmem => hdis kv (by simp [hkv]) hmem,
             fun heq => hnd.1 (heq ▸ (List.mem_map_of_mem Prod.fst hkv))⟩
    rw [ih _ hdis' hnd.2, hacc']
    simp

theorem foldl_set_field_eq_str (g : String → FieldValue) (kvs : List (String × String))
    (ev : Event) :
    kvs.foldl (fun e kv => e.set_field kv.1 (g kv.2)) ev =
      { ev with fields := kvs.foldl (fun acc kv => putField kv.1 (g kv.2) acc) ev.fields } := by
  induction kvs generalizing ev with
  | nil => rfl
  | cons kv rest ih =>
    simp only [List.foldl_cons]
    rw [ih]
    rfl

theorem findField_foldl_putField_str (g : String → FieldValue) :
    ∀ (kvs : List (String × String)) (acc : List (String × FieldValue)) (k : String),
      (kvs.map Prod.fst).Nodup →
      findField k (kvs.foldl (fun a kv => putField kv.1 (g kv.2) a) acc) =
        (match findStr k kvs with
         | some v => some (g v)
         | none => findField k acc) := by
  intro kvs
  induction kvs with
  | nil =>
    intro acc k _
    rfl
  | cons kv rest ih =>
    intro acc k hnd
    obtain ⟨k0, v0⟩ := kv
    simp only [List.map_cons, List.nodup_cons] at hnd
    simp only [List.foldl_cons]
    rw [ih _ k hnd.2]
    by_cases h0 : k0 = k
    · subst h0
      have hrest : findStr k0 rest = none := findStr_eq_none_of_not_mem hnd.1
      simp [hrest, findStr, findField_putField_self]
    · cases hfs : findStr k rest with
      | some v => simp [findStr, h0, hfs]
      | none =>
        have hne : k ≠ k0 := fun hh => h0 hh.symm
        simp [findStr, h0, hfs, findField_putField_other hne]

theorem findStr_filterMap (g : FieldValue → String) (f : List (String × FieldValue)) :
    ∀ (ks : List String) (k : String),
      findStr k (ks.filterMap (fun j => (findField j f).map (fun v => (j, g v)))) =
        (if k ∈ ks then (findField k f).map g else none) := by
  intro ks
  induction ks with
  | nil =>
    intro k
    simp [findStr]
  | cons k0 ks' ih =>
    intro k
    cases hf0 : findField k0 f with
    | none =>
      simp only [List.filterMap_cons, hf0, Option.map_none']
      rw [ih]
      by_cases hk : k = k0
      · subst hk
        rw [hf0]
        by_cases hm : k ∈ ks'
        · simp [hm]
        · simp [hm]
      · by_cases hm : k ∈ ks'
        · simp [hm, hk]
        · simp [hm, hk]
    | some v =>
      simp only [List.filterMap_cons, hf0, Option.map_some']
      show (if k0 = k then some (g v)
          else findStr k (ks'.filterMap (fun j => (findField j f).map (fun v => (j, g v))))) = _
      by_cases hk : k0 = k
      · rw [if_pos hk]
        subst hk
        simp [hf0]
      · rw [if_neg hk]
        rw [ih]
        have hkne : k ≠ k0 := fun hh => hk hh.symm
        by_cases hm : k ∈ ks'
        · simp [hm, hkne]
        · simp [hm, hkne]

theorem extractSlot_none (aliases : List String) (f : List (String × FieldValue))
    (h : ∀ a ∈ aliases, ∀ s, findField a f ≠ some (.str s)) :
    extractSlot aliases f = (none, f) := by
  induction aliases with
  | nil => rfl
  | cons a rest ih =>
    rw [extractSlot_cons_skip a rest f (h a (by simp))]
    exact ih (fun b hb s => h b (by simp [hb]) s)

theorem extractSlot_hit (aliases : List String) (f : List (String × FieldValue))
    (a : String) (s : String) (ha : a ∈ aliases) (hfa : findField a f = some (.str s))
    (hothers : ∀ b ∈ aliases, b ≠ a → ∀ s', findField b f ≠ some (.str s')) :
    extractSlot aliases f = (some s, removeField a f) := by
  induction aliases with
  | nil => simp at ha
  | cons b rest ih =>
    by_cases hb : b = a
    · subst hb
      simp [extractSlot, hfa]
    · have harest : a ∈ rest := by
        rcases List.mem_cons.mp ha with hh | hh
        · exact absurd hh.symm hb
        · exact hh
      rw [extractSlot_cons_skip b rest f (hothers b (by simp) hb)]
      exact ih harest (fun c hc hca => hothers c (by simp [hc]) hca)

/-- The value text the scanner captures back from the remainder token of
one field: strings were escaped and quoted, everything else bare. -/
def captureOfVal : FieldValue → String
  | .str s => escape_quotes s
  | v => fmtFieldValue v

theorem tokKey_tokOfVal (j : String) (v : FieldValue) : tokKey (tokOfVal j v) = j := by
  cases v <;> rfl

theorem tokVal_tokOfVal (j : String) (v : FieldValue) :
    tokVal (tokOfVal j v) = captureOfVal v := by
  cases v <;> rfl

theorem pair_mem_of_findStr_eq_some {k v : String} {ps : List (String × String)}
    (h : findStr k ps = some v) : (k, v) ∈ ps := by
  induction ps with
  | nil => simp [findStr] at h
  | cons kv rest ih =>
    obtain ⟨k0, v0⟩ := kv
    unfold findStr at h
    by_cases h0 : k0 = k
    · rw [if_pos h0] at h
      simp only [Option.some.injEq] at h
      subst h0
      subst h
      simp
    · rw [if_neg h0] at h
      exact List.mem_cons_of_mem _ (ih h)

theorem pfv_captureOfVal {w : String} (hclean : w.data.all cleanChar = true)
    (hnum : ∀ q, parse_field_value w = .num q →
      q.den = 1 → -(2 ^ 63) ≤ q.num ∧ q.num ≤ 2 ^ 63 - 1) :
    parse_field_value (captureOfVal (parse_field_value w)) = parse_field_value w := by
  cases hw : parse_field_value w with
  | str s => exact pfv_roundtrip_str hw hclean
  | num q => exact pfv_roundtrip_num hw (hnum q hw)
  | bool b => cases b <;> rfl
  | null => rfl

theorem tokVal_clean {t : LTok} (h : tokWF t = true) :
    (tokVal t).data.all cleanChar = true := by
  cases t with
  | quoted k v =>
    simp only [tokWF, Bool.and_eq_true] at h
    exact h.2
  | bare k v =>
    simp only [tokWF, Bool.and_eq_true] at h
    exact h.1.1.2

theorem tokKey_keyWF {t : LTok} (h : tokWF t = true) : keyWF (tokKey t) = true := by
  cases t with
  | quoted k v =>
    simp only [tokWF, Bool.and_eq_true] at h
    exact h.1
  | bare k v =>
    simp only [tokWF, Bool.and_eq_true] at h
    exact h.1.1.1

theorem levelAliases_ne_messageAliases :
    ∀ x ∈ levelAliases, ∀ y ∈ messageAliases, x ≠ y := by decide

theorem str_ext {a b : String} (h : a.data = b.data) : a = b := by
  cases a
  cases b
  cases h
  rfl

theorem tokOfVal_WF (j : String) (v : FieldValue) (hj : keyWF j = true)
    (hstr : ∀ s, v = .str s → s.data.all cleanChar = true) :
    tokWF (tokOfVal j v) = true := by
  cases v with
  | str s =>
    have hc := hstr s rfl
    show tokWF (.quoted j (escape_quotes s)) = true
    rw [escape_quotes_id hc]
    simp [tokWF, hj, hc]
  | num q =>
    show tokWF (.bare j (fmtNumber q)) = true
    simp only [tokWF, Bool.and_eq_true, hj, true_and]
    refine ⟨⟨?_, ?_⟩, ?_⟩
    · rw [List.all_eq_true]
      intro c hc
      exact numChar_clean (fmtNumber_numChars q c hc)
    · cases hfe : (fmtNumber q).data with
      | nil => exact absurd hfe (fmtNumber_ne_empty q)
      | cons a b => rfl
    · rw [List.all_eq_true]
      intro c hc
      simp [numChar_not_ws (fmtNumber_numChars q c hc)]
  | bool b =>
    cases b with
    | true =>
      show tokWF (.bare j "true") = true
      simp [tokWF, hj]
      decide
    | false =>
      show tokWF (.bare j "false") = true
      simp [tokWF, hj]
      decide
  | null =>
    show tokWF (.bare j "null") = true
    simp [tokWF, hj]
    decide

theorem renderLTok_tokOfVal (x : String) (w : FieldValue) :
    renderLTok (tokOfVal x w) = x ++ "=" ++ fmtFieldValue w := by
  cases w with
  | str s =>
    apply str_ext
    show (x ++ "=\"" ++ escape_quotes s ++ "\"").data =
      (x ++ "=" ++ ("\"" ++ escape_quotes s ++ "\"")).data
    simp only [strData_append]
    simp [List.append_assoc]
  | num q => rfl
  | bool b => rfl
  | null => rfl

/-- The default formatter's output is exactly the rendering of its core
tokens followed by its remainder tokens, space-joined. -/
theorem defaultFormat_eq_tokens (ev : Event) :
    defaultFormat ev = joinSep " " ((coreToks ev ++ restToks ev).map renderLTok) := by
  have hrest : ∀ e : Event, (restToks e).map renderLTok =
      (sortStrings (e.fields.map Prod.fst)).filterMap
        (fun k => (findField k e.fields).map (fun v => k ++ "=" ++ fmtFieldValue v)) := by
    intro e
    show ((sortStrings (e.fields.map Prod.fst)).filterMap
        (fun k => (findField k e.fields).map (tokOfVal k))).map renderLTok = _
    rw [List.map_filterMap]
    congr 1
    funext j
    rw [Option.map_map]
    cases hv : findField j e.fields with
    | none => rfl
    | some w => simp [renderLTok_tokOfVal, Function.comp]
  obtain ⟨optT, optL, optM, f⟩ := ev
  cases optT <;> cases optL <;> cases optM <;>
    (rw [List.map_append, hrest _]; try rfl)

theorem findStr_append (k : String) (a b : List (String × String)) :
    findStr k (a ++ b) =
      (match findStr k a with
       | some v => some v
       | none => findStr k b) := by
  induction a with
  | nil => rfl
  | cons kv rest ih =>
    obtain ⟨k0, v0⟩ := kv
    by_cases h0 : k0 = k
    · simp [findStr, h0]
    · simp [findStr, h0, ih]

theorem findField_removeField_some {a k : String} {v : FieldValue}
    {f : List (String × FieldValue)} (hnd : (f.map Prod.fst).Nodup)
    (h : findField k (removeField a f) = some v) : findField k f = some v := by
  by_cases hk : k = a
  · subst hk
    rw [findField_removeField_self hnd] at h
    cases h
  · rw [findField_removeField_other hk] at h
    exact h

theorem not_mem_removeField_self {k : String} {f : List (String × FieldValue)}
    (hnd : (f.map Prod.fst).Nodup) : k ∉ (removeField k f).map Prod.fst := by
  intro hmem
  obtain ⟨v, hv⟩ := findField_some_of_mem_fst hmem
  rw [findField_removeField_self hnd] at hv
  cases hv

/-- The scanner pairs of the formatter's remainder tokens: each sorted
key paired with the captured text of its value. -/
theorem restToks_pairs (e : Event) :
    (restToks e).map (fun t => (tokKey t, tokVal t)) =
      (sortStrings (e.fields.map Prod.fst)).filterMap
        (fun j => (findField j e.fields).map (fun v => (j, captureOfVal v))) := by
  unfold restToks
  rw [List.map_filterMap]
  congr 1
  funext j
  rw [Option.map_map]
  congr 1
  funext v
  simp [tokKey_tokOfVal, tokVal_tokOfVal, Function.comp]

/-- Core-field extraction written out explicitly for an event with empty
core slots, given the two slot-scan results. -/
theorem extract_core_explicit (F FL FM : List (String × FieldValue))
    (lres mres : Option String)
    (hl : extractSlot levelAliases F = (lres, FL))
    (hm : extractSlot messageAliases FL = (mres, FM)) :
    ({ Event.new with fields := F } : Event).extract_core_fields =
      { timestamp := none, level := lres, message := mres, fields := FM } := by
  unfold Event.extract_core_fields
  simp only [show ({ Event.new with fields := F } : Event).fields = F from rfl, hl, hm]
  cases lres <;> cases mres <;> rfl

theorem filterMap_keys (f : List (String × FieldValue)) (ks : List String)
    (hk : ∀ j ∈ ks, j ∈ f.map Prod.fst) :
    (ks.filterMap (fun j => (findField j f).map (fun v => (j, captureOfVal v)))).map
      Prod.fst = ks := by
  induction ks with
  | nil => rfl
  | cons j js ih =>
    obtain ⟨v, hv⟩ := findField_some_of_mem_fst (hk j (by simp))
    simp only [List.filterMap_cons, hv, Option.map_some', List.map_cons]
    rw [ih (fun i hi => hk i (by simp [hi]))]

/-- Re-parsing the default-formatted rendering of an event with an empty
timestamp slot, well-formed and distinct keys, round-trippable values,
string slot values that parse back as themselves, and no string-valued
alias keys left in the field map recovers the event up to field order. -/
theorem reparse_eventEquiv (ev1 : Event)
    (hts : ev1.timestamp = none)
    (hnd1 : (ev1.fields.map Prod.fst).Nodup)
    (hround : ∀ k v, findField k ev1.fields = some v →
      parse_field_value (captureOfVal v) = v)
    (hkeys : ∀ k ∈ ev1.fields.map Prod.fst, keyWF k = true)
    (hstrclean : ∀ k s, findField k ev1.fields = some (.str s) →
      s.data.all cleanChar = true)
    (hLval : ∀ L, ev1.level = some L →
      parse_field_value L = .str L ∧ L.data.all cleanChar = true)
    (hMval : ∀ M, ev1.message = some M →
      parse_field_value M = .str M ∧ M.data.all cleanChar = true)
    (hnoLalias : ∀ a ∈ levelAliases, ∀ s, findField a ev1.fields ≠ some (.str s))
    (hnoMalias : ∀ a ∈ messageAliases, ∀ s, findField a ev1.fields ≠ some (.str s))
    (hLkey : ev1.level ≠ none → "level" ∉ ev1.fields.map Prod.fst)
    (hMkey : ev1.message ≠ none → "message" ∉ ev1.fields.map Prod.fst)
    (ev2 : Event)
    (h2 : logfmtParse (defaultFormat ev1) = .ok ev2) :
    eventEquiv ev2 ev1 := by
  obtain ⟨RP, hRPdef⟩ : ∃ RP, RP = (sortStrings (ev1.fields.map Prod.fst)).filterMap
      (fun j => (findField j ev1.fields).map (fun v => (j, captureOfVal v))) := ⟨_, rfl⟩
  have hRKnd : (sortStrings (ev1.fields.map Prod.fst)).Nodup := nodup_sortStrings hnd1
  have hRPlookup : ∀ k, findStr k RP =
      (if k ∈ sortStrings (ev1.fields.map Prod.fst) then
        (findField k ev1.fields).map captureOfVal else none) := by
    intro k
    rw [hRPdef]
    exact findStr_filterMap captureOfVal ev1.fields _ k
  have hRPkeys : RP.map Prod.fst = sortStrings (ev1.fields.map Prod.fst) := by
    rw [hRPdef]
    exact filterMap_keys ev1.fields _ (fun j hj => mem_sortStrings.mp hj)
  have hRPnd : (RP.map Prod.fst).Nodup := by
    rw [hRPkeys]
    exact hRKnd
  have hRPval : ∀ k v, findField k ev1.fields = some v →
      findStr k RP = some (captureOfVal v) := by
    intro k v hv
    have hkm : k ∈ ev1.fields.map Prod.fst := mem_of_findField_eq_some hv
    rw [hRPlookup k, if_pos (mem_sortStrings.mpr hkm), hv]
    rfl
  have hRPval2 : ∀ k, (match findStr k RP with
      | some w => some (parse_field_value w)
      | none => (none : Option FieldValue)) = findField k ev1.fields := by
    intro k
    by_cases hk : k ∈ ev1.fields.map Prod.fst
    · obtain ⟨v, hv⟩ := findField_some_of_mem_fst hk
      rw [hRPval k v hv]
      show some (parse_field_value (captureOfVal v)) = _
      rw [hround k v hv, hv]
    · rw [hRPlookup k, if_neg (fun hmem => hk (mem_sortStrings.mp hmem)),
        findField_eq_none_of_not_mem hk]
  have hRPstr : ∀ b s', (match findStr b RP with
      | some w => some (parse_field_value w)
      | none => (none : Option FieldValue)) = some (.str s') →
      findField b ev1.fields = some (.str s') := by
    intro b s' h
    rw [hRPval2 b] at h
    exact h
  have hrestmem : ∀ u ∈ restToks ev1, ∃ j v, j ∈ sortStrings (ev1.fields.map Prod.fst) ∧
      findField j ev1.fields = some v ∧ u = tokOfVal j v := by
    intro u hu
    unfold restToks at hu
    obtain ⟨j, hj, hjt⟩ := List.mem_filterMap.mp hu
    cases hfj : findField j ev1.fields with
    | none =>
      rw [hfj] at hjt
      cases hjt
    | some v =>
      rw [hfj] at hjt
      simp only [Option.map_some', Option.some.injEq] at hjt
      exact ⟨j, v, hj, hfj, hjt.symm⟩
  have hrestWF : ∀ u ∈ restToks ev1, tokWF u = true := by
    intro u hu
    obtain ⟨j, v, hj, hfj, rfl⟩ := hrestmem u hu
    apply tokOfVal_WF
    · exact hkeys j (mem_sortStrings.mp hj)
    · intro s hs
      rw [hs] at hfj
      exact hstrclean j s hfj
  have hRPpairs : (restToks ev1).map (fun t => (tokKey t, tokVal t)) = RP := by
    rw [hRPdef]
    exact restToks_pairs ev1
  have hLtokWF : ∀ L', ev1.level = some L' → tokWF (.quoted "level" L') = true := by
    intro L' hL'
    show (keyWF "level" && L'.data.all cleanChar) = true
    rw [show keyWF "level" = true from by decide, (hLval L' hL').2]
    rfl
  have hMtokWF : ∀ M', ev1.message = some M' → tokWF (.quoted "message" M') = true := by
    intro M' hM'
    show (keyWF "message" && M'.data.all cleanChar) = true
    rw [show keyWF "message" = true from by decide, (hMval M' hM').2]
    rfl
  cases hL : ev1.level with
  | some L =>
    cases hM : ev1.message with
    | some M =>
      have hLv := hLval L hL
      have hMv := hMval M hM
      have hescM : escape_quotes M = M := escape_quotes_id hMv.2
      have hcore : coreToks ev1 = [.quoted "level" L, .quoted "message" (escape_quotes M)] := by
        unfold coreToks
        rw [hts, hL, hM]
        rfl
      rw [hescM] at hcore
      have hformat : defaultFormat ev1 = joinSep " "
          ((LTok.quoted "level" L :: LTok.quoted "message" M :: restToks ev1).map renderLTok) := by
        rw [defaultFormat_eq_tokens, hcore]
        rfl
      have hwf2 : ∀ u ∈ (LTok.quoted "level" L :: LTok.quoted "message" M :: restToks ev1),
          tokWF u = true := by
        intro u hu
        rcases List.mem_cons.mp hu with hu | hu
        · subst hu
          exact hLtokWF L hL
        · rcases List.mem_cons.mp hu with hu | hu
          · subst hu
            exact hMtokWF M hM
          · exact hrestWF u hu
      have hP2 : ((LTok.quoted "level" L :: LTok.quoted "message" M :: restToks ev1).map
          (fun t => (tokKey t, tokVal t))) = ("level", L) :: ("message", M) :: RP := by
        simp only [List.map_cons]
        rw [hRPpairs]
        rfl
      have hp := logfmtParse_tokens (LTok.quoted "level" L :: LTok.quoted "message" M ::
        restToks ev1) hwf2
      rw [hP2, ← hformat] at hp
      rw [hp] at h2
      have hev2 : ev2 = ((("level", L) :: ("message", M) :: RP).foldl
          (fun ev kv => ev.set_field kv.1 (parse_field_value kv.2))
          Event.new).extract_core_fields := by
        injection h2 with h3
        exact h3.symm
      obtain ⟨F2, hF2def⟩ : ∃ F2, F2 = (("level", L) :: ("message", M) :: RP).foldl
          (fun a kv => putField kv.1 (parse_field_value kv.2) a) [] := ⟨_, rfl⟩
      have hfold : (("level", L) :: ("message", M) :: RP).foldl
          (fun ev kv => ev.set_field kv.1 (parse_field_value kv.2)) Event.new =
          { Event.new with fields := F2 } := by
        rw [foldl_set_field_eq_str parse_field_value]
        rw [show (Event.new).fields = [] from rfl, ← hF2def]
      have hP2nd : ((("level", L) :: ("message", M) :: RP).map Prod.fst).Nodup := by
        simp only [List.map_cons]
        refine List.nodup_cons.mpr ⟨?_, List.nodup_cons.mpr ⟨?_, hRPnd⟩⟩
        · intro hmem
          rcases List.mem_cons.mp hmem with hh | hh
          · exact absurd hh (by decide)
          · rw [hRPkeys] at hh
            exact hLkey (by rw [hL]; simp) (mem_sortStrings.mp hh)
        · intro hmem
          rw [hRPkeys] at hmem
          exact hMkey (by rw [hM]; simp) (mem_sortStrings.mp hmem)
      have hF2find : ∀ k, findField k F2 =
          (match findStr k (("level", L) :: ("message", M) :: RP) with
           | some w => some (parse_field_value w)
           | none => none) := by
        intro k
        rw [hF2def, findField_foldl_putField_str parse_field_value _ [] k hP2nd]
        cases hfs : findStr k (("level", L) :: ("message", M) :: RP) <;> rfl
      have hfindOther : ∀ k, k ≠ "level" → k ≠ "message" →
          findStr k (("level", L) :: ("message", M) :: RP) = findStr k RP := by
        intro k h1 h2'
        show (if "level" = k then some L else
          if "message" = k then some M else findStr k RP) = findStr k RP
        rw [if_neg (fun hh => h1 hh.symm), if_neg (fun hh => h2' hh.symm)]
      have hndF2 : (F2.map Prod.fst).Nodup := by
        have hmf := map_fst_foldl_putField_str parse_field_value
          (("level", L) :: ("message", M) :: RP) [] (by simp) hP2nd
        rw [hF2def, hmf]
        simpa using hP2nd
      have hextL : extractSlot levelAliases F2 = (some L, removeField "level" F2) := by
        apply extractSlot_hit levelAliases F2 "level" L (by decide)
        · rw [hF2find "level", show findStr "level" (("level", L) :: ("message", M) :: RP) =
            some L from rfl]
          show some (parse_field_value L) = _
          rw [hLv.1]
        · intro b hb hbne s' hcontra
          have hbm : b ≠ "message" := by
            intro hh
            subst hh
            exact absurd hb (by decide)
          rw [hF2find b, hfindOther b hbne hbm] at hcontra
          exact hnoLalias b hb s' (hRPstr b s' hcontra)
      have hextM : extractSlot messageAliases (removeField "level" F2) =
          (some M, removeField "message" (removeField "level" F2)) := by
        apply extractSlot_hit messageAliases _ "message" M (by decide)
        · rw [findField_removeField_other (by decide : ("message" : String) ≠ "level")]
          rw [hF2find "message", show findStr "message"
            (("level", L) :: ("message", M) :: RP) = some M from rfl]
          show some (parse_field_value M) = _
          rw [hMv.1]
        · intro b hb hbne s' hcontra
          have hbl : b ≠ "level" := by
            intro hh
            subst hh
            exact absurd hb (by decide)
          rw [findField_removeField_other hbl, hF2find b, hfindOther b hbl hbne] at hcontra
          exact hnoMalias b hb s' (hRPstr b s' hcontra)
      have hev2' : ev2 = { timestamp := none, level := some L, message := some M, fields := removeField "message" (removeField "level" F2) } := by
        rw [hev2, hfold, extract_core_explicit F2 _ _ _ _ hextL hextM]
      refine ⟨?_, ?_, ?_, ?_⟩
      · rw [hev2']
        exact hts.symm
      · rw [hev2', hL]
      · rw [hev2', hM]
      · intro k
        rw [hev2']
        show findField k (removeField "message" (removeField "level" F2)) =
          findField k ev1.fields
        by_cases hk1 : k = "level"
        · subst hk1
          rw [findField_removeField_other (by decide : ("level" : String) ≠ "message")]
          rw [findField_removeField_self hndF2]
          have hnm : "level" ∉ ev1.fields.map Prod.fst := hLkey (by rw [hL]; simp)
          rw [findField_eq_none_of_not_mem hnm]
        · by_cases hk2 : k = "message"
          · subst hk2
            have hnd2' : ((removeField "level" F2).map Prod.fst).Nodup :=
              (removeField_map_fst_sublist "level" F2).nodup hndF2
            rw [findField_removeField_self hnd2']
            have hnm : "message" ∉ ev1.fields.map Prod.fst := hMkey (by rw [hM]; simp)
            rw [findField_eq_none_of_not_mem hnm]
          · rw [findField_removeField_other hk2, findField_removeField_other hk1]
            rw [hF2find k, hfindOther k hk1 hk2]
            exact hRPval2 k
    | none =>
      have hLv := hLval L hL
      have hcore : coreToks ev1 = [.quoted "level" L] := by
        unfold coreToks
        rw [hts, hL, hM]
        rfl
      have hformat : defaultFormat ev1 = joinSep " "
          ((LTok.quoted "level" L :: restToks ev1).map renderLTok) := by
        rw [defaultFormat_eq_tokens, hcore]
        rfl
      have hwf2 : ∀ u ∈ (LTok.quoted "level" L :: restToks ev1), tokWF u = true := by
        intro u hu
        rcases List.mem_cons.mp hu with hu | hu
        · subst hu
          exact hLtokWF L hL
        · exact hrestWF u hu
      have hP2 : ((LTok.quoted "level" L :: restToks ev1).map
          (fun t => (tokKey t, tokVal t))) = ("level", L) :: RP := by
        simp only [List.map_cons]
        rw [hRPpairs]
        rfl
      have hp := logfmtParse_tokens (LTok.quoted "level" L :: restToks ev1) hwf2
      rw [hP2, ← hformat] at hp
      rw [hp] at h2
      have hev2 : ev2 = ((("level", L) :: RP).foldl
          (fun ev kv => ev.set_field kv.1 (parse_field_value kv.2))
          Event.new).extract_core_fields := by
        injection h2 with h3
        exact h3.symm
      obtain ⟨F2, hF2def⟩ : ∃ F2, F2 = (("level", L) :: RP).foldl
          (fun a kv => putField kv.1 (parse_field_value kv.2) a) [] := ⟨_, rfl⟩
      have hfold : (("level", L) :: RP).foldl
          (fun ev kv => ev.set_field kv.1 (parse_field_value kv.2)) Event.new =
          { Event.new with fields := F2 } := by
        rw [foldl_set_field_eq_str parse_field_value]
        rw [show (Event.new).fields = [] from rfl, ← hF2def]
      have hP2nd : ((("level", L) :: RP).map Prod.fst).Nodup := by
        simp only [List.map_cons]
        refine List.nodup_cons.mpr ⟨?_, hRPnd⟩
        intro hmem
        rw [hRPkeys] at hmem
        exact hLkey (by rw [hL]; simp) (mem_sortStrings.mp hmem)
      have hF2find : ∀ k, findField k F2 =
          (match findStr k (("level", L) :: RP) with
           | some w => some (parse_field_value w)
           | none => none) := by
        intro k
        rw [hF2def, findField_foldl_putField_str parse_field_value _ [] k hP2nd]
        cases hfs : findStr k (("level", L) :: RP) <;> rfl
      have hfindOther : ∀ k, k ≠ "level" →
          findStr k (("level", L) :: RP) = findStr k RP := by
        intro k h1
        show (if "level" = k then some L else findStr k RP) = findStr k RP
        rw [if_neg (fun hh => h1 hh.symm)]
      have hndF2 : (F2.map Prod.fst).Nodup := by
        have hmf := map_fst_foldl_putField_str parse_field_value
          (("level", L) :: RP) [] (by simp) hP2nd
        rw [hF2def, hmf]
        simpa using hP2nd
      have hextL : extractSlot levelAliases F2 = (some L, removeField "level" F2) := by
        apply extractSlot_hit levelAliases F2 "level" L (by decide)
        · rw [hF2find "level", show findStr "level" (("level", L) :: RP) =
            some L from rfl]
          show some (parse_field_value L) = _
          rw [hLv.1]
        · intro b hb hbne s' hcontra
          rw [hF2find b, hfindOther b hbne] at hcontra
          exact hnoLalias b hb s' (hRPstr b s' hcontra)
      have hextM : extractSlot messageAliases (removeField "level" F2) =
          (none, removeField "level" F2) := by
        apply extractSlot_none
        intro b hb s' hcontra
        have hbl : b ≠ "level" := by
          intro hh
          subst hh
          exact absurd hb (by decide)
        rw [findField_removeField_other hbl, hF2find b, hfindOther b hbl] at hcontra
        exact hnoMalias b hb s' (hRPstr b s' hcontra)
      have hev2' : ev2 = { timestamp := none, level := some L, message := none, fields := removeField "level" F2 } := by
        rw [hev2, hfold, extract_core_explicit F2 _ _ _ _ hextL hextM]
      refine ⟨?_, ?_, ?_, ?_⟩
      · rw [hev2']
        exact hts.symm
      · rw [hev2', hL]
      · rw [hev2', hM]
      · intro k
        rw [hev2']
        show findField k (removeField "level" F2) = findField k ev1.fields
        by_cases hk1 : k = "level"
        · subst hk1
          rw [findField_removeField_self hndF2]
          have hnm : "level" ∉ ev1.fields.map Prod.fst := hLkey (by rw [hL]; simp)
          rw [findField_eq_none_of_not_mem hnm]
        · rw [findField_removeField_other hk1]
          rw [hF2find k, hfindOther k hk1]
          exact hRPval2 k
  | none =>
    cases hM : ev1.message with
    | some M =>
      have hMv := hMval M hM
      have hescM : escape_quotes M = M := escape_quotes_id hMv.2
      have hcore : coreToks ev1 = [.quoted "message" (escape_quotes M)] := by
        unfold coreToks
        rw [hts, hL, hM]
        rfl
      rw [hescM] at hcore
      have hformat : defaultFormat ev1 = joinSep " "
          ((LTok.quoted "message" M :: restToks ev1).map renderLTok) := by
        rw [defaultFormat_eq_tokens, hcore]
        rfl
      have hwf2 : ∀ u ∈ (LTok.quoted "message" M :: restToks ev1), tokWF u = true := by
        intro u hu
        rcases List.mem_cons.mp hu with hu | hu
        · subst hu
          exact hMtokWF M hM
        · exact hrestWF u hu
      have hP2 : ((LTok.quoted "message" M :: restToks ev1).map
          (fun t => (tokKey t, tokVal t))) = ("message", M) :: RP := by
        simp only [List.map_cons]
        rw [hRPpairs]
        rfl
      have hp := logfmtParse_tokens (LTok.quoted "message" M :: restToks ev1) hwf2
      rw [hP2, ← hformat] at hp
      rw [hp] at h2
      have hev2 : ev2 = ((("message", M) :: RP).foldl
          (fun ev kv => ev.set_field kv.1 (parse_field_value kv.2))
          Event.new).extract_core_fields := by
        injection h2 with h3
        exact h3.symm
      obtain ⟨F2, hF2def⟩ : ∃ F2, F2 = (("message", M) :: RP).foldl
          (fun a kv => putField kv.1 (parse_field_value kv.2) a) [] := ⟨_, rfl⟩
      have hfold : (("message", M) :: RP).foldl
          (fun ev kv => ev.set_field kv.1 (parse_field_value kv.2)) Event.new =
          { Event.new with fields := F2 } := by
        rw [foldl_set_field_eq_str parse_field_value]
        rw [show (Event.new).fields = [] from rfl, ← hF2def]
      have hP2nd : ((("message", M) :: RP).map Prod.fst).Nodup := by
        simp only [List.map_cons]
        refine List.nodup_cons.mpr ⟨?_, hRPnd⟩
        intro hmem
        rw [hRPkeys] at hmem
        exact hMkey (by rw [hM]; simp) (mem_sortStrings.mp hmem)
      have hF2find : ∀ k, findField k F2 =
          (match findStr k (("message", M) :: RP) with
           | some w => some (parse_field_value w)
           | none => none) := by
        intro k
        rw [hF2def, findField_foldl_putField_str parse_field_value _ [] k hP2nd]
        cases hfs : findStr k (("message", M) :: RP) <;> rfl
      have hfindOther : ∀ k, k ≠ "message" →
          findStr k (("message", M) :: RP) = findStr k RP := by
        intro k h1
        show (if "message" = k then some M else findStr k RP) = findStr k RP
        rw [if_neg (fun hh => h1 hh.symm)]
      have hndF2 : (F2.map Prod.fst).Nodup := by
        have hmf := map_fst_foldl_putField_str parse_field_value
          (("message", M) :: RP) [] (by simp) hP2nd
        rw [hF2def, hmf]
        simpa using hP2nd
      have hextL : extractSlot levelAliases F2 = (none, F2) := by
        apply extractSlot_none
        intro b hb s' hcontra
        have hbm : b ≠ "message" := by
          intro hh
          subst hh
          exact absurd hb (by decide)
        rw [hF2find b, hfindOther b hbm] at hcontra
        exact hnoLalias b hb s' (hRPstr b s' hcontra)
      have hextM : extractSlot messageAliases F2 =
          (some M, removeField "message" F2) := by
        apply extractSlot_hit messageAliases F2 "message" M (by decide)
        · rw [hF2find "message", show findStr "message" (("message", M) :: RP) =
            some M from rfl]
          show some (parse_field_value M) = _
          rw [hMv.1]
        · intro b hb hbne s' hcontra
          rw [hF2find b, hfindOther b hbne] at hcontra
          exact hnoMalias b hb s' (hRPstr b s' hcontra)
      have hev2' : ev2 = { timestamp := none, level := none, message := some M, fields := removeField "message" F2 } := by
        rw [hev2, hfold, extract_core_explicit F2 _ _ _ _ hextL hextM]
      refine ⟨?_, ?_, ?_, ?_⟩
      · rw [hev2']
        exact hts.symm
      · rw [hev2', hL]
      · rw [hev2', hM]
      · intro k
        rw [hev2']
        show findField k (removeField "message" F2) = findField k ev1.fields
        by_cases hk2 : k = "message"
        · subst hk2
          rw [findField_removeField_self hndF2]
          have hnm : "message" ∉ ev1.fields.map Prod.fst := hMkey (by rw [hM]; simp)
          rw [findField_eq_none_of_not_mem hnm]
        · rw [findField_removeField_other hk2]
          rw [hF2find k, hfindOther k hk2]
          exact hRPval2 k
    | none =>
      have hcore : coreToks ev1 = [] := by
        unfold coreToks
        rw [hts, hL, hM]
        rfl
      have hformat : defaultFormat ev1 = joinSep " " ((restToks ev1).map renderLTok) := by
        rw [defaultFormat_eq_tokens, hcore]
        rfl
      have hp := logfmtParse_tokens (restToks ev1) hrestWF
      rw [hRPpairs, ← hformat] at hp
      rw [hp] at h2
      have hev2 : ev2 = (RP.foldl
          (fun ev kv => ev.set_field kv.1 (parse_field_value kv.2))
          Event.new).extract_core_fields := by
        injection h2 with h3
        exact h3.symm
      obtain ⟨F2, hF2def⟩ : ∃ F2, F2 = RP.foldl
          (fun a kv => putField kv.1 (parse_field_value kv.2) a) [] := ⟨_, rfl⟩
      have hfold : RP.foldl
          (fun ev kv => ev.set_field kv.1 (parse_field_value kv.2)) Event.new =
          { Event.new with fields := F2 } := by
        rw [foldl_set_field_eq_str parse_field_value]
        rw [show (Event.new).fields = [] from rfl, ← hF2def]
      have hF2find : ∀ k, findField k F2 =
          (match findStr k RP with
           | some w => some (parse_field_value w)
           | none => none) := by
        intro k
        rw [hF2def, findField_foldl_putField_str parse_field_value _ [] k hRPnd]
        cases hfs : findStr k RP <;> rfl
      have hextL : extractSlot levelAliases F2 = (none, F2) := by
        apply extractSlot_none
        intro b hb s' hcontra
        rw [hF2find b] at hcontra
        exact hnoLalias b hb s' (hRPstr b s' hcontra)
      have hextM : extractSlot messageAliases F2 = (none, F2) := by
        apply extractSlot_none
        intro b hb s' hcontra
        rw [hF2find b] at hcontra
        exact hnoMalias b hb s' (hRPstr b s' hcontra)
      have hev2' : ev2 = { timestamp := none, level := none, message := none, fields := F2 } := by
        rw [hev2, hfold, extract_core_explicit F2 _ _ _ _ hextL hextM]
      refine ⟨?_, ?_, ?_, ?_⟩
      · rw [hev2']
        exact hts.symm
      · rw [hev2', hL]
      · rw [hev2', hM]
      · intro k
        rw [hev2']
        show findField k F2 = findField k ev1.fields
        rw [hF2find k]
        exact hRPval2 k

/-- Decidable side condition on a decoded value: if it is a number with
denominator 1 (an integral float in the exact-rational model), its
numerator lies in the `i64` range, so `fmtNumber` prints it without the
saturating cast clamping. -/
def intBounded : FieldValue → Bool
  | .num q => q.den != 1 || (decide (-(2 ^ 63) ≤ q.num) && decide (q.num ≤ 2 ^ 63 - 1))
  | _ => true

theorem intBounded_num {v : FieldValue} (h : intBounded v = true) :
    ∀ q, v = .num q → q.den = 1 → -(2 ^ 63) ≤ q.num ∧ q.num ≤ 2 ^ 63 - 1 := by
  intro q hq hden
  subst hq
  simp only [intBounded, Bool.or_eq_true, bne_iff_ne, Bool.and_eq_true,
    decide_eq_true_eq] at h
  rcases h with h | h
  · exact absurd hden h
  · exact h

/-- The logfmt format/re-parse round trip fails on a quoted value holding a
backslash: `escape_quotes` doubles it on output while `LogfmtParser` takes
the quoted capture verbatim, so the value comes back with two backslashes. -/
theorem C6_counterexample :
    logfmtParse "m=\"a\\b\"" =
      .ok { Event.new with fields := [("m", FieldValue.str "a\\b")] } ∧
    defaultFormat { Event.new with fields := [("m", FieldValue.str "a\\b")] } =
      "m=\"a\\\\b\"" ∧
    logfmtParse "m=\"a\\\\b\"" =
      .ok { Event.new with fields := [("m", FieldValue.str "a\\\\b")] } ∧
    FieldValue.str "a\\\\b" ≠ FieldValue.str "a\\b" := by
  refine ⟨rfl, rfl, rfl, by decide⟩

/-- C6 (amended): for a logfmt line given as a list of well-formed tokens -
identifier-shaped keys, values free of `"` and `\`, bare values nonempty
and whitespace-free, pairwise-distinct keys, at most one key aliasing the
`level` slot and at most one aliasing the `message` slot, and every
integral numeric value inside the `i64` range - parsing the line, then
formatting the resulting event with the default formatter and re-parsing,
yields an event with the same core slots and a field map agreeing at every
key (the round trip holds up to field order). -/
theorem C6_amended (toks : List LTok) (ev1 ev2 : Event)
    (hwf : ∀ t ∈ toks, tokWF t = true)
    (hnd : (toks.map tokKey).Nodup)
    (hLA : ∀ a ∈ toks.map tokKey, ∀ b ∈ toks.map tokKey,
      a ∈ levelAliases → b ∈ levelAliases → a = b)
    (hMA : ∀ a ∈ toks.map tokKey, ∀ b ∈ toks.map tokKey,
      a ∈ messageAliases → b ∈ messageAliases → a = b)
    (hnum : ∀ t ∈ toks, intBounded (parse_field_value (tokVal t)) = true)
    (h1 : logfmtParse (joinSep " " (toks.map renderLTok)) = .ok ev1)
    (h2 : logfmtParse (defaultFormat ev1) = .ok ev2) :
    eventEquiv ev2 ev1 := by
  obtain ⟨P, hPdef⟩ : ∃ P, P = toks.map (fun t => (tokKey t, tokVal t)) := ⟨_, rfl⟩
  have hPkeys : P.map Prod.fst = toks.map tokKey := by
    rw [hPdef, List.map_map]
    rfl
  have hPnd : (P.map Prod.fst).Nodup := by
    rw [hPkeys]
    exact hnd
  have hp := logfmtParse_tokens toks hwf
  rw [← hPdef] at hp
  rw [hp] at h1
  obtain ⟨F1, hF1def⟩ : ∃ F1, F1 = P.foldl
      (fun a kv => putField kv.1 (parse_field_value kv.2) a) [] := ⟨_, rfl⟩
  have hfold : P.foldl (fun ev kv => ev.set_field kv.1 (parse_field_value kv.2))
      Event.new = { Event.new with fields := F1 } := by
    rw [foldl_set_field_eq_str parse_field_value]
    rw [show (Event.new).fields = [] from rfl, ← hF1def]
  rw [hfold] at h1
  have hev1 : ev1 = ({ Event.new with fields := F1 } : Event).extract_core_fields := by
    injection h1 with h3
    exact h3.symm
  have hF1keys : F1.map Prod.fst = toks.map tokKey := by
    have hmf := map_fst_foldl_putField_str parse_field_value P [] (by simp) hPnd
    rw [hF1def, hmf]
    simpa using hPkeys
  have hF1nd : (F1.map Prod.fst).Nodup := by
    rw [hF1keys]
    exact hnd
  have hF1find : ∀ k, findField k F1 = (match findStr k P with
      | some w => some (parse_field_value w)
      | none => none) := by
    intro k
    rw [hF1def, findField_foldl_putField_str parse_field_value P [] k hPnd]
    cases hfs : findStr k P <;> rfl
  have hprov : ∀ k v, findField k F1 = some v → ∃ w, findStr k P = some w ∧
      v = parse_field_value w ∧ ∃ t ∈ toks, tokKey t = k ∧ tokVal t = w := by
    intro k v hv
    rw [hF1find k] at hv
    cases hfs : findStr k P with
    | none =>
      rw [hfs] at hv
      cases hv
    | some w =>
      rw [hfs] at hv
      have hmem := pair_mem_of_findStr_eq_some hfs
      rw [hPdef] at hmem
      obtain ⟨t, ht, hteq⟩ := List.mem_map.mp hmem
      exact ⟨w, rfl, (Option.some.inj hv).symm, t, ht,
        congrArg Prod.fst hteq, congrArg Prod.snd hteq⟩
  have hFround : ∀ k v, findField k F1 = some v →
      parse_field_value (captureOfVal v) = v := by
    intro k v hv
    obtain ⟨w, hfs, hveq, t, ht, hk, hw⟩ := hprov k v hv
    subst hveq
    apply pfv_captureOfVal
    · rw [← hw]
      exact tokVal_clean (hwf t ht)
    · rw [← hw]
      exact intBounded_num (hnum t ht)
  have hFstr : ∀ k s, findField k F1 = some (.str s) →
      s.data.all cleanChar = true := by
    intro k s hv
    obtain ⟨w, hfs, hveq, t, ht, hk, hw⟩ := hprov k (.str s) hv
    have hsw : s = w := pfv_str_eq hveq.symm
    subst hsw
    rw [← hw]
    exact tokVal_clean (hwf t ht)
  have hFkeys : ∀ k ∈ F1.map Prod.fst, keyWF k = true := by
    intro k hk
    rw [hF1keys] at hk
    obtain ⟨t, ht, rfl⟩ := List.mem_map.mp hk
    exact tokKey_keyWF (hwf t ht)
  by_cases hCL : ∃ a, a ∈ levelAliases ∧ ∃ s, findField a F1 = some (FieldValue.str s)
  · obtain ⟨a, ha, s, hsa⟩ := hCL
    have haK : a ∈ toks.map tokKey := by
      rw [← hF1keys]
      exact mem_of_findField_eq_some hsa
    have hothersL : ∀ b ∈ levelAliases, b ≠ a → ∀ s',
        findField b F1 ≠ some (.str s') := by
      intro b hb hbne s' hb'
      have hbK : b ∈ toks.map tokKey := by
        rw [← hF1keys]
        exact mem_of_findField_eq_some hb'
      exact hbne (hLA b hbK a haK hb ha)
    have hextL : extractSlot levelAliases F1 = (some s, removeField a F1) :=
      extractSlot_hit levelAliases F1 a s ha hsa hothersL
    have hndFA : ((removeField a F1).map Prod.fst).Nodup :=
      (removeField_map_fst_sublist a F1).nodup hF1nd
    have hsProp : parse_field_value s = .str s ∧ s.data.all cleanChar = true := by
      obtain ⟨w, hfs, hveq, t, ht, hk, hw⟩ := hprov a (.str s) hsa
      have hsw : s = w := pfv_str_eq hveq.symm
      subst hsw
      constructor
      · exact hveq.symm
      · rw [← hw]
        exact tokVal_clean (hwf t ht)
    by_cases hCM : ∃ b, b ∈ messageAliases ∧ ∃ u,
        findField b (removeField a F1) = some (FieldValue.str u)
    · obtain ⟨b, hbM, u, hub⟩ := hCM
      have hbF1 : findField b F1 = some (.str u) := findField_removeField_some hF1nd hub
      have hbK : b ∈ toks.map tokKey := by
        rw [← hF1keys]
        exact mem_of_findField_eq_some hbF1
      have hab : a ≠ b := levelAliases_ne_messageAliases a ha b hbM
      have hothersM : ∀ c ∈ messageAliases, c ≠ b → ∀ u',
          findField c (removeField a F1) ≠ some (.str u') := by
        intro c hc hcb u' hc'
        have hcF1 : findField c F1 = some (.str u') := findField_removeField_some hF1nd hc'
        have hcK : c ∈ toks.map tokKey := by
          rw [← hF1keys]
          exact mem_of_findField_eq_some hcF1
        exact hcb (hMA c hcK b hbK hc hbM)
      have hextM : extractSlot messageAliases (removeField a F1) =
          (some u, removeField b (removeField a F1)) :=
        extractSlot_hit messageAliases _ b u hbM hub hothersM
      have huProp : parse_field_value u = .str u ∧ u.data.all cleanChar = true := by
        obtain ⟨w, hfs, hveq, t, ht, hk, hw⟩ := hprov b (.str u) hbF1
        have huw : u = w := pfv_str_eq hveq.symm
        subst huw
        constructor
        · exact hveq.symm
        · rw [← hw]
          exact tokVal_clean (hwf t ht)
      have hev1' : ev1 = { timestamp := none, level := some s, message := some u, fields := removeField b (removeField a F1) } := by
        rw [hev1, extract_core_explicit F1 _ _ _ _ hextL hextM]
      have hMF1 : ∀ k v, findField k (removeField b (removeField a F1)) = some v →
          findField k F1 = some v := by
        intro k v h
        exact findField_removeField_some hF1nd (findField_removeField_some hndFA h)
      have hsubM : ∀ k, k ∈ (removeField b (removeField a F1)).map Prod.fst →
          k ∈ F1.map Prod.fst := by
        intro k hk
        exact (removeField_map_fst_sublist a F1).subset
          ((removeField_map_fst_sublist b _).subset hk)
      rw [hev1'] at h2 ⊢
      refine reparse_eventEquiv _ rfl ?_ ?_ ?_ ?_ ?_ ?_ ?_ ?_ ?_ ?_ ev2 h2
      · exact (removeField_map_fst_sublist b _).nodup hndFA
      · intro k v hv
        exact hFround k v (hMF1 k v hv)
      · intro k hk
        exact hFkeys k (hsubM k hk)
      · intro k str hstr
        exact hFstr k str (hMF1 k _ hstr)
      · intro L hLq
        have hLs : s = L := Option.some.inj hLq
        subst hLs
        exact hsProp
      · intro M hMq
        have hMu : u = M := Option.some.inj hMq
        subst hMu
        exact huProp
      · intro al hal s' h'
        by_cases hala : al = a
        · subst hala
          rw [findField_removeField_other hab, findField_removeField_self hF1nd] at h'
          cases h'
        · have halF1 : findField al F1 = some (.str s') := hMF1 al _ h'
          have halK : al ∈ toks.map tokKey := by
            rw [← hF1keys]
            exact mem_of_findField_eq_some halF1
          exact hala (hLA al halK a haK hal ha)
      · intro bm hbm u' h'
        by_cases hbmb : bm = b
        · subst hbmb
          rw [findField_removeField_self hndFA] at h'
          cases h'
        · have hbmF1 : findField bm F1 = some (.str u') := hMF1 bm _ h'
          have hbmK : bm ∈ toks.map tokKey := by
            rw [← hF1keys]
            exact mem_of_findField_eq_some hbmF1
          exact hbmb (hMA bm hbmK b hbK hbm hbM)
      · intro _ hmem
        have hlv : "level" ∈ toks.map tokKey := by
          rw [← hF1keys]
          exact hsubM "level" hmem
        have haL : a = "level" := (hLA "level" hlv a haK (by decide) ha).symm
        subst haL
        exact not_mem_removeField_self hF1nd
          ((removeField_map_fst_sublist b _).subset hmem)
      · intro _ hmem
        have hmv : "message" ∈ toks.map tokKey := by
          rw [← hF1keys]
          exact hsubM "message" hmem
        have hbMg : b = "message" := (hMA "message" hmv b hbK (by decide) hbM).symm
        subst hbMg
        exact not_mem_removeField_self hndFA hmem
    · have hextM : extractSlot messageAliases (removeField a F1) =
          (none, removeField a F1) := by
        apply extractSlot_none
        intro c hc u hcu
        exact hCM ⟨c, hc, u, hcu⟩
      have hev1' : ev1 = { timestamp := none, level := some s, message := none, fields := removeField a F1 } := by
        rw [hev1, extract_core_explicit F1 _ _ _ _ hextL hextM]
      have hMF1 : ∀ k v, findField k (removeField a F1) = some v →
          findField k F1 = some v := by
        intro k v h
        exact findField_removeField_some hF1nd h
      rw [hev1'] at h2 ⊢
      refine reparse_eventEquiv _ rfl ?_ ?_ ?_ ?_ ?_ ?_ ?_ ?_ ?_ ?_ ev2 h2
      · exact hndFA
      · intro k v hv
        exact hFround k v (hMF1 k v hv)
      · intro k hk
        exact hFkeys k ((removeField_map_fst_sublist a F1).subset hk)
      · intro k str hstr
        exact hFstr k str (hMF1 k _ hstr)
      · intro L hLq
        have hLs : s = L := Option.some.inj hLq
        subst hLs
        exact hsProp
      · intro M hMq
        exact Option.noConfusion hMq
      · intro al hal s' h'
        by_cases hala : al = a
        · subst hala
          rw [findField_removeField_self hF1nd] at h'
          cases h'
        · have halF1 : findField al F1 = some (.str s') := hMF1 al _ h'
          have halK : al ∈ toks.map tokKey := by
            rw [← hF1keys]
            exact mem_of_findField_eq_some halF1
          exact hala (hLA al halK a haK hal ha)
      · intro bm hbm u' h'
        exact hCM ⟨bm, hbm, u', h'⟩
      · intro _ hmem
        have hlv : "level" ∈ toks.map tokKey := by
          rw [← hF1keys]
          exact ((removeField_map_fst_sublist a F1).subset hmem)
        have haL : a = "level" := (hLA "level" hlv a haK (by decide) ha).symm
        subst haL
        exact not_mem_removeField_self hF1nd hmem
      · intro hne _
        exact absurd rfl hne
  · have hextL : extractSlot levelAliases F1 = (none, F1) := by
      apply extractSlot_none
      intro c hc u hcu
      exact hCL ⟨c, hc, u, hcu⟩
    by_cases hCM : ∃ b, b ∈ messageAliases ∧ ∃ u,
        findField b F1 = some (FieldValue.str u)
    · obtain ⟨b, hbM, u, hub⟩ := hCM
      have hbK : b ∈ toks.map tokKey := by
        rw [← hF1keys]
        exact mem_of_findField_eq_some hub
      have hothersM : ∀ c ∈ messageAliases, c ≠ b → ∀ u',
          findField c F1 ≠ some (.str u') := by
        intro c hc hcb u' hc'
        have hcK : c ∈ toks.map tokKey := by
          rw [← hF1keys]
          exact mem_of_findField_eq_some hc'
        exact hcb (hMA c hcK b hbK hc hbM)
      have hextM : extractSlot messageAliases F1 = (some u, removeField b F1) :=
        extractSlot_hit messageAliases F1 b u hbM hub hothersM
      have huProp : parse_field_value u = .str u ∧ u.data.all cleanChar = true := by
        obtain ⟨w, hfs, hveq, t, ht, hk, hw⟩ := hprov b (.str u) hub
        have huw : u = w := pfv_str_eq hveq.symm
        subst huw
        constructor
        · exact hveq.symm
        · rw [← hw]
          exact tokVal_clean (hwf t ht)
      have hev1' : ev1 = { timestamp := none, level := none, message := some u, fields := removeField b F1 } := by
        rw [hev1, extract_core_explicit F1 _ _ _ _ hextL hextM]
      have hMF1 : ∀ k v, findField k (removeField b F1) = some v →
          findField k F1 = some v := by
        intro k v h
        exact findField_removeField_some hF1nd h
      rw [hev1'] at h2 ⊢
      refine reparse_eventEquiv _ rfl ?_ ?_ ?_ ?_ ?_ ?_ ?_ ?_ ?_ ?_ ev2 h2
      · exact (removeField_map_fst_sublist b F1).nodup hF1nd
      · intro k v hv
        exact hFround k v (hMF1 k v hv)
      · intro k hk
        exact hFkeys k ((removeField_map_fst_sublist b F1).subset hk)
      · intro k str hstr
        exact hFstr k str (hMF1 k _ hstr)
      · intro L hLq
        exact Option.noConfusion hLq
      · intro M hMq
        have hMu : u = M := Option.some.inj hMq
        subst hMu
        exact huProp
      · intro al hal s' h'
        exact hCL ⟨al, hal, s', hMF1 al _ h'⟩
      · intro bm hbm u' h'
        by_cases hbmb : bm = b
        · subst hbmb
          rw [findField_removeField_self hF1nd] at h'
          cases h'
        · have hbmF1 : findField bm F1 = some (.str u') := hMF1 bm _ h'
          have hbmK : bm ∈ toks.map tokKey := by
            rw [← hF1keys]
            exact mem_of_findField_eq_some hbmF1
          exact hbmb (hMA bm hbmK b hbK hbm hbM)
      · intro hne _
        exact absurd rfl hne
      · intro _ hmem
        have hmv : "message" ∈ toks.map tokKey := by
          rw [← hF1keys]
          exact ((removeField_map_fst_sublist b F1).subset hmem)
        have hbMg : b = "message" := (hMA "message" hmv b hbK (by decide) hbM).symm
        subst hbMg
        exact not_mem_removeField_self hF1nd hmem
    · have hextM : extractSlot messageAliases F1 = (none, F1) := by
        apply extractSlot_none
        intro c hc u hcu
        exact hCM ⟨c, hc, u, hcu⟩
      have hev1' : ev1 = { timestamp := none, level := none, message := none, fields := F1 } := by
        rw [hev1, extract_core_explicit F1 _ _ _ _ hextL hextM]
      rw [hev1'] at h2 ⊢
      refine reparse_eventEquiv _ rfl ?_ ?_ ?_ ?_ ?_ ?_ ?_ ?_ ?_ ?_ ev2 h2
      · exact hF1nd
      · exact hFround
      · exact hFkeys
      · exact hFstr
      · intro L hLq
        exact Option.noConfusion hLq
      · intro M hMq
        exact Option.noConfusion hMq
      · intro al hal s' h'
        exact hCL ⟨al, hal, s', h'⟩
      · intro bm hbm u' h'
        exact hCM ⟨bm, hbm, u', h'⟩
      · intro hne _
        exact absurd rfl hne
      · intro hne _
        exact absurd rfl hne

/-- Token list for the C6 witness: a level alias, a message alias, an
integer, a non-integral float, a bool, and a null. -/
def wToks : List LTok := [.quoted "level" "info", .quoted "msg" "hello world",
  .bare "count" "42", .bare "pi" "3.5", .bare "flag" "true", .bare "n" "null"]

/-- The event the C6 witness line parses to. -/
def wEv1 : Event := ⟨none, some "info", some "hello world",
  [("count", FieldValue.num 42), ("pi", FieldValue.num (mkRat 7 2)),
    ("flag", FieldValue.bool true), ("n", FieldValue.null)]⟩

/-- The event re-parsing the formatted C6 witness line yields: the same
map with the remainder keys in sorted order. -/
def wEv2 : Event := ⟨none, some "info", some "hello world",
  [("count", FieldValue.num 42), ("flag", FieldValue.bool true),
    ("n", FieldValue.null), ("pi", FieldValue.num (mkRat 7 2))]⟩

/-- C6 amended witness: the six-token line exercising every hypothesis
round-trips through format and re-parse to an equivalent event. -/
theorem C6_amended_witness :
    logfmtParse (joinSep " " (wToks.map renderLTok)) = .ok wEv1 ∧
    logfmtParse (defaultFormat wEv1) = .ok wEv2 ∧
    eventEquiv wEv2 wEv1 :=
  ⟨by rfl, by rfl,
    C6_amended wToks wEv1 wEv2 (by decide) (by decide) (by decide) (by decide)
      (by decide) (by rfl) (by rfl)⟩

end Kelora
